import Mathlib

/-!
# The /proc/registry file handler (winsup/cygwin/fhandler_registry.cc)

A shallow embedding of the registry file handler of Cygwin: the name codec
(`encode_regname`, `decode_regname`), the key resolver (`open_key`), the
existence oracle (`exists`), the directory iterator (`readdir`, `telldir`,
`seekdir`, `rewinddir`), `open` and the value reader (`fill_filebuf`), with the
properties the specification states about them.

Conventions of the embedding
* a C `char` is a natural number (its byte value); a C string is the list of
  its bytes, the terminating NUL being implicit: reading one past the end of
  the list yields `0`, and a `0` inside the list ends the string early, as it
  does in C;
* an output buffer `dst` is the list of bytes written so far, so the write
  index `di` of the source is `dst.length`; the capacity of a buffer is not
  modelled;
* a function that returns a status and fills a buffer returns the pair
  (status, buffer);
* the Win32 registry calls and the helpers of other files are the fields of
  the parameter `Env`; the handles the code holds and errno are the explicit
  state `World`;
* a loop that the source does not bound takes a bound on its iterations and
  gives `none` when the bound is reached;
* a position is a natural number: the positions of the statements proved
  here stay below 2^31, the range of a signed `_off_t` of 32 bits.
-/

namespace Registry

/-! ## Characters and C strings -/

/-- The bytes of a string literal, for readable statements. -/
def cstr (s : String) : List Nat := s.toList.map Char.toNat

/-- Read `src[i]` of a NUL-terminated C string. -/
def at_ (src : List Nat) (i : Nat) : Nat := src.getD i 0

/-- Modelled from the spec: `isdirsep` is a macro of winsup.h, which is not
among the sources; the spec calls its characters "path separators", the
slash and the backslash. -/
def isdirsep (c : Nat) : Bool := c == 47 || c == 92

/-- Return true if char must be encoded (line 85). -/
def must_encode (c : Nat) : Bool := isdirsep c || c == 58 || c == 37

/-- Value of errno.h, which is not among the sources. -/
def ENAMETOOLONG : Int := 91

/-- One lowercase hexadecimal digit. -/
def hex_digit (d : Nat) : Nat := if d < 10 then 48 + d else 87 + d

/-- Modelled from the spec: `__small_sprintf` is not among the sources; with
the format "%%%02x" it writes a percent sign and the two lowercase
hexadecimal digits of a character code below 256 ("`%` + 2 hex digits"). -/
def small_sprintf_pct02x (c : Nat) : List Nat :=
  [37, hex_digit (c / 16 % 16), hex_digit (c % 16)]

/-! ## strtoul -/

/-- The C locale `isspace`. -/
def isspace (c : Nat) : Bool := c == 32 || (9 ≤ c && c ≤ 13)

/-- Value of a digit character in `strtoul`: decimal digits, then letters of
either case counting from ten. -/
def strtoul_digit (c : Nat) : Option Nat :=
  if 48 ≤ c ∧ c ≤ 57 then some (c - 48)
  else if 65 ≤ c ∧ c ≤ 90 then some (c - 65 + 10)
  else if 97 ≤ c ∧ c ≤ 122 then some (c - 97 + 10)
  else none

/-- The largest `unsigned long` of the 32 bit target. -/
def ULONG_MAX : Nat := 4294967295

/-- Digit accumulation loop of `strtoul`; the flag records an overflow
(`any < 0` in the library source). -/
def strtoul_loop (base : Nat) : List Nat → Nat → Bool → Nat × Bool
  | [], acc, ovf => (acc, ovf)
  | c :: s, acc, ovf =>
    match strtoul_digit c with
    | none => (acc, ovf)
    | some d =>
      if d ≥ base then (acc, ovf)
      else if ovf || decide (acc > ULONG_MAX / base)
                || (acc == ULONG_MAX / base && decide (d > ULONG_MAX % base)) then
        strtoul_loop base s acc true
      else strtoul_loop base s (acc * base + d) ovf

/-- Skip leading white space. -/
def strtoul_skip : List Nat → List Nat
  | [] => []
  | c :: s => if isspace c then strtoul_skip s else c :: s

/-- An optional sign: the flag tells whether it was a minus. -/
def strtoul_sign : List Nat → Bool × List Nat
  | [] => (false, [])
  | c :: t => if c = 45 then (true, t) else if c = 43 then (false, t) else (false, c :: t)

/-- An optional `0x` or `0X` prefix (base 16). -/
def strtoul_skip0x : List Nat → List Nat
  | c :: x :: t => if c = 48 ∧ (x = 120 ∨ x = 88) then t else c :: x :: t
  | s => s

/-- Modelled from the spec: `strtoul` is library code that is not among the
sources; the spec only speaks of "2 hex digits". This follows the C library
routine for base 16: optional white space, an optional sign, an optional
`0x` prefix, then digits of either case; the result is an `unsigned long`. -/
def strtoul16 (nptr : List Nat) : Nat :=
  let r := strtoul_sign (strtoul_skip nptr)
  let v := strtoul_loop 16 (strtoul_skip0x r.2) 0 false
  if v.2 then ULONG_MAX
  else if r.1 then (ULONG_MAX + 1 - v.1) % (ULONG_MAX + 1)
  else v.1

/-- The C locale `isxdigit`: a hexadecimal digit of either case. -/
def isxdigit (c : Nat) : Bool :=
  (48 ≤ c && c ≤ 57) || (65 ≤ c && c ≤ 70) || (97 ≤ c && c ≤ 102)

/-- Value of a hexadecimal digit character. -/
def hex_value (c : Nat) : Nat :=
  if c ≤ 57 then c - 48 else if c ≤ 70 then c - 55 else c - 87

/-! ## Name codec -/

/-- The loop of `encode_regname` (lines 97-110). The third argument is the
rest of the source from `src + si` on; `none` stands for the early
`return ENAMETOOLONG`. -/
def encode_loop (NAME_MAX : Nat) (src : List Nat) :
    List Nat → Nat → List Nat → Option (List Nat)
  | [], _, dst => some dst
  | c :: rest, si, dst =>
    if c = 0 then some dst
    else if must_encode c ||
        (c == 46 && si == 0 &&
          (at_ src 1 == 0 || (at_ src 1 == 46 && at_ src 2 == 0))) then
      if dst.length + 3 ≥ NAME_MAX + 1 then none
      else encode_loop NAME_MAX src rest (si + 1) (dst ++ small_sprintf_pct02x c)
    else encode_loop NAME_MAX src rest (si + 1) (dst ++ [c])

/-- Encode special chars in registry key or value name (lines 93-122).
Returns the status and the bytes written to `dst`; on `ENAMETOOLONG` the
buffer content is not meaningful and is given as empty. -/
def encode_regname (NAME_MAX : Nat) (src : List Nat) ( add_val : Bool) :
    Int × List Nat :=
  match encode_loop NAME_MAX src src 0 [] with
  | none => (ENAMETOOLONG, [])
  | some dst =>
    if add_val then
      if dst.length + 4 ≥ NAME_MAX + 1 then (ENAMETOOLONG, [])
      else (0, dst ++ [37, 118, 97, 108])
    else (0, dst)

/-- The loop of `decode_regname` (lines 134-157). The third argument is the
rest of the source from `src + si` on. -/
def decode_loop (src : List Nat) (len : Nat) :
    List Nat → Nat → List Nat → Int × List Nat
  | [], _, dst => (0, dst)
  | c :: rest, si, dst =>
    if c = 37 then
      if si + 4 = len ∧ rest.take 3 = [118, 97, 108] then (1, dst)
      else if si + 2 ≥ len then (-1, dst)
      else
        match rest with
        | h1 :: h2 :: rest2 =>
          let c := strtoul16 [h1, h2] % 256
          if !(must_encode c ||
              (c == 46 && si == 0 &&
                (len == 3 || (at_ src 3 == 46 && len == 4)))) then (-1, dst)
          else decode_loop src len rest2 (si + 3) (dst ++ [c])
        | _ => (-1, dst)
    else decode_loop src len rest (si + 1) (dst ++ [c])

/-- Length of a C string: the number of bytes before the first NUL. -/
def strlen : List Nat → Nat
  | [] => 0
  | c :: s => if c = 0 then 0 else strlen s + 1

/-- Decode special chars in registry key or value name (lines 127-160), with an
explicit `len ≥ 0`: the first `len` bytes of `src` are decoded.
Returns 0: success, 1: "%val" detected, -1: error; and the bytes written. -/
def decode_regname_len (src : List Nat) (len : Nat) : Int × List Nat :=
  decode_loop src len (src.take len) 0 []

/-- The same function called with the default `len = -1`: the length is
`strlen (src)`. -/
def decode_regname (src : List Nat) : Int × List Nat :=
  decode_regname_len src (strlen src)

/-! ## The encoded form in the words of the specification -/

/-- The marker "%val". -/
def val_marker : List Nat := [37, 118, 97, 108]

/-- Specification of the escape of one character: a character that is a path
separator, the colon or the percent sign becomes `%` and the two lowercase
hexadecimal digits of its code; any other character stands for itself. -/
def escape_char (c : Nat) : List Nat :=
  if must_encode c then [37, hex_digit (c / 16), hex_digit (c % 16)] else [c]

/-- Specification of the escape of a name, character by character. -/
def escape_body : List Nat → List Nat
  | [] => []
  | c :: x => escape_char c ++ escape_body x

/-- Specification of the encoded name: the names `.` and `..` have their
first character escaped, every other name is escaped character by character. -/
def escaped_name (x : List Nat) : List Nat :=
  if x = [46] then [37, 50, 101]
  else if x = [46, 46] then [37, 50, 101, 46]
  else escape_body x

/-- The suffix appended for the flag `add_val`. -/
def val_suffix ( add_val : Bool) : List Nat := if add_val then val_marker else []

/-- A C string without an embedded NUL: the list is the whole string. -/
def NulFree (x : List Nat) : Prop := ∀ c ∈ x, c ≠ 0

instance (x : List Nat) : Decidable (NulFree x) := by
  unfold NulFree; infer_instance

/-- What starts at a percent sign of an encoded string: the escape of a
character that must be encoded, or the final marker. -/
def PctStart (b : Bool) (out : List Nat) (i : Nat) : Prop :=
  (∃ c, must_encode c = true ∧
      (out.drop i).take 3 = [37, hex_digit (c / 16), hex_digit (c % 16)]) ∨
    (b = true ∧ i + 4 = out.length ∧ out.drop i = val_marker)

/-- The escape that starts at index `i` of `s` is bad in the sense of the
specification: (a) fewer than two characters follow the percent sign, or (b)
the two following characters are not both hexadecimal digits, or (c) they are
and the character they denote is neither one that must be encoded nor a
leading dot whose whole name is `.` or `..`, that is the whole string is the
escape alone or the escape followed by one dot. -/
def BadEscape (s : List Nat) (i : Nat) : Prop :=
  i + 2 ≥ s.length ∨
  (isxdigit (at_ s (i + 1)) && isxdigit (at_ s (i + 2))) = false ∨
  (isxdigit (at_ s (i + 1)) = true ∧ isxdigit (at_ s (i + 2)) = true ∧
    must_encode (hex_value (at_ s (i + 1)) * 16 + hex_value (at_ s (i + 2))) = false ∧
    ¬ (hex_value (at_ s (i + 1)) * 16 + hex_value (at_ s (i + 2)) = 46 ∧ i = 0 ∧
        (s.length = 3 ∨ (s.length = 4 ∧ at_ s 3 = 46))))

/-- An uppercase hexadecimal letter `A`..`F`. -/
def is_upper_hex (c : Nat) : Bool := 65 ≤ c && c ≤ 70

/-- No percent sign of the string is followed, within two characters, by an
uppercase hexadecimal letter: escapes are written with lowercase digits. -/
def lower_hex_escapes : List Nat → Bool
  | [] => true
  | c :: rest =>
    (c != 37 || (!is_upper_hex (at_ rest 0) && !is_upper_hex (at_ rest 1)))
      && lower_hex_escapes rest

/-- The string holds no unescaped `/`, `\` or `:`. -/
def no_raw_special (s : List Nat) : Bool :=
  s.all fun c => c != 47 && c != 92 && c != 58

/-- Canonical input of the decoder: no unescaped separator or colon, not the
literal name `.` or `..`, and lowercase escapes. -/
def canonical (s : List Nat) : Bool :=
  no_raw_special s && s != [46] && s != [46, 46] && lower_hex_escapes s

/-- The one canonical input that decodes to the raw name `x` with hint `b`. -/
def decoded_form (x : List Nat) (b : Bool) : List Nat :=
  if b = false ∧ x = [46] then [37, 50, 101]
  else if b = false ∧ x = [46, 46] then [37, 50, 101, 46]
  else escape_body x ++ val_suffix b

/-! ## The host registry interface and the process state

The Win32 registry calls, the error mapping and the path hash are not among
the sources: they are the parameters `Env` of the embedding. An unchanged store
is a store whose calls are functions of their arguments. -/

/-- A key handle. -/
abbrev HKEY := Nat

/-- Value of winbase.h, which is not among the sources: `(HANDLE) -1`. -/
def INVALID_HANDLE_VALUE : HKEY := 4294967295

/-- Predefined keys, values of winreg.h, which is not among the sources. -/
def HKEY_CLASSES_ROOT : HKEY := 2147483648

/-- Predefined key of winreg.h. -/
def HKEY_CURRENT_USER : HKEY := 2147483649

/-- Predefined key of winreg.h. -/
def HKEY_LOCAL_MACHINE : HKEY := 2147483650

/-- Predefined key of winreg.h. -/
def HKEY_USERS : HKEY := 2147483651

/-- Predefined key of winreg.h. -/
def HKEY_PERFORMANCE_DATA : HKEY := 2147483652

/-- Predefined key of winreg.h. -/
def HKEY_CURRENT_CONFIG : HKEY := 2147483653

/-- Error code of winerror.h, which is not among the sources. -/
def ERROR_SUCCESS : Nat := 0

/-- Error code of winerror.h. -/
def ERROR_FILE_NOT_FOUND : Nat := 2

/-- Error code of winerror.h. -/
def ERROR_ACCESS_DENIED : Nat := 5

/-- Error code of winerror.h. -/
def ERROR_MORE_DATA : Nat := 234

/-- Error code of winerror.h. -/
def ERROR_NO_MORE_ITEMS : Nat := 259

/-- Access mask of winnt.h, which is not among the sources. -/
def KEY_READ : Nat := 131097

/-- Value of errno.h, which is not among the sources. -/
def ENOENT : Int := 2

/-- Value of errno.h. -/
def EINVAL : Int := 22

/-- Value of errno.h. -/
def ENMFILE : Int := 89

/-- Value of dirent.h, which is not among the sources. -/
def DT_DIR : Nat := 4

/-- Value of dirent.h. -/
def DT_REG : Nat := 8

/-- What the file handler calls and does not define. Every registry call gives
its status first. The enumeration calls are always made with a buffer of
`NAME_MAX + 1` bytes and give the content of the buffer after the call. -/
structure Env where
  /-- Constant of limits.h. -/
  NAME_MAX : Nat
  /-- Arguments: parent key, sub-key name, access mask. Gives the new handle. -/
  RegOpenKeyEx : HKEY → List Nat → Nat → Nat × HKEY
  /-- The call with `REG_OPTION_BACKUP_RESTORE`. Same arguments. -/
  RegCreateKeyEx : HKEY → List Nat → Nat → Nat × HKEY
  /-- Arguments: key, index. Gives the name of the sub-key. -/
  RegEnumKeyEx : HKEY → Nat → Nat × List Nat
  /-- Arguments: key, index. Gives the name of the value. -/
  RegEnumValue : HKEY → Nat → Nat × List Nat
  /-- Arguments: key, value name, size of the data buffer (`none` for a NULL
  buffer). Gives the size and the data. -/
  RegQueryValueEx : HKEY → List Nat → Option Nat → Nat × Nat × List Nat
  /-- The errno of a Win32 error (errno.cc). -/
  geterrno_from_win_error : Nat → Int
  /-- The hash of a name (path.cc), an `unsigned`. -/
  hash_path_name : Nat → List Nat → Nat

/-- The part of the process state the handler changes: the key handles it has
opened and not closed, and errno. -/
structure World where
  opened : List HKEY
  errno : Int
deriving DecidableEq

/-- The effect of `set_errno`. -/
def set_errno (e : Int) (w : World) : World := { w with errno := e }

/-- The effect of `seterrno_from_win_error`. -/
def seterrno_from_win_error (env : Env) (error : Nat) (w : World) : World :=
  { w with errno := env.geterrno_from_win_error error }

/-- The effect of a successful open call: one more open handle. -/
def note_open (h : HKEY) (w : World) : World := { w with opened := h :: w.opened }

/-- The effect of `RegCloseKey`: one open handle less. -/
def RegCloseKey (h : HKEY) (w : World) : World := { w with opened := w.opened.erase h }

/-- ASCII lower case, the `cyg_tolower` of the comparisons. -/
def cyg_tolower (c : Nat) : Nat := if 65 ≤ c ∧ c ≤ 90 then c + 32 else c

/-- Modelled from the spec: `strcasematch` is not among the sources; it is the
"case-insensitive" equality of two C strings. -/
def strcasematch : List Nat → List Nat → Bool
  | [], s2 => at_ s2 0 == 0
  | c :: s1, s2 =>
    if c = 0 then at_ s2 0 == 0
    else if cyg_tolower c ≠ cyg_tolower (at_ s2 0) then false
    else strcasematch s1 (s2.drop 1)

/-- Modelled from the spec: `strncasematch` is not among the sources; the
case-insensitive equality of the first `n` characters. -/
def strncasematch : List Nat → List Nat → Nat → Bool
  | _, _, 0 => true
  | [], s2, _ + 1 => at_ s2 0 == 0
  | c :: s1, s2, n + 1 =>
    if c = 0 then at_ s2 0 == 0
    else if cyg_tolower c ≠ cyg_tolower (at_ s2 0) then false
    else strncasematch s1 (s2.drop 1) n

/-- Modelled from the spec: `path_prefix_p` is not among the sources; the
handler uses it to "match leaf case-insensitively against the Root Catalog
names": `path1` of length `len1` is a prefix of `path2` that ends at a
path separator or at the end of `path2`. -/
def path_prefix_p (path1 path2 : List Nat) (len1 : Nat) (caseinsensitive : Bool) : Bool :=
  let len1 := if len1 > 0 && isdirsep (at_ path1 (len1 - 1)) then len1 - 1 else len1
  if len1 = 0 then isdirsep (at_ path2 0) && !isdirsep (at_ path2 1)
  else if isdirsep (at_ path2 len1) || at_ path2 len1 == 0 || at_ path1 (len1 - 1) == 58 then
    if caseinsensitive then strncasematch path1 path2 len1
    else (path1.take len1 == path2.take len1)
  else false

/-- List of root keys in /proc/registry (lines 37-48). -/
def registry_listing : List (List Nat) :=
  [cstr ".", cstr "..", cstr "HKEY_CLASSES_ROOT", cstr "HKEY_CURRENT_CONFIG",
    cstr "HKEY_CURRENT_USER", cstr "HKEY_LOCAL_MACHINE", cstr "HKEY_USERS",
    cstr "HKEY_PERFORMANCE_DATA"]

/-- The handles of the root keys (lines 50-60). -/
def registry_keys : List HKEY :=
  [INVALID_HANDLE_VALUE, INVALID_HANDLE_VALUE, HKEY_CLASSES_ROOT, HKEY_CURRENT_CONFIG,
    HKEY_CURRENT_USER, HKEY_LOCAL_MACHINE, HKEY_USERS, HKEY_PERFORMANCE_DATA]

/-- Number of root entries (line 62). -/
def ROOT_KEY_COUNT : Nat := registry_keys.length

/-- These get added to each subdirectory in /proc/registry (lines 68-73). -/
def special_dot_files : List (List Nat) := [cstr ".", cstr ".."]

/-- Number of dot entries (line 75). -/
def SPECIAL_DOT_FILE_COUNT : Nat := special_dot_files.length

/-- Name given to default values (line 79). -/
def DEFAULT_VALUE_NAME : List Nat := cstr "@"

/-! ## The key resolver -/

/-- Return true if subkey NAME exists in key PARENT (lines 193-202). The
handle of a successful open is closed at once. -/
def key_exists (env : Env) (parent : HKEY) (name : List Nat) (wow64 : Nat) (w : World) :
    Bool × World :=
  let r := env.RegOpenKeyEx parent name (KEY_READ ||| wow64)
  let w := if r.1 = ERROR_SUCCESS then RegCloseKey r.2 (note_open r.2 w) else w
  (r.1 == ERROR_SUCCESS || r.1 == ERROR_ACCESS_DENIED, w)

/-- Length of the path component at the start of `name` (lines 833-834): the
characters before the first separator or the end of the string. -/
def component_len : List Nat → Nat
  | [] => 0
  | c :: s => if c = 0 ∨ isdirsep c = true then 0 else component_len s + 1

/-- The result of `strchr (name, '/') == NULL`. -/
def no_slash (name : List Nat) : Bool := !((name.take (strlen name)).contains 47)

/-- The loop over the root names (lines 883-885): the last match wins. -/
def root_key_lookup (component : List Nat) (hKey : HKEY) : HKEY :=
  (registry_listing.zip registry_keys).foldl
    (fun h p => if strcasematch component p.1 then p.2 else h) hKey

/-- The loop of `open_key` (lines 830-890) on the rest `name` of the path. The
first argument bounds the number of iterations; every iteration consumes
one character or more, so `strlen name + 1` is enough. -/
def open_key_loop (env : Env) (access wow64 : Nat) (isValue : Bool) :
    Nat → List Nat → HKEY → HKEY → Bool → World → HKEY × World
  | 0, _, hKey, _, _, w => (hKey, w)
  | fuel + 1, name, hKey, hParentKey, parentOpened, w =>
    if at_ name 0 = 0 then (hKey, w)
    else
      let n := component_len name
      let val_only := decode_regname_len name n
      if val_only.1 < 0 then
        let w := set_errno EINVAL w
        let w := if parentOpened then RegCloseKey hParentKey w else w
        (INVALID_HANDLE_VALUE, w)
      else
        let component := val_only.2
        let name := name.drop n
        let name := if at_ name 0 ≠ 0 then name.drop 1 else name
        if at_ name 0 = 0 ∧ isValue = true then (hKey, w)
        else if val_only.1 ≠ 0 then
          let w := set_errno ENOENT w
          let w := if parentOpened then RegCloseKey hParentKey w else w
          (INVALID_HANDLE_VALUE, w)
        else if hParentKey ≠ INVALID_HANDLE_VALUE then
          let effective_access :=
            if (no_slash name = true ∧ isValue = true) ∨ at_ name 0 = 0 then access else KEY_READ
          let r := env.RegOpenKeyEx hParentKey component (effective_access ||| wow64)
          let r :=
            if r.1 = ERROR_ACCESS_DENIED then
              env.RegCreateKeyEx hParentKey component (effective_access ||| wow64)
            else r
          if r.1 ≠ ERROR_SUCCESS then
            (INVALID_HANDLE_VALUE, seterrno_from_win_error env r.1 w)
          else
            let w := note_open r.2 w
            let w := if parentOpened then RegCloseKey hParentKey w else w
            open_key_loop env access wow64 isValue fuel name r.2 r.2 true w
        else
          let hKey := root_key_lookup component hKey
          if hKey = INVALID_HANDLE_VALUE then (hKey, w)
          else open_key_loop env access wow64 isValue fuel name hKey hKey parentOpened w

/-- Auxillary member function to open registry keys (lines 822-893). -/
def open_key (env : Env) (name : List Nat) (access wow64 : Nat) (isValue : Bool) (w : World) :
    HKEY × World :=
  open_key_loop env access wow64 isValue (strlen name + 1) name
    INVALID_HANDLE_VALUE INVALID_HANDLE_VALUE false w

/-! ## The existence and type oracle -/

/-- The backward scan `while (!isdirsep (*file)) file--` (lines 235-236) on an
index into the name; index 0 holds the separator in front of the path. -/
def scan_back (s : List Nat) : Nat → Nat
  | 0 => 0
  | i + 1 => if isdirsep (at_ s (i + 1)) then i + 1 else scan_back s i

/-- The local variables of `exists` that live across the statements of its
body, with the process state. -/
structure ExistsState where
  file_type : Int
  index : Nat
  hKey : HKEY
  w : World

/-- How the compound statement of lines 248-307 is left: by `return 0`, by
`goto out`, or by reaching its end. -/
inductive BlockExit where
  | ret0 (w : World)
  | out (s : ExistsState)
  | next (s : ExistsState)

/-- The loop over the sub-keys (lines 267-278). Gives whether the name was
found, the index after the last call and the last status; `none` when the
bound on the number of calls is reached. -/
def exists_scan_keys (env : Env) (hKey : HKEY) (dec_file : List Nat) :
    Nat → Nat → Option (Bool × Nat × Nat)
  | 0, _ => none
  | fuel + 1, index =>
    let r := env.RegEnumKeyEx hKey index
    if r.1 = ERROR_SUCCESS ∨ r.1 = ERROR_MORE_DATA then
      if strcasematch r.2 dec_file then some (true, index + 1, r.1)
      else exists_scan_keys env hKey dec_file fuel (index + 1)
    else some (false, index + 1, r.1)

/-- The loop over the values (lines 288-300). -/
def exists_scan_values (env : Env) (hKey : HKEY) (file dec_file : List Nat) :
    Nat → Nat → Option (Bool × Nat × Nat)
  | 0, _ => none
  | fuel + 1, index =>
    let r := env.RegEnumValue hKey index
    if r.1 = ERROR_SUCCESS ∨ r.1 = ERROR_MORE_DATA then
      if (at_ r.2 0 == 0 && strcasematch file DEFAULT_VALUE_NAME) || strcasematch r.2 dec_file then
        some (true, index + 1, r.1)
      else exists_scan_values env hKey file dec_file fuel (index + 1)
    else some (false, index + 1, r.1)

/-- The compound statement of lines 248-307. -/
def exists_block (env : Env) (wow64 fuel : Nat) (path file : List Nat) (s : ExistsState) :
    Option BlockExit :=
  let d := decode_regname file
  let val_only := d.1
  let dec_file := d.2
  if val_only < 0 then some (.out s)
  else
    let r := if val_only = 0 then open_key env path KEY_READ wow64 false s.w else (s.hKey, s.w)
    let s := { s with hKey := r.1, w := r.2 }
    if s.hKey ≠ INVALID_HANDLE_VALUE then some (.next { s with file_type := 1 })
    else
      let r := open_key env path KEY_READ wow64 true s.w
      let s := { s with hKey := r.1, w := r.2 }
      if s.hKey = INVALID_HANDLE_VALUE then some (.ret0 s.w)
      else
        let keys : Option (Option ExistsState × ExistsState) :=
          if val_only = 0 then
            match exists_scan_keys env s.hKey dec_file fuel s.index with
            | none => none
            | some (true, index, _) => some (some { s with file_type := 1, index := index }, s)
            | some (false, index, error) =>
              if error ≠ ERROR_NO_MORE_ITEMS then
                some (some { s with index := index, w := seterrno_from_win_error env error s.w }, s)
              else some (none, { s with index := 0 })
          else some (none, s)
        match keys with
        | none => none
        | some (some s, _) => some (.out s)
        | some (none, s) =>
          match exists_scan_values env s.hKey file dec_file fuel s.index with
          | none => none
          | some (true, index, _) => some (.out { s with file_type := -1, index := index })
          | some (false, index, error) =>
            if error ≠ ERROR_NO_MORE_ITEMS then
              some (.out { s with index := index, w := seterrno_from_win_error env error s.w })
            else some (.next { s with index := index })

/-- The `for` statement of lines 240-307. Its body is one `if` statement: the
`else` of line 247 belongs to the `if` of line 241. -/
def exists_for (env : Env) (wow64 fuel : Nat) (path file : List Nat) :
    List (List Nat) → ExistsState → Option BlockExit
  | [], s => some (.next s)
  | name :: listing, s =>
    if path_prefix_p name path (strlen name) true then some (.out { s with file_type := 1 })
    else
      match exists_block env wow64 fuel path file s with
      | none => none
      | some (.next s) => exists_for env wow64 fuel path file listing s
      | some e => some e

/-- The label `out` (lines 308-311). -/
def exists_out (s : ExistsState) : Int × World :=
  (s.file_type, if s.hKey ≠ INVALID_HANDLE_VALUE then RegCloseKey s.hKey s.w else s.w)

/-- Returns 0 if path doesn't exist, >0 if path is a directory, <0 if path is
a file (lines 204-312). `name` is the name of the handler past the mount
point, `get_name () + proc_len + prefix_len + 1`: empty for the mount root,
else a separator and the path. `fuel` bounds the number of calls of each
enumeration loop; `none` when it is reached. -/
def fhandler_registry_exists (env : Env) (wow64 fuel : Nat) (name : List Nat) (w : World) :
    Option (Int × World) :=
  let s : ExistsState := { file_type := 0, index := 0, hKey := INVALID_HANDLE_VALUE, w := w }
  if at_ name 0 = 0 then some (exists_out { s with file_type := 2 })
  else
    let path := name.drop 1
    let pathlen := strlen path
    let file := pathlen
    let file := if isdirsep (at_ name file) && decide (pathlen > 1) then file - 1 else file
    let file := scan_back name file
    let file := file + 1
    if file = 1 then
      match exists_for env wow64 fuel path (name.drop file) registry_listing s with
      | none => none
      | some (.ret0 w) => some (0, w)
      | some (.out s) => some (exists_out s)
      | some (.next s) => some (exists_out s)
    else some (exists_out s)

/-! ## The directory iterator -/

/-- If this bit is set in `__d_position` then we are enumerating values, else
sub-keys (line 30). -/
def REG_ENUM_VALUES_MASK : Nat := 0x8000000

/-- The bottom 16 bits are the absolute position (line 31). -/
def REG_POSITION_MASK : Nat := 0xffff

/-- The complement `~REG_ENUM_VALUES_MASK` on the 32 bits of an `_off_t`; on a
wider `_off_t` it acts alike on every position below 2^32. -/
def NOT_REG_ENUM_VALUES_MASK : Nat := 0xffffffff ^^^ REG_ENUM_VALUES_MASK

/-- Size of the hash table (line 184). -/
def HASH_SIZE : Nat := 1024

/-- Hash table to limit calls to key_exists () (lines 165-186): the content of
`table`, a byte for every index. -/
structure __DIR_hash where
  table : Nat → Nat

/-- The constructor (lines 168-171): the table is cleared. -/
def __DIR_hash.new : __DIR_hash := { table := fun _ => 0 }

/-- The member `set` (lines 173-176). -/
def __DIR_hash.set (t : __DIR_hash) (h : Nat) : __DIR_hash :=
  { table := fun i =>
      if i = ((h >>> 3) &&& (HASH_SIZE - 1)) then t.table i ||| (1 <<< (h &&& 0x3))
      else t.table i }

/-- The member `is_set` (lines 178-181). -/
def __DIR_hash.is_set (t : __DIR_hash) (h : Nat) : Bool :=
  (t.table ((h >>> 3) &&& (HASH_SIZE - 1)) &&& (1 <<< (h &&& 0x3))) != 0

/-- Flag of fhandler.h, which is not among the sources. -/
def dirent_saw_dot : Nat := 1

/-- Flag of fhandler.h. -/
def dirent_saw_dot_dot : Nat := 2

/-- The fields of `DIR` the handler uses. `__d_internal` is the hash table the
field points to. `__d_position` is an `_off_t`, whose declaration is not among
the sources: a signed integer of 32 bits on the target. It is a natural
number here, which agrees with the source as long as the position stays
below 2^31; the statements that rest on the arithmetic of the position keep
it there. -/
structure DIR where
  __d_position : Nat
  __handle : HKEY
  __d_internal : __DIR_hash
  __flags : Nat

/-- The fields of `dirent` the handler writes. -/
structure dirent where
  d_name : List Nat
  d_type : Nat

/-- What a call of `readdir` leaves: its result, the directory, the entry and
the process state. -/
structure ReaddirResult where
  res : Int
  dir : DIR
  de : dirent
  w : World

/-- Modelled from the spec: `opendir` belongs to the generic base class, which
is not among the sources; a freshly opened directory is at position 0 and
holds no key handle, the state `rewinddir` restores. -/
def opendir : DIR :=
  { __d_position := 0, __handle := INVALID_HANDLE_VALUE, __d_internal := __DIR_hash.new,
    __flags := 0 }

/-- The part of `readdir` from the label `retry` on (lines 467-531). The first
argument bounds the number of passes through the label; `none` when it is
reached. A name that does not encode leaves `de` as it was, where the source
has by then written the escapes of a part of the name into `de->d_name`: a
later pass that lists an entry writes the whole name of that entry, and a
result that reports the end of the directory names no entry. -/
def readdir_retry (env : Env) (wow64 : Nat) : Nat → DIR → dirent → World → Option ReaddirResult
  | 0, _, _, _ => none
  | fuel + 1, dir, de, w =>
    let r :=
      if dir.__d_position &&& REG_ENUM_VALUES_MASK ≠ 0 then
        env.RegEnumValue dir.__handle
          ((dir.__d_position &&& NOT_REG_ENUM_VALUES_MASK) >>> 16)
      else env.RegEnumKeyEx dir.__handle (dir.__d_position - SPECIAL_DOT_FILE_COUNT)
    let error := r.1
    let buf := r.2
    if error = ERROR_NO_MORE_ITEMS ∧ dir.__d_position &&& REG_ENUM_VALUES_MASK = 0 then
      readdir_retry env wow64 fuel
        { dir with __d_position := dir.__d_position ||| REG_ENUM_VALUES_MASK } de w
    else if error ≠ ERROR_SUCCESS ∧ error ≠ ERROR_MORE_DATA then
      let w := RegCloseKey dir.__handle w
      let dir := { dir with __handle := INVALID_HANDLE_VALUE }
      let w := if error ≠ ERROR_NO_MORE_ITEMS then seterrno_from_win_error env error w else w
      some { res := ENMFILE, dir := dir, de := de, w := w }
    else
      let pos := dir.__d_position + 1
      let pos := if pos &&& REG_ENUM_VALUES_MASK ≠ 0 then pos + 0x10000 else pos
      let dir := { dir with __d_position := pos }
      let d_type := if pos &&& REG_ENUM_VALUES_MASK ≠ 0 then DT_REG else DT_DIR
      if at_ buf 0 = 0 then
        some { res := 0, dir := dir, de := { d_name := DEFAULT_VALUE_NAME, d_type := d_type },
               w := w }
      else
        let h := env.hash_path_name 1 buf
        let checked : Bool × __DIR_hash × World :=
          if pos &&& REG_ENUM_VALUES_MASK = 0 then (false, dir.__d_internal.set h, w)
          else if dir.__d_internal.is_set h then
            let k := key_exists env dir.__handle buf wow64 w
            (k.1, dir.__d_internal, k.2)
          else (false, dir.__d_internal, w)
        let add_val := checked.1
        let dir := { dir with __d_internal := checked.2.1 }
        let w := checked.2.2
        let e := encode_regname env.NAME_MAX buf add_val
        if e.1 ≠ 0 then readdir_retry env wow64 fuel dir de w
        else some { res := 0, dir := dir, de := { d_name := e.2, d_type := d_type }, w := w }

/-- The member `readdir` (lines 432-531). `path` is the name of the directory
past the mount point, `dir->__d_dirname + proc_len + 1 + prefix_len`: empty
for the mount root, else a separator and the path of the key. -/
def readdir (env : Env) (wow64 fuel : Nat) (path : List Nat) (dir : DIR) (de : dirent)
    (w : World) : Option ReaddirResult :=
  let dir := { dir with __flags := dir.__flags ||| (dirent_saw_dot ||| dirent_saw_dot_dot) }
  if at_ path 0 = 0 then
    if dir.__d_position ≥ ROOT_KEY_COUNT then some { res := ENMFILE, dir := dir, de := de, w := w }
    else
      some { res := 0, dir := { dir with __d_position := dir.__d_position + 1 },
             de := { de with d_name := registry_listing.getD dir.__d_position [] }, w := w }
  else
    let opened : Bool × DIR × World :=
      if dir.__handle = INVALID_HANDLE_VALUE then
        if dir.__d_position ≠ 0 then (false, dir, w)
        else
          let r := open_key env (path.drop 1) KEY_READ wow64 false w
          let dir := { dir with __handle := r.1 }
          if dir.__handle = INVALID_HANDLE_VALUE then (false, dir, r.2)
          else (true, { dir with __d_internal := __DIR_hash.new }, r.2)
      else (true, dir, w)
    let dir := opened.2.1
    let w := opened.2.2
    if opened.1 = false then some { res := ENMFILE, dir := dir, de := de, w := w }
    else if dir.__d_position < SPECIAL_DOT_FILE_COUNT then
      some { res := 0, dir := { dir with __d_position := dir.__d_position + 1 },
             de := { de with d_name := special_dot_files.getD dir.__d_position [] }, w := w }
    else readdir_retry env wow64 fuel dir de w

/-- The member `telldir` (lines 533-537). -/
def telldir (dir : DIR) : Nat := dir.__d_position &&& REG_POSITION_MASK

/-- The member `rewinddir` (lines 551-561). -/
def rewinddir (dir : DIR) (w : World) : DIR × World :=
  let r :=
    if dir.__handle ≠ INVALID_HANDLE_VALUE then
      ({ dir with __handle := INVALID_HANDLE_VALUE }, RegCloseKey dir.__handle w)
    else (dir, w)
  ({ r.1 with __d_position := 0, __flags := dirent_saw_dot ||| dirent_saw_dot_dot }, r.2)

/-- The loop of `seekdir` (lines 546-548): it is left when `readdir` returns
0. The first argument bounds the number of calls of `readdir`; `none` when
it is reached. -/
def seekdir_loop (env : Env) (wow64 fuel : Nat) (path : List Nat) (loc : Nat) :
    Nat → DIR → dirent → World → Option (DIR × dirent × World)
  | 0, _, _, _ => none
  | n + 1, dir, de, w =>
    if loc > (dir.__d_position &&& REG_POSITION_MASK) then
      match readdir env wow64 fuel path dir de w with
      | none => none
      | some r =>
        if r.res = 0 then some (r.dir, r.de, r.w)
        else seekdir_loop env wow64 fuel path loc n r.dir r.de r.w
    else some (dir, de, w)

/-- The member `seekdir` (lines 539-549). The entry `de` is the buffer
`dir->__d_dirent` of the directory. -/
def seekdir (env : Env) (wow64 fuel : Nat) (path : List Nat) (loc : Nat) (n : Nat)
    (dir : DIR) (de : dirent) (w : World) : Option (DIR × dirent × World) :=
  let r := rewinddir dir w
  seekdir_loop env wow64 fuel path loc n r.1 de r.2

/-! ## Runs of calls and the listing of a key -/

/-- The process state before the handler has opened anything. -/
def world0 : World := { opened := [], errno := 0 }

/-- An entry buffer before the first call. -/
def dirent0 : dirent := { d_name := [], d_type := 0 }

/-- The results of `k` successive calls of `readdir`, the first on the given
state; `none` when one of the calls runs out of fuel. -/
def readdir_n (env : Env) (wow64 fuel : Nat) (path : List Nat) :
    Nat → DIR → dirent → World → Option (List ReaddirResult)
  | 0, _, _, _ => some []
  | k + 1, dir, de, w =>
    match readdir env wow64 fuel path dir de w with
    | none => none
    | some r =>
      match readdir_n env wow64 fuel path k r.dir r.de r.w with
      | none => none
      | some rs => some (r :: rs)

/-- What a caller sees of a call of `readdir`: the result, the name and the
type of the entry. -/
def ReaddirResult.seen (r : ReaddirResult) : Int × List Nat × Nat :=
  (r.res, r.de.d_name, r.de.d_type)

/-- The table after the hashes of a list of names have been set. -/
def hash_after (env : Env) (t : __DIR_hash) (names : List (List Nat)) : __DIR_hash :=
  names.foldl (fun t k => t.set (env.hash_path_name 1 k)) t

/-- The view of the sub-keys of a key: the key `h` of the host has the sub-keys
`ks` in enumeration order, and opening a sub-key of `h` by name succeeds, or
is denied, exactly for the names of `ks`. -/
structure KeysView (env : Env) (wow64 : Nat) (h : HKEY) (ks : List (List Nat)) : Prop where
  key_some : ∀ i k, ks.get? i = some k → env.RegEnumKeyEx h i = (ERROR_SUCCESS, k)
  key_none : ∀ i, ks.length ≤ i → (env.RegEnumKeyEx h i).1 = ERROR_NO_MORE_ITEMS
  probe : ∀ name, ((env.RegOpenKeyEx h name (KEY_READ ||| wow64)).1 = ERROR_SUCCESS ∨
      (env.RegOpenKeyEx h name (KEY_READ ||| wow64)).1 = ERROR_ACCESS_DENIED) ↔ name ∈ ks

/-- The view of a key the listing is about: the key `h` of the host has the
sub-keys `ks` and the values `vs`, in enumeration order. -/
structure KeyView (env : Env) (wow64 : Nat) (h : HKEY) (ks vs : List (List Nat))
    extends KeysView env wow64 h ks : Prop where
  value_some : ∀ j v, vs.get? j = some v → env.RegEnumValue h j = (ERROR_SUCCESS, v)
  value_none : ∀ j, vs.length ≤ j → (env.RegEnumValue h j).1 = ERROR_NO_MORE_ITEMS

/-- Every name of the key can be listed: the sub-keys are named and encode,
and every named value encodes, with the marker when a sub-key has its name. -/
def NamesEncode (env : Env) (ks vs : List (List Nat)) : Prop :=
  (∀ k ∈ ks, at_ k 0 ≠ 0 ∧ (encode_regname env.NAME_MAX k false).1 = 0) ∧
  (∀ v ∈ vs, at_ v 0 ≠ 0 → (encode_regname env.NAME_MAX v (decide (v ∈ ks))).1 = 0)

instance (env : Env) (ks vs : List (List Nat)) : Decidable (NamesEncode env ks vs) := by
  unfold NamesEncode; infer_instance

/-- The entry of a sub-key in the listing: its encoded name, a directory. -/
def key_entry (env : Env) (k : List Nat) : Int × List Nat × Nat :=
  (0, (encode_regname env.NAME_MAX k false).2, DT_DIR)

/-- The POSIX name of a value in the listing: `@` for the unnamed default
value, else its encoded name, with the marker when a sub-key has its name. -/
def value_name (env : Env) (ks : List (List Nat)) (v : List Nat) : List Nat :=
  if at_ v 0 = 0 then DEFAULT_VALUE_NAME
  else (encode_regname env.NAME_MAX v (decide (v ∈ ks))).2

/-- The entry of a value in the listing: a regular file. -/
def value_entry (env : Env) (ks : List (List Nat)) (v : List Nat) : Int × List Nat × Nat :=
  (0, value_name env ks v, DT_REG)

/-- The position after the sub-keys and `j` values of a key with `n` sub-keys. -/
def values_position (n j : Nat) : Nat := 2 + n + j + j * 65536 + 2 ^ 27

/-- A position from which the next call lists the value of index `j` of a key
with `n` sub-keys: the position after `j` values, or, before the first
value, the position after the last sub-key. -/
def ValuesStart (n j p : Nat) : Prop := p = values_position n j ∨ (j = 0 ∧ p = 2 + n)

/-- The scenario of resuming a listing: `N` calls of `readdir` on a freshly
opened directory, then `telldir`, `rewinddir`, `seekdir` to the value of
`telldir` and one more call of `readdir`. Gives the value of `telldir` and
what the last call shows; `none` when a bound is reached. -/
def resumed_entry (env : Env) (wow64 fuel : Nat) (path : List Nat) (N bound : Nat) :
    Option (Nat × (Int × List Nat × Nat)) :=
  match readdir_n env wow64 fuel path N opendir dirent0 world0 with
  | none => none
  | some rs =>
    let s : DIR × dirent × World :=
      match rs.getLast? with
      | none => (opendir, dirent0, world0)
      | some r => (r.dir, r.de, r.w)
    let t := telldir s.1
    let r := rewinddir s.1 s.2.2
    match seekdir env wow64 fuel path t bound r.1 s.2.1 r.2 with
    | none => none
    | some s1 =>
      (readdir env wow64 fuel path s1.1 s1.2.1 s1.2.2).map fun r => (t, r.seen)

/-! ## Stores for the examples -/

/-- A key of an example store: its handle, its sub-keys with their handles and
the names of its values, in enumeration order. -/
structure StoreKey where
  handle : HKEY
  subkeys : List (List Nat × HKEY)
  values : List (List Nat)
deriving DecidableEq

/-- The key of a store with a given handle. -/
def store_find (keys : List StoreKey) (h : HKEY) : Option StoreKey :=
  keys.find? fun k => k.handle == h

/-- Opening a sub-key by its exact name. -/
def store_open (keys : List StoreKey) (parent : HKEY) (name : List Nat) : Nat × HKEY :=
  match store_find keys parent with
  | none => (ERROR_FILE_NOT_FOUND, INVALID_HANDLE_VALUE)
  | some k =>
    match k.subkeys.find? fun p => p.1 == name with
    | none => (ERROR_FILE_NOT_FOUND, INVALID_HANDLE_VALUE)
    | some p => (ERROR_SUCCESS, p.2)

/-- Enumerating a list of names by index. -/
def store_enum (names : Option (List (List Nat))) (i : Nat) : Nat × List Nat :=
  match names with
  | none => (ERROR_FILE_NOT_FOUND, [])
  | some l =>
    match l.get? i with
    | none => (ERROR_NO_MORE_ITEMS, [])
    | some n => (ERROR_SUCCESS, n)

/-- The host of an unchanged store given by its keys: every call is a function
of its arguments, names are matched exactly, no call is denied. -/
def store_env (keys : List StoreKey) : Env :=
  { NAME_MAX := 255
    RegOpenKeyEx := fun parent name _ => store_open keys parent name
    RegCreateKeyEx := fun parent name _ => store_open keys parent name
    RegEnumKeyEx := fun h i => store_enum ((store_find keys h).map fun k => k.subkeys.map Prod.fst) i
    RegEnumValue := fun h i => store_enum ((store_find keys h).map fun k => k.values) i
    RegQueryValueEx := fun _ _ _ => (ERROR_FILE_NOT_FOUND, 0, [])
    geterrno_from_win_error := fun e => if e = ERROR_FILE_NOT_FOUND then ENOENT else 5
    hash_path_name := fun _ name => name.foldl (fun h c => (h * 31 + c) % 4294967296) 0 }

/-- The key `SOFTWARE` of the small store: the sub-key `Cygwin`, the unnamed
default value, a value with the name of the sub-key and the value `Version`. -/
def demo_software : StoreKey :=
  { handle := 100, subkeys := [(cstr "Cygwin", 101)],
    values := [[], cstr "Cygwin", cstr "Version"] }

/-- A small store: `HKEY_LOCAL_MACHINE` has the sub-key `SOFTWARE`. -/
def demo_keys : List StoreKey :=
  [{ handle := HKEY_LOCAL_MACHINE, subkeys := [(cstr "SOFTWARE", 100)], values := [] },
   demo_software,
   { handle := 101, subkeys := [], values := [] }]

/-- The host of the small store. -/
def demo_env : Env := store_env demo_keys

/-- The name of the value of index `j` of the wide store: `v` and four decimal
digits. -/
def wide_name (j : Nat) : List Nat :=
  [118, 48 + j / 1000 % 10, 48 + j / 100 % 10, 48 + j / 10 % 10, 48 + j % 10]

/-- The host of a store in which `HKEY_LOCAL_MACHINE` has no sub-key and the
2048 values `v0000` to `v2047`. -/
def wide_env : Env :=
  { NAME_MAX := 255
    RegOpenKeyEx := fun _ _ _ => (ERROR_FILE_NOT_FOUND, INVALID_HANDLE_VALUE)
    RegCreateKeyEx := fun _ _ _ => (ERROR_FILE_NOT_FOUND, INVALID_HANDLE_VALUE)
    RegEnumKeyEx := fun _ _ => (ERROR_NO_MORE_ITEMS, [])
    RegEnumValue := fun h j =>
      if h = HKEY_LOCAL_MACHINE ∧ j < 2048 then (ERROR_SUCCESS, wide_name j)
      else (ERROR_NO_MORE_ITEMS, [])
    RegQueryValueEx := fun _ _ _ => (ERROR_FILE_NOT_FOUND, 0, [])
    geterrno_from_win_error := fun e => if e = ERROR_FILE_NOT_FOUND then ENOENT else 5
    hash_path_name := fun _ name => name.foldl (fun h c => (h * 31 + c) % 4294967296) 0 }

/-- Flag of fcntl.h, which is not among the sources. -/
def O_WRONLY : Nat := 1

/-- Flag of fcntl.h. -/
def O_APPEND : Nat := 0x0008

/-- Flag of fcntl.h. -/
def O_CREAT : Nat := 0x0200

/-- Flag of fcntl.h. -/
def O_EXCL : Nat := 0x0800

/-- Flag of fcntl.h. -/
def O_BINARY : Nat := 0x10000

/-- Flag of fcntl.h. -/
def O_TEXT : Nat := 0x20000

/-- Flag of fhandler.h, which is not among the sources. -/
def O_DIROPEN : Nat := 0x100000

/-- The complement `~O_TEXT` on the 32 bits of an `int`. -/
def NOT_O_TEXT : Nat := 0xffffffff ^^^ O_TEXT

/-- Value of errno.h. -/
def EEXIST : Int := 17

/-- Value of errno.h. -/
def EISDIR : Int := 21

/-- Value of errno.h. -/
def EROFS : Int := 30

/-- The fields of the handler that `open` and `fill_filebuf` read and write.
`value_name` and `filebuf` are the strings the fields point to. -/
structure fhandler_registry where
  io_handle : HKEY
  openflags : Nat
  open_status : Bool
  value_name : List Nat
  filebuf : List Nat
  bufalloc : Nat
  filesize : Nat
  position : Nat
deriving DecidableEq

/-- The part of `fill_filebuf` from the label `value_not_found` on (lines
797-819): the loop over the sub-keys and what follows it. Gives the value
returned and the process state. The first argument bounds the number of
calls of `RegEnumKeyEx`; `none` when it is reached. -/
def value_not_found (env : Env) (handle : HKEY) (value_name : List Nat) :
    Nat → Nat → World → Option (Bool × World)
  | 0, _, _ => none
  | fuel + 1, index, w =>
    let r := env.RegEnumKeyEx handle index
    if r.1 = ERROR_SUCCESS ∨ r.1 = ERROR_MORE_DATA then
      if strcasematch r.2 value_name then some (false, set_errno EISDIR w)
      else value_not_found env handle value_name fuel (index + 1) w
    else if r.1 ≠ ERROR_NO_MORE_ITEMS then some (false, seterrno_from_win_error env r.1 w)
    else some (false, set_errno ENOENT w)

/-- The `do` loop of `fill_filebuf` for `HKEY_PERFORMANCE_DATA` with the
statements after it (lines 776-796). `fuel` bounds the loop over the sub-keys,
the next argument the number of passes of the `do` loop. After a call with a
buffer, `filebuf` is what the host has left in it. -/
def fill_filebuf_grow (env : Env) (fuel : Nat) :
    Nat → fhandler_registry → World → Option (Bool × fhandler_registry × World)
  | 0, _, _ => none
  | passes + 1, fh, w =>
    let fh := { fh with bufalloc := fh.bufalloc + 1000 }
    let r := env.RegQueryValueEx fh.io_handle fh.value_name (some fh.bufalloc)
    let fh := { fh with filebuf := r.2.2 }
    if r.1 ≠ ERROR_SUCCESS ∧ r.1 ≠ ERROR_MORE_DATA then
      if r.1 ≠ ERROR_FILE_NOT_FOUND then some (true, fh, seterrno_from_win_error env r.1 w)
      else (value_not_found env fh.io_handle fh.value_name fuel 0 w).map fun p => (p.1, fh, p.2)
    else if r.1 = ERROR_MORE_DATA then fill_filebuf_grow env fuel passes fh w
    else some (true, { fh with filesize := r.2.1 }, w)

/-- The member `fill_filebuf` (lines 743-819). Gives the value returned, the
handler and the process state. `fuel` bounds the number of passes of each
loop; `none` when it is reached. -/
def fill_filebuf (env : Env) (fuel : Nat) (fh : fhandler_registry) (w : World) :
    Option (Bool × fhandler_registry × World) :=
  if fh.io_handle ≠ HKEY_PERFORMANCE_DATA then
    let r := env.RegQueryValueEx fh.io_handle fh.value_name none
    if r.1 ≠ ERROR_SUCCESS then
      if r.1 ≠ ERROR_FILE_NOT_FOUND then some (false, fh, seterrno_from_win_error env r.1 w)
      else (value_not_found env fh.io_handle fh.value_name fuel 0 w).map fun p => (p.1, fh, p.2)
    else
      let fh := { fh with bufalloc := r.2.1 }
      let r := env.RegQueryValueEx fh.io_handle fh.value_name (some r.2.1)
      let fh := { fh with filebuf := r.2.2 }
      if r.1 ≠ ERROR_SUCCESS then some (true, fh, seterrno_from_win_error env r.1 w)
      else some (true, { fh with filesize := r.2.1 }, w)
  else fill_filebuf_grow env fuel fuel { fh with bufalloc := 0 } w

/-- The index in `name` of the first character of the last path component
(lines 613-620); index 0 of `name` holds the separator in front of the path,
so `file == path` is `leaf_index name = 1`. -/
def leaf_index (name : List Nat) : Nat :=
  let path := name.drop 1
  let pathlen := strlen path
  let file := pathlen
  let file := if isdirsep (at_ name file) && decide (pathlen > 1) then file - 1 else file
  scan_back name file + 1

/-- The statements from the label `success` on (lines 711-717). -/
def open_success (flags : Nat) (fh : fhandler_registry) (w : World) :
    Int × fhandler_registry × World :=
  (1, { fh with openflags := (flags &&& NOT_O_TEXT) ||| O_BINARY, open_status := true }, w)

/-- The statements of `open` after a key handle has been found (lines
691-709) and the label `success`. -/
def open_handle (env : Env) (fuel : Nat) (dec_file : List Nat) (handle : HKEY) (flags : Nat)
    (fh : fhandler_registry) (w : World) : Option (Int × fhandler_registry × World) :=
  let fh := { fh with io_handle := handle }
  let fh :=
    { fh with value_name := if strcasematch dec_file DEFAULT_VALUE_NAME then [] else dec_file }
  let filled : Option (Bool × fhandler_registry × World) :=
    if flags &&& O_DIROPEN = 0 then fill_filebuf env fuel fh w else some (true, fh, w)
  match filled with
  | none => none
  | some (false, fh, w) => some (0, fh, RegCloseKey handle w)
  | some (true, fh, w) =>
    let fh := { fh with position := if flags &&& O_APPEND ≠ 0 then fh.filesize else 0 }
    some (open_success flags fh w)

/-- The member `open` (lines 580-718). `name` is the name of the handler past
the mount point, `get_name () + proc_len + 1 + prefix_len`: empty for the
mount root, else a separator and the path. `virtual_open` is the member of the
base class, which is not among the sources: it gives its result and the
handler it leaves. Gives the value returned, the handler and the process
state; `none` when the bound `fuel` of a loop of `fill_filebuf` is reached. -/
def fhandler_registry_open (env : Env)
    (virtual_open : Nat → Nat → fhandler_registry → Int × fhandler_registry)
    (wow64 fuel : Nat) (name : List Nat) (flags mode : Nat) (fh : fhandler_registry)
    (w : World) : Option (Int × fhandler_registry × World) :=
  let b := virtual_open flags mode fh
  let fh := b.2
  if b.1 = 0 then some (0, fh, w)
  else if at_ name 0 = 0 then
    if flags &&& (O_CREAT ||| O_EXCL) = (O_CREAT ||| O_EXCL) then some (0, fh, set_errno EEXIST w)
    else if flags &&& O_WRONLY ≠ 0 then some (0, fh, set_errno EISDIR w)
    else some (open_success (flags ||| O_DIROPEN) fh w)
  else
    let path := name.drop 1
    let file := leaf_index name
    if file = 1 then
      match (registry_listing.zip registry_keys).find?
          fun p => path_prefix_p p.1 path (strlen p.1) true with
      | some p =>
        if flags &&& (O_CREAT ||| O_EXCL) = (O_CREAT ||| O_EXCL) then
          some (0, fh, set_errno EEXIST w)
        else if flags &&& O_WRONLY ≠ 0 then some (0, fh, set_errno EISDIR w)
        else some (open_success (flags ||| O_DIROPEN) { fh with io_handle := p.2 } w)
      | none =>
        if flags &&& O_CREAT ≠ 0 then some (0, fh, set_errno EROFS w)
        else some (0, fh, set_errno ENOENT w)
    else if flags &&& O_WRONLY ≠ 0 then
      -- `res = 0` of line 664 is overwritten at the label `success`
      some (open_success flags fh (set_errno EROFS w))
    else
      let d := decode_regname (name.drop file)
      let val_only := d.1
      let dec_file := d.2
      if val_only < 0 then some (0, fh, set_errno EINVAL w)
      else
        let r := if val_only = 0 then open_key env path KEY_READ wow64 false w
          else (INVALID_HANDLE_VALUE, w)
        if r.1 = INVALID_HANDLE_VALUE then
          let r := open_key env path KEY_READ wow64 true r.2
          if r.1 = INVALID_HANDLE_VALUE then some (0, fh, r.2)
          else open_handle env fuel dec_file r.1 flags fh r.2
        else open_handle env fuel dec_file r.1 (flags ||| O_DIROPEN) fh r.2

/-! ## Paths given by their components -/

/-- A path component: a name that is not empty and holds no NUL and no
separator. -/
def Component (c : List Nat) : Prop := c ≠ [] ∧ ∀ x ∈ c, x ≠ 0 ∧ isdirsep x = false

instance (c : List Nat) : Decidable (Component c) := by
  unfold Component; infer_instance

/-- The front of a path: the given components, each followed by `/`. The path
with the components `cs` and then `leaf` is `path_front cs ++ leaf`. -/
def path_front : List (List Nat) → List Nat
  | [] => []
  | c :: cs => c ++ 47 :: path_front cs

/-- The host reports that the named value does not exist: for a key other
than `HKEY_PERFORMANCE_DATA` the query of the size gives
`ERROR_FILE_NOT_FOUND`; for `HKEY_PERFORMANCE_DATA` the query of pass `p` of
the growth loop does, after `p` passes with a buffer too small. -/
def ValueNotFound (env : Env) (handle : HKEY) (value_name : List Nat) (p : Nat) : Prop :=
  if handle ≠ HKEY_PERFORMANCE_DATA then
    (env.RegQueryValueEx handle value_name none).1 = ERROR_FILE_NOT_FOUND
  else
    (∀ i < p, (env.RegQueryValueEx handle value_name (some (1000 * (i + 1)))).1 =
      ERROR_MORE_DATA) ∧
    (env.RegQueryValueEx handle value_name (some (1000 * (p + 1)))).1 = ERROR_FILE_NOT_FOUND

instance (env : Env) (handle : HKEY) (value_name : List Nat) (p : Nat) :
    Decidable (ValueNotFound env handle value_name p) := by
  unfold ValueNotFound; infer_instance

/-- The opening of a sub-key in `open_key` (lines 863-869), for the statements
about its loop: `RegOpenKeyEx`, and `RegCreateKeyEx` with backup intent when
access is denied. -/
def open_child (env : Env) (hParentKey : HKEY) (component : List Nat) (access : Nat) :
    Nat × HKEY :=
  if (env.RegOpenKeyEx hParentKey component access).1 = ERROR_ACCESS_DENIED then
    env.RegCreateKeyEx hParentKey component access
  else env.RegOpenKeyEx hParentKey component access

/-! ## Handlers and hosts for the examples of `open` and `fill_filebuf` -/

/-- A handler before `open`. -/
def fh0 : fhandler_registry :=
  { io_handle := INVALID_HANDLE_VALUE, openflags := 0, open_status := false, value_name := [],
    filebuf := [], bufalloc := 0, filesize := 0, position := 0 }

/-- A base class `open` that succeeds and leaves the handler as it is. -/
def virtual_open_ok : Nat → Nat → fhandler_registry → Int × fhandler_registry :=
  fun _ _ fh => (1, fh)

/-- The host of the small store in which the value `Version` of the key
`SOFTWARE` holds the three bytes `1.7`. -/
def value_env : Env :=
  { demo_env with
    RegQueryValueEx := fun h name size =>
      if h = 100 ∧ name = cstr "Version" then
        match size with
        | none => (ERROR_SUCCESS, 3, [])
        | some n => if 3 ≤ n then (ERROR_SUCCESS, 3, cstr "1.7") else (ERROR_MORE_DATA, 3, [])
      else (ERROR_FILE_NOT_FOUND, 0, []) }

/-- A host on which a value has four bytes when its size is asked and eight
when it is read: it has grown between the two calls. -/
def grown_env : Env :=
  { demo_env with
    RegQueryValueEx := fun _ _ size =>
      match size with
      | none => (ERROR_SUCCESS, 4, [])
      | some n => if 8 ≤ n then (ERROR_SUCCESS, 8, cstr "12345678") else (ERROR_MORE_DATA, 8, []) }

/-- A host that denies every query of a value. -/
def denied_env : Env :=
  { demo_env with RegQueryValueEx := fun _ _ _ => (ERROR_ACCESS_DENIED, 0, []) }

/-! ## Directory states that list alike -/

/-- Two directory states from which `readdir` behaves alike: the same
position, the same key handle and, while a key is open, the same seen-name
table. -/
def DIR.alike (d1 d2 : DIR) : Prop :=
  d1.__d_position = d2.__d_position ∧ d1.__handle = d2.__handle ∧
  (d1.__handle ≠ INVALID_HANDLE_VALUE → d1.__d_internal = d2.__d_internal)

/-- What a caller and the next call see of a call of `readdir`: the result,
the position, the key handle, the seen-name table and the entry. -/
def ReaddirResult.cursor (r : ReaddirResult) : Int × Nat × HKEY × __DIR_hash × dirent :=
  (r.res, r.dir.__d_position, r.dir.__handle, r.dir.__d_internal, r.de)

/-- Two results of `readdir` that show the same to the caller and leave
directory states that list alike; or two calls that both reach their bound. -/
def alike_results : Option ReaddirResult → Option ReaddirResult → Prop
  | some r1, some r2 => r1.res = r2.res ∧ r1.de = r2.de ∧ DIR.alike r1.dir r2.dir
  | none, none => True
  | _, _ => False

/-! ## The positions of a traversal -/

/-- The index of the value that a call at the position `pos` asks the host
for once the values phase has begun: the bits of the position from bit 16
upwards, without the flag bit when it is set. -/
def next_value (pos : Nat) : Nat := pos / 65536 - 2048 * (pos / 134217728 % 2)

/-- The positions that the traversal of a key with `n` sub-keys and `m` values
goes through after the two dot entries. The position stays below 2^31. In the
sub-keys phase it is at most `2 + n`. Later the exposed part counts, beyond
`2 + n`, no more values than lie before the value asked for next. -/
def CursorInv (n m pos : Nat) : Prop :=
  2 ≤ pos % 65536 ∧ pos < 2147483648 ∧
  (pos < 65536 → pos ≤ 2 + n) ∧
  (65536 ≤ pos → 134217728 ≤ pos ∧ pos % 65536 + (m - next_value pos) ≤ 2 + n + m)

/-- A bound on the passes through the label `retry` that are left at the
position `pos`: two for every sub-key and value not yet asked for, and one
while the flag bit is clear. -/
def passes_left (n m pos : Nat) : Nat :=
  2 * ((2 + n - pos) + (m - next_value pos)) + (1 - pos / 134217728 % 2)

/-- The host enumerates the sub-keys `ks` and the values `vs` of the key `h`,
in this order, and reports no more items beyond them. -/
structure Enumerates (env : Env) (h : HKEY) (ks vs : List (List Nat)) : Prop where
  key_some : ∀ i k, ks.get? i = some k → env.RegEnumKeyEx h i = (ERROR_SUCCESS, k)
  key_none : ∀ i, ks.length ≤ i → (env.RegEnumKeyEx h i).1 = ERROR_NO_MORE_ITEMS
  value_some : ∀ j v, vs.get? j = some v → env.RegEnumValue h j = (ERROR_SUCCESS, v)
  value_none : ∀ j, vs.length ≤ j → (env.RegEnumValue h j).1 = ERROR_NO_MORE_ITEMS

/-! ## A store for the example of the name buffer -/

/-- A name of 86 characters: 85 percent signs and the letter `a`. -/
def percent_name : List Nat := List.replicate 85 37 ++ [97]

/-- A store in which `HKEY_LOCAL_MACHINE` has no sub-key and one value, with
the name of percent signs. -/
def percent_keys : List StoreKey :=
  [{ handle := HKEY_LOCAL_MACHINE, subkeys := [], values := [percent_name] }]

/-- The host of the store with the name of percent signs. -/
def percent_env : Env := store_env percent_keys

/-! ## The names a traversal lists -/

theorem strtoul_digit_xdigit (h : Nat) (hx : isxdigit h = true) :
    strtoul_digit h = some (hex_value h) ∧ hex_value h < 16 := by
  simp only [isxdigit, Bool.or_eq_true, Bool.and_eq_true, decide_eq_true_eq] at hx
  simp only [strtoul_digit, hex_value]
  rcases hx with (hx | hx) | hx
  · rw [if_pos hx, if_pos hx.2]; exact ⟨rfl, by omega⟩
  · rw [if_neg (by omega), if_pos (by omega), if_neg (by omega), if_pos hx.2]
    exact ⟨congrArg some (by omega), by omega⟩
  · rw [if_neg (by omega), if_neg (by omega), if_pos (by omega), if_neg (by omega),
      if_neg (by omega)]
    exact ⟨congrArg some (by omega), by omega⟩

theorem strtoul_digit_not_xdigit (h : Nat) (hx : isxdigit h = false) :
    strtoul_digit h = none ∨ ∃ d, strtoul_digit h = some d ∧ 16 ≤ d := by
  simp only [isxdigit, Bool.or_eq_false_iff, Bool.and_eq_false_iff, decide_eq_false_iff_not] at hx
  simp only [strtoul_digit]
  split_ifs
  · omega
  · right; exact ⟨_, rfl, by omega⟩
  · right; exact ⟨_, rfl, by omega⟩
  · left; rfl

theorem strtoul_loop_one (h : Nat) :
    strtoul_loop 16 [h] 0 false = (if isxdigit h then hex_value h else 0, false) := by
  cases hx : isxdigit h
  · rcases strtoul_digit_not_xdigit h hx with h0 | ⟨d, h0, hd⟩
    · simp [strtoul_loop, h0]
    · simp [strtoul_loop, h0, hd]
  · obtain ⟨h0, hd⟩ := strtoul_digit_xdigit h hx
    simp [strtoul_loop, h0, hd, ULONG_MAX]

theorem strtoul_loop_two (h1 h2 : Nat) :
    strtoul_loop 16 [h1, h2] 0 false =
      (if isxdigit h1 then
        (if isxdigit h2 then hex_value h1 * 16 + hex_value h2 else hex_value h1)
       else 0, false) := by
  cases hx : isxdigit h1
  · rcases strtoul_digit_not_xdigit h1 hx with h0 | ⟨d, h0, hd⟩
    · simp [strtoul_loop, h0]
    · simp [strtoul_loop, h0, hd]
  · obtain ⟨h0, hd⟩ := strtoul_digit_xdigit h1 hx
    cases hy : isxdigit h2
    · rcases strtoul_digit_not_xdigit h2 hy with h0' | ⟨d, h0', hd'⟩
      · simp [strtoul_loop, h0, hd, h0', ULONG_MAX]
      · simp [strtoul_loop, h0, hd, h0', hd', ULONG_MAX]
    · obtain ⟨h0', hd'⟩ := strtoul_digit_xdigit h2 hy
      simp [strtoul_loop, h0, hd, h0', hd', ULONG_MAX]
      rw [if_neg (by omega), if_neg (by omega), if_neg (by omega)]

theorem isxdigit_range (h : Nat) (hx : isxdigit h = true) :
    (48 ≤ h ∧ h ≤ 57) ∨ (65 ≤ h ∧ h ≤ 70) ∨ (97 ≤ h ∧ h ≤ 102) := by
  simp only [isxdigit, Bool.or_eq_true, Bool.and_eq_true, decide_eq_true_eq] at hx
  omega

/-- On two hexadecimal digits `strtoul` yields their value. -/
theorem strtoul16_two_hex (h1 h2 : Nat) (hx1 : isxdigit h1 = true) (hx2 : isxdigit h2 = true) :
    strtoul16 [h1, h2] = hex_value h1 * 16 + hex_value h2 := by
  have r1 := isxdigit_range h1 hx1
  have r2 := isxdigit_range h2 hx2
  have i1 : isspace h1 = false := by
    simp [isspace]; omega
  have n45 : h1 ≠ 45 := by omega
  have n43 : h1 ≠ 43 := by omega
  have n120 : h2 ≠ 120 := by omega
  have n88 : h2 ≠ 88 := by omega
  simp [strtoul16, strtoul_skip, i1, strtoul_sign, n45, n43, strtoul_skip0x, n120, n88,
    strtoul_loop_two, hx1, hx2]

theorem strtoul_loop_nil : strtoul_loop 16 [] 0 false = (0, false) := rfl

/-- The value `strtoul` gives to two characters that are not both hexadecimal
digits is a single digit or the negation of one. -/
theorem strtoul16_two_small (h1 h2 : Nat) (hx : (isxdigit h1 && isxdigit h2) = false) :
    strtoul16 [h1, h2] % 256 < 16 ∨ 240 < strtoul16 [h1, h2] % 256 := by
  have hv1 : ∀ h, hex_value h < 16 ∨ isxdigit h = false := by
    intro h
    cases hh : isxdigit h
    · right; rfl
    · left; exact (strtoul_digit_xdigit h hh).2
  have one : ∀ h, (strtoul_loop 16 [h] 0 false).2 = false ∧
      (strtoul_loop 16 [h] 0 false).1 < 16 := by
    intro h
    rw [strtoul_loop_one]
    refine ⟨rfl, ?_⟩
    cases hh : isxdigit h
    · simp
    · simpa using (strtoul_digit_xdigit h hh).2
  have two : (strtoul_loop 16 [h1, h2] 0 false).2 = false ∧
      (strtoul_loop 16 [h1, h2] 0 false).1 < 16 := by
    rw [strtoul_loop_two]
    refine ⟨rfl, ?_⟩
    cases hh : isxdigit h1
    · simp
    · rw [hh] at hx
      simp only [Bool.true_and] at hx
      simpa [hx] using (strtoul_digit_xdigit h1 hh).2
  by_cases s1 : isspace h1 = true
  · by_cases s2 : isspace h2 = true
    · left
      simp [strtoul16, strtoul_skip, s1, s2, strtoul_sign, strtoul_skip0x, strtoul_loop]
    · by_cases e45 : h2 = 45
      · left
        simp [strtoul16, strtoul_skip, s1, s2, strtoul_sign, e45, strtoul_skip0x, strtoul_loop,
          ULONG_MAX]
      · by_cases e43 : h2 = 43
        · left
          simp [strtoul16, strtoul_skip, s1, s2, strtoul_sign, e43, strtoul_skip0x, strtoul_loop]
        · left
          have := one h2
          simp [strtoul16, strtoul_skip, s1, s2, strtoul_sign, e45, e43, strtoul_skip0x, this]
          have h256 : (strtoul_loop 16 [h2] 0 false).1 % 256 = (strtoul_loop 16 [h2] 0 false).1 :=
            Nat.mod_eq_of_lt (by omega)
          omega
  · by_cases e45 : h1 = 45
    · have := one h2
      simp [strtoul16, strtoul_skip, s1, strtoul_sign, e45, strtoul_skip0x, this, isspace,
        ULONG_MAX]
      omega
    · by_cases e43 : h1 = 43
      · have := one h2
        simp [strtoul16, strtoul_skip, s1, strtoul_sign, e43, strtoul_skip0x, this, isspace]
        omega
      · by_cases e0x : h1 = 48 ∧ (h2 = 120 ∨ h2 = 88)
        · left
          obtain ⟨e48, e2⟩ := e0x
          subst e48
          rcases e2 with e2 | e2 <;> subst e2 <;> decide
        · simp [strtoul16, strtoul_skip, s1, strtoul_sign, e45, e43, strtoul_skip0x, e0x, two]
          omega

/-! ## Lemmas on the codec -/

theorem must_encode_iff (c : Nat) :
    must_encode c = true ↔ c = 47 ∨ c = 92 ∨ c = 58 ∨ c = 37 := by
  simp [must_encode, isdirsep, or_assoc]

theorem must_encode_ne_zero (c : Nat) (h : must_encode c = true) : c ≠ 0 := by
  rw [must_encode_iff] at h; omega

theorem sprintf_eq_escape (c : Nat) (h : must_encode c = true) :
    small_sprintf_pct02x c = escape_char c := by
  rw [must_encode_iff] at h
  rcases h with h | h | h | h <;> subst h <;> decide

theorem strlen_of_nulFree (x : List Nat) (h : NulFree x) : strlen x = x.length := by
  induction x with
  | nil => rfl
  | cons c x ih =>
    have hc : c ≠ 0 := h c (List.mem_cons_self _ _)
    have hx : NulFree x := fun d hd => h d (List.mem_cons_of_mem _ hd)
    simp [strlen, hc, ih hx]

theorem nulFree_append {x y : List Nat} (hx : NulFree x) (hy : NulFree y) :
    NulFree (x ++ y) := by
  intro c hc
  rcases List.mem_append.1 hc with h | h
  · exact hx c h
  · exact hy c h

theorem nulFree_tail {c : Nat} {x : List Nat} (h : NulFree (c :: x)) : NulFree x :=
  fun d hd => h d (List.mem_cons_of_mem _ hd)

theorem nulFree_escape_char (c : Nat) (hc : c ≠ 0) : NulFree (escape_char c) := by
  unfold escape_char
  split
  · rename_i h
    rw [must_encode_iff] at h
    rcases h with h | h | h | h <;> subst h <;> decide
  · intro d hd
    simp at hd
    omega

theorem nulFree_escape_body (x : List Nat) (h : NulFree x) : NulFree (escape_body x) := by
  induction x with
  | nil => intro c hc; simp [escape_body] at hc
  | cons c x ih =>
    exact nulFree_append (nulFree_escape_char c (h c (List.mem_cons_self _ _)))
      (ih (nulFree_tail h))

theorem nulFree_escaped_name (x : List Nat) (h : NulFree x) : NulFree (escaped_name x) := by
  unfold escaped_name
  split
  · decide
  · split
    · decide
    · exact nulFree_escape_body x h

theorem nulFree_val_suffix (b : Bool) : NulFree (val_suffix b) := by
  cases b <;> decide

/-- The loop of `encode_regname` past the first character escapes character
by character. -/
theorem encode_loop_tail (N : Nat) (src : List Nat) (rest : List Nat) :
    ∀ (si : Nat) (dst out : List Nat), NulFree rest →
      encode_loop N src rest (si + 1) dst = some out → out = dst ++ escape_body rest := by
  induction rest with
  | nil =>
    intro si dst out _ h
    simp [encode_loop] at h
    simp [escape_body, h]
  | cons c rest ih =>
    intro si dst out hn h
    have hc : c ≠ 0 := hn c (List.mem_cons_self _ _)
    have hr : NulFree rest := nulFree_tail hn
    cases hm : must_encode c
    · simp [encode_loop, hc, hm] at h
      rw [ih _ _ _ hr h]
      simp [escape_body, escape_char, hm]
    · simp only [encode_loop, hc, hm, if_false, Bool.true_or, if_true] at h
      split at h
      · exact absurd h (by simp)
      · rw [ih _ _ _ hr h, sprintf_eq_escape c hm]
        simp [escape_body]

/-- The whole loop of `encode_regname` produces the encoded name of the
specification. -/
theorem encode_loop_spec (N : Nat) (x out : List Nat) (hn : NulFree x)
    (h : encode_loop N x x 0 [] = some out) : out = escaped_name x := by
  match x, hn, h with
  | [], _, h =>
    simp [encode_loop] at h
    subst h; rfl
  | [c], hn, h =>
    have hc : c ≠ 0 := hn c (List.mem_cons_self _ _)
    by_cases h46 : c = 46
    · subst h46
      simp [encode_loop, at_, must_encode, isdirsep] at h
      rw [← h.2]; rfl
    · cases hm : must_encode c
      · simp [encode_loop, hc, hm, h46] at h
        subst h
        simp [escaped_name, h46, escape_body, escape_char, hm]
      · simp only [encode_loop, hc, hm, if_false, Bool.true_or, if_true] at h
        split at h
        · exact absurd h (by simp)
        · simp at h
          subst h
          simp [escaped_name, h46, escape_body, sprintf_eq_escape c hm]
  | [c, d], hn, h =>
    have hc : c ≠ 0 := hn c (List.mem_cons_self _ _)
    have hd : d ≠ 0 := hn d (by simp)
    by_cases hdot : c = 46 ∧ d = 46
    · obtain ⟨rfl, rfl⟩ := hdot
      simp [encode_loop, at_, must_encode, isdirsep] at h
      rw [← h.2]; rfl
    · have hne : ¬ ([c, d] = [46, 46]) := by simpa using hdot
      have hcond : (c == 46 && (0 : Nat) == 0 &&
          (at_ [c, d] 1 == 0 || (at_ [c, d] 1 == 46 && at_ [c, d] 2 == 0))) = false := by
        simp [at_, hd]
        intro h1 h2; exact hdot ⟨h1, h2⟩
      rw [encode_loop] at h
      simp only [hc, if_false, hcond, Bool.or_false] at h
      cases hm : must_encode c
      · simp only [hm] at h
        have := encode_loop_tail N [c, d] [d] 0 [c] out (nulFree_tail hn) (by simpa using h)
        rw [this]
        simp [escaped_name, hne, escape_body, escape_char, hm]
      · simp only [hm, if_true] at h
        split at h
        · exact absurd h (by simp)
        · have := encode_loop_tail N [c, d] [d] 0 _ out (nulFree_tail hn) (by simpa using h)
          rw [this, sprintf_eq_escape c hm]
          simp [escaped_name, hne, escape_body]
  | c :: d :: e :: x, hn, h =>
    have hc : c ≠ 0 := hn c (List.mem_cons_self _ _)
    have hd : d ≠ 0 := hn d (by simp)
    have he : e ≠ 0 := hn e (by simp)
    have hcond : (c == 46 && (0 : Nat) == 0 &&
        (at_ (c :: d :: e :: x) 1 == 0 ||
          (at_ (c :: d :: e :: x) 1 == 46 && at_ (c :: d :: e :: x) 2 == 0))) = false := by
      simp [at_, hd, he]
    rw [encode_loop] at h
    simp only [hc, if_false, hcond, Bool.or_false] at h
    cases hm : must_encode c
    · simp only [hm] at h
      have := encode_loop_tail N _ _ 0 [c] out (nulFree_tail hn) (by simpa using h)
      rw [this]
      simp [escaped_name, escape_body, escape_char, hm]
    · simp only [hm, if_true] at h
      split at h
      · exact absurd h (by simp)
      · have := encode_loop_tail N _ _ 0 _ out (nulFree_tail hn) (by simpa using h)
        rw [this, sprintf_eq_escape c hm]
        simp [escaped_name, escape_body]

/-- A successful `encode_regname` produces the encoded name of the
specification, followed by the marker when `add_val` is set. -/
theorem encode_regname_spec (N : Nat) (x : List Nat) (b : Bool) (hn : NulFree x)
    (h : (encode_regname N x b).1 = 0) :
    (encode_regname N x b).2 = escaped_name x ++ val_suffix b := by
  unfold encode_regname at h ⊢
  cases hl : encode_loop N x x 0 [] with
  | none => rw [hl] at h; simp [ENAMETOOLONG] at h
  | some out =>
    rw [hl] at h
    have := encode_loop_spec N x out hn hl
    subst this
    cases b
    · simp [val_suffix]
    · simp only [if_true] at h ⊢
      split
      · rename_i hlen
        simp [hlen, ENAMETOOLONG] at h
      · simp [val_suffix, val_marker]

theorem strtoul16_escape (c : Nat) (h : must_encode c = true) :
    strtoul16 [hex_digit (c / 16), hex_digit (c % 16)] % 256 = c := by
  rw [must_encode_iff] at h
  rcases h with h | h | h | h <;> subst h <;> decide

theorem hex_digit_ne_v (c : Nat) (h : must_encode c = true) : hex_digit (c / 16) ≠ 118 := by
  rw [must_encode_iff] at h
  rcases h with h | h | h | h <;> subst h <;> decide

theorem escape_char_length (c : Nat) : 1 ≤ (escape_char c).length := by
  unfold escape_char; split <;> simp

/-- One step of the decoding loop on a character other than the percent sign. -/
theorem decode_loop_plain (src : List Nat) (len c : Nat) (rest : List Nat) (si : Nat)
    (dst : List Nat) (hc : c ≠ 37) :
    decode_loop src len (c :: rest) si dst = decode_loop src len rest (si + 1) (dst ++ [c]) := by
  rw [decode_loop.eq_def]
  simp [hc]

/-- One step of the decoding loop on a percent sign followed by two characters
that is not the final marker. -/
theorem decode_loop_pct (src : List Nat) (len h1 h2 : Nat) (rest : List Nat) (si : Nat)
    (dst : List Nat)
    (hv : ¬ (si + 4 = len ∧ (h1 :: h2 :: rest).take 3 = [118, 97, 108]))
    (hl : ¬ (si + 2 ≥ len)) :
    decode_loop src len (37 :: h1 :: h2 :: rest) si dst =
      if !(must_encode (strtoul16 [h1, h2] % 256) ||
          (strtoul16 [h1, h2] % 256 == 46 && si == 0 &&
            (len == 3 || (at_ src 3 == 46 && len == 4)))) then (-1, dst)
      else decode_loop src len rest (si + 3) (dst ++ [strtoul16 [h1, h2] % 256]) := by
  rw [decode_loop.eq_def]
  simp only [if_true, if_neg hv, if_neg hl]

/-- Decoding the character-by-character escape of `x`, followed by nothing or
by the marker, gives back `x` and tells whether the marker was there. -/
theorem decode_loop_escape_body (src : List Nat) (len : Nat) (b : Bool) (x : List Nat) :
    ∀ (si : Nat) (dst : List Nat), len = si + (escape_body x ++ val_suffix b).length →
      decode_loop src len (escape_body x ++ val_suffix b) si dst
        = (if b then 1 else 0, dst ++ x) := by
  induction x with
  | nil =>
    intro si dst hlen
    cases b
    · simp [escape_body, val_suffix, decode_loop]
    · simp [escape_body, val_suffix, val_marker] at hlen
      simp [escape_body, val_suffix, val_marker, decode_loop, hlen]
  | cons c x ih =>
    intro si dst hlen
    cases hm : must_encode c
    · have hc : c ≠ 37 := by
        intro h; subst h; simp [must_encode] at hm
      have e : escape_body (c :: x) ++ val_suffix b = c :: (escape_body x ++ val_suffix b) := by
        simp [escape_body, escape_char, hm]
      rw [e] at hlen ⊢
      rw [decode_loop_plain _ _ _ _ _ _ hc, ih (si + 1) (dst ++ [c]) (by simp at hlen ⊢; omega)]
      simp
    · have e : escape_body (c :: x) ++ val_suffix b =
          37 :: hex_digit (c / 16) :: hex_digit (c % 16) :: (escape_body x ++ val_suffix b) := by
        simp [escape_body, escape_char, hm]
      rw [e] at hlen ⊢
      have hv := hex_digit_ne_v c hm
      have h1 : ¬ (si + 4 = len ∧
          (hex_digit (c / 16) :: hex_digit (c % 16) :: (escape_body x ++ val_suffix b)).take 3
            = [118, 97, 108]) := by
        rintro ⟨_, h⟩
        simp at h
        exact hv h.1
      have h2 : ¬ (si + 2 ≥ len) := by simp at hlen; omega
      rw [decode_loop_pct _ _ _ _ _ _ _ h1 h2]
      simp only [strtoul16_escape c hm, hm, Bool.true_or, Bool.not_true]
      rw [if_neg (by simp), ih (si + 3) (dst ++ [c]) (by simp at hlen ⊢; omega)]
      simp

theorem take_length_self (x : List Nat) : x.take x.length = x := List.take_length x

/-- Decoding the encoded name of the specification without marker. -/
theorem decode_escaped_name (x : List Nat) (hn : NulFree x) :
    decode_regname (escaped_name x) = (0, x) := by
  have hs := strlen_of_nulFree _ (nulFree_escaped_name x hn)
  unfold decode_regname decode_regname_len
  rw [hs, List.take_length]
  unfold escaped_name
  split
  · rename_i h; subst h; decide
  · split
    · rename_i h; subst h; decide
    · have := decode_loop_escape_body (escape_body x) (escape_body x).length false x 0 []
        (by simp [val_suffix])
      simpa [val_suffix] using this

/-- Decoding the encoded name of the specification with marker, for a name
other than `.` and `..`. -/
theorem decode_escaped_name_val (x : List Nat) (hn : NulFree x)
    (h1 : x ≠ [46]) (h2 : x ≠ [46, 46]) :
    decode_regname (escaped_name x ++ val_marker) = (1, x) := by
  have hs := strlen_of_nulFree _
    (nulFree_append (nulFree_escaped_name x hn) (nulFree_val_suffix true))
  simp only [val_suffix, if_true] at hs
  unfold decode_regname decode_regname_len
  rw [hs, List.take_length]
  simp only [escaped_name, if_neg h1, if_neg h2]
  have := decode_loop_escape_body (escape_body x ++ val_marker)
    (escape_body x ++ val_marker).length true x 0 [] (by simp [val_suffix])
  simpa [val_suffix] using this

/-! ## Round trips of the codec -/

/-- C1: round trip without suffix. For every raw name `x` without an embedded
NUL for which `encode_regname` with `add_val = false` returns 0,
`decode_regname` applied to the encoded string returns 0 (success, no
value-only hint) and produces exactly `x`. -/
theorem decode_encode_roundtrip (NAME_MAX : Nat) (x : List Nat) (hn : NulFree x)
    (h : (encode_regname NAME_MAX x false).1 = 0) :
    decode_regname (encode_regname NAME_MAX x false).2 = (0, x) := by
  rw [encode_regname_spec NAME_MAX x false hn h]
  simpa [val_suffix] using decode_escaped_name x hn

/-- Witness of C1 on the raw name `a/b:.%` with the usual `NAME_MAX` of 255. -/
theorem decode_encode_roundtrip_witness :
    NulFree (cstr "a/b:.%") ∧ (encode_regname 255 (cstr "a/b:.%") false).1 = 0 ∧
      decode_regname (encode_regname 255 (cstr "a/b:.%") false).2 = (0, cstr "a/b:.%") :=
  ⟨by decide, by decide,
    decode_encode_roundtrip 255 (cstr "a/b:.%") (by decide) (by decide)⟩

/-- C2 at the failing input: with `add_val = true` the raw names `.` and `..`
encode successfully to `%2e%val` and `%2e.%val`, and `decode_regname` rejects
both encoded strings with -1 instead of returning 1 and the raw name. -/
theorem decode_rejects_encoded_dot_with_marker :
    encode_regname 255 (cstr ".") true = (0, cstr "%2e%val") ∧
      (decode_regname (cstr "%2e%val")).1 = -1 ∧
      encode_regname 255 (cstr "..") true = (0, cstr "%2e.%val") ∧
      (decode_regname (cstr "%2e.%val")).1 = -1 := by
  decide

/-- Round trip with suffix for every raw name other than `.` and `..`: the
decoder returns 1 and the raw name. -/
theorem decode_encode_roundtrip_marker (NAME_MAX : Nat) (x : List Nat) (hn : NulFree x)
    (h1 : x ≠ [46]) (h2 : x ≠ [46, 46])
    (h : (encode_regname NAME_MAX x true).1 = 0) :
    decode_regname (encode_regname NAME_MAX x true).2 = (1, x) := by
  rw [encode_regname_spec NAME_MAX x true hn h]
  simpa [val_suffix] using decode_escaped_name_val x hn h1 h2

/-! ## What the encoder writes -/

theorem escape_char_no_sep (c d : Nat) (hd : d ∈ escape_char c) :
    d ≠ 47 ∧ d ≠ 92 ∧ d ≠ 58 := by
  unfold escape_char at hd
  split at hd
  · rename_i h
    rw [must_encode_iff] at h
    rcases h with h | h | h | h <;> subst h <;> revert d <;> decide
  · rename_i h
    simp at hd
    subst hd
    have := (must_encode_iff d).not.1 h
    omega

theorem escape_body_no_sep (x : List Nat) : ∀ d ∈ escape_body x, d ≠ 47 ∧ d ≠ 92 ∧ d ≠ 58 := by
  induction x with
  | nil => intro d hd; simp [escape_body] at hd
  | cons c x ih =>
    intro d hd
    simp only [escape_body, List.mem_append] at hd
    rcases hd with hd | hd
    · exact escape_char_no_sep c d hd
    · exact ih d hd

theorem escaped_name_no_sep (x : List Nat) (b : Bool) :
    ∀ d ∈ escaped_name x ++ val_suffix b, d ≠ 47 ∧ d ≠ 92 ∧ d ≠ 58 := by
  intro d hd
  rcases List.mem_append.1 hd with hd | hd
  · unfold escaped_name at hd
    split at hd
    · exact (by decide : ∀ d ∈ [37, 50, 101], d ≠ 47 ∧ d ≠ 92 ∧ d ≠ 58) d hd
    · split at hd
      · exact (by decide : ∀ d ∈ [37, 50, 101, 46], d ≠ 47 ∧ d ≠ 92 ∧ d ≠ 58) d hd
      · exact escape_body_no_sep x d hd
  · cases b
    · simp [val_suffix] at hd
    · exact (by decide : ∀ d ∈ val_suffix true, d ≠ 47 ∧ d ≠ 92 ∧ d ≠ 58) d hd

theorem at_cons_succ (c : Nat) (l : List Nat) (i : Nat) : at_ (c :: l) (i + 1) = at_ l i := by
  simp [at_]

theorem at_cons_zero (c : Nat) (l : List Nat) : at_ (c :: l) 0 = c := by
  simp [at_]

theorem at_nil (i : Nat) : at_ [] i = 0 := by
  simp [at_]

theorem pctStart_cons (b : Bool) (d : Nat) (out : List Nat) (i : Nat)
    (h : PctStart b out i) : PctStart b (d :: out) (i + 1) := by
  rcases h with ⟨c, hc, h⟩ | ⟨hb, hl, h⟩
  · exact Or.inl ⟨c, hc, by simpa using h⟩
  · exact Or.inr ⟨hb, by simp; omega, by simpa using h⟩

/-- Every percent sign of a character-by-character escape starts an escape or
the final marker. -/
theorem escape_body_pct (b : Bool) (x : List Nat) :
    ∀ i, at_ (escape_body x ++ val_suffix b) i = 37 →
      PctStart b (escape_body x ++ val_suffix b) i := by
  induction x with
  | nil =>
    intro i hi
    cases b
    · simp [escape_body, val_suffix, at_] at hi
    · match i with
      | 0 => exact Or.inr ⟨rfl, rfl, rfl⟩
      | 1 | 2 | 3 => simp [escape_body, val_suffix, val_marker, at_] at hi
      | i + 4 => simp [escape_body, val_suffix, val_marker, at_] at hi
  | cons c x ih =>
    intro i hi
    cases hm : must_encode c
    · have e : escape_body (c :: x) ++ val_suffix b = c :: (escape_body x ++ val_suffix b) := by
        simp [escape_body, escape_char, hm]
      rw [e] at hi ⊢
      match i with
      | 0 =>
        rw [at_cons_zero] at hi
        subst hi
        simp [must_encode] at hm
      | i + 1 =>
        rw [at_cons_succ] at hi
        exact pctStart_cons b c _ i (ih i hi)
    · have e : escape_body (c :: x) ++ val_suffix b =
          37 :: hex_digit (c / 16) :: hex_digit (c % 16) :: (escape_body x ++ val_suffix b) := by
        simp [escape_body, escape_char, hm]
      rw [e] at hi ⊢
      have hh : hex_digit (c / 16) ≠ 37 ∧ hex_digit (c % 16) ≠ 37 := by
        rw [must_encode_iff] at hm
        rcases hm with h | h | h | h <;> subst h <;> decide
      match i with
      | 0 => exact Or.inl ⟨c, hm, by simp⟩
      | 1 =>
        rw [at_cons_succ, at_cons_zero] at hi
        exact absurd hi hh.1
      | 2 =>
        rw [at_cons_succ, at_cons_succ, at_cons_zero] at hi
        exact absurd hi hh.2
      | i + 3 =>
        rw [at_cons_succ, at_cons_succ, at_cons_succ] at hi
        exact pctStart_cons b _ _ _ (pctStart_cons b _ _ _ (pctStart_cons b _ _ _ (ih i hi)))

/-- C9: encode escapes every occurrence. For every raw name `x` and either
flag value, if `encode_regname` returns 0 then the output is `x` translated
character by character, every `/`, `\`, `:` and `%` becoming `%` and the two
lowercase hexadecimal digits of its code and every other character being
copied (apart from the leading dot of the names `.` and `..`), followed by the
marker when `add_val` is set; the output contains no `/`, `\` or `:`; and every
`%` in it starts an escape (three characters `%hh` that are the escape of a
character that must be encoded, or the `%2e` of the leading-dot rule at the
very start) or the trailing `%val` marker. -/
theorem encode_escapes_every_occurrence (NAME_MAX : Nat) (x : List Nat) ( add_val : Bool)
    (hn : NulFree x) (h : (encode_regname NAME_MAX x add_val).1 = 0) :
    (encode_regname NAME_MAX x add_val).2 = escaped_name x ++ val_suffix add_val ∧
    (∀ c ∈ x, must_encode c = true →
      escape_char c = [37, hex_digit (c / 16), hex_digit (c % 16)]) ∧
    (∀ c ∈ x, must_encode c = false → escape_char c = [c]) ∧
    (∀ d ∈ (encode_regname NAME_MAX x add_val).2, d ≠ 47 ∧ d ≠ 92 ∧ d ≠ 58) ∧
    (∀ i, at_ (encode_regname NAME_MAX x add_val).2 i = 37 →
      PctStart add_val (encode_regname NAME_MAX x add_val).2 i ∨
      (i = 0 ∧ (x = [46] ∨ x = [46, 46]) ∧
        (encode_regname NAME_MAX x add_val).2.take 3 = [37, 50, 101])) := by
  rw [encode_regname_spec NAME_MAX x add_val hn h]
  refine ⟨rfl, ?_, ?_, escaped_name_no_sep x add_val, ?_⟩
  · intro c _ hc
    simp [escape_char, hc]
  · intro c _ hc
    simp [escape_char, hc]
  · intro i hi
    by_cases h1 : x = [46]
    · subst h1
      cases add_val
      · match i with
        | 0 => right; exact ⟨rfl, Or.inl rfl, rfl⟩
        | 1 | 2 => simp [escaped_name, val_suffix, at_] at hi
        | i + 3 => simp [escaped_name, val_suffix, at_] at hi
      · match i with
        | 0 => right; exact ⟨rfl, Or.inl rfl, rfl⟩
        | 3 => left; exact Or.inr ⟨rfl, rfl, rfl⟩
        | 1 | 2 | 4 | 5 | 6 => simp [escaped_name, val_suffix, val_marker, at_] at hi
        | i + 7 => simp [escaped_name, val_suffix, val_marker, at_] at hi
    · by_cases h2 : x = [46, 46]
      · subst h2
        cases add_val
        · match i with
          | 0 => right; exact ⟨rfl, Or.inr rfl, rfl⟩
          | 1 | 2 | 3 => simp [escaped_name, val_suffix, at_] at hi
          | i + 4 => simp [escaped_name, val_suffix, at_] at hi
        · match i with
          | 0 => right; exact ⟨rfl, Or.inr rfl, rfl⟩
          | 4 => left; exact Or.inr ⟨rfl, rfl, rfl⟩
          | 1 | 2 | 3 | 5 | 6 | 7 => simp [escaped_name, val_suffix, val_marker, at_] at hi
          | i + 8 => simp [escaped_name, val_suffix, val_marker, at_] at hi
      · left
        simp only [escaped_name, if_neg h1, if_neg h2] at hi ⊢
        exact escape_body_pct add_val x i hi

/-- Witness of C9 on the raw name `a/b:.%` with the marker. -/
theorem encode_escapes_every_occurrence_witness :
    NulFree (cstr "a/b:.%") ∧ (encode_regname 255 (cstr "a/b:.%") true).1 = 0 ∧
    (encode_regname 255 (cstr "a/b:.%") true).2 = cstr "a%2fb%3a.%25%val" ∧
    (∀ d ∈ (encode_regname 255 (cstr "a/b:.%") true).2, d ≠ 47 ∧ d ≠ 92 ∧ d ≠ 58) :=
  ⟨by decide, by decide, by decide,
    (encode_escapes_every_occurrence 255 (cstr "a/b:.%") true (by decide) (by decide)).2.2.2.1⟩

/-! ## The dot rule -/

theorem escape_char_count_dot (c : Nat) : (escape_char c).count 46 = [c].count 46 := by
  unfold escape_char
  split
  · rename_i h
    rw [must_encode_iff] at h
    rcases h with h | h | h | h <;> subst h <;> decide
  · rfl

theorem escape_body_count_dot (x : List Nat) : (escape_body x).count 46 = x.count 46 := by
  induction x with
  | nil => rfl
  | cons c x ih =>
    have : c :: x = [c] ++ x := rfl
    rw [escape_body, List.count_append, escape_char_count_dot, ih, this, List.count_append]

theorem escape_body_ne_dot (x : List Nat) (h1 : x ≠ [46]) (h2 : x ≠ [46, 46]) :
    escape_body x ≠ [46] ∧ escape_body x ≠ [46, 46] := by
  have hc : ∀ c, escape_char c = [c] ∨ ∃ a b, escape_char c = [37, a, b] := by
    intro c
    unfold escape_char
    split
    · exact Or.inr ⟨_, _, rfl⟩
    · exact Or.inl rfl
  match x with
  | [] => simp [escape_body]
  | [c] =>
    rcases hc c with h | ⟨a, b, h⟩
    · simp only [escape_body, h]
      simpa using h1
    · simp [escape_body, h]
  | [c, d] =>
    rcases hc c with h | ⟨a, b, h⟩
    · rcases hc d with h' | ⟨a', b', h'⟩
      · simp only [escape_body, h, h']
        simpa using h2
      · simp [escape_body, h, h']
    · simp [escape_body, h]
  | c :: d :: e :: x =>
    have l1 := escape_char_length c
    have l2 := escape_char_length d
    have l3 := escape_char_length e
    have hl : 3 ≤ (escape_body (c :: d :: e :: x)).length := by
      simp only [escape_body, List.length_append]
      omega
    constructor <;> intro h <;> rw [h] at hl <;> simp at hl

/-- C10: the dot rule. `encode_regname` escapes a `.` only when it is the first
character of a raw name that is exactly `.` or `..`, giving `%2e` and `%2e.`
(and it does return 0 on both names as soon as `NAME_MAX` is 3 or more); its
output is never `.` or `..`; and for every other raw name the output is the
character-by-character escape, in which no `.` is escaped: the output has as
many dots as the raw name. -/
theorem encode_dot_rule (NAME_MAX : Nat) (x : List Nat) ( add_val : Bool)
    (hn : NulFree x) (h : (encode_regname NAME_MAX x add_val).1 = 0) :
    (3 ≤ NAME_MAX → encode_regname NAME_MAX [46] false = (0, [37, 50, 101]) ∧
      encode_regname NAME_MAX [46, 46] false = (0, [37, 50, 101, 46])) ∧
    (x = [46] → (encode_regname NAME_MAX x add_val).2 = [37, 50, 101] ++ val_suffix add_val) ∧
    (x = [46, 46] →
      (encode_regname NAME_MAX x add_val).2 = [37, 50, 101, 46] ++ val_suffix add_val) ∧
    (encode_regname NAME_MAX x add_val).2 ≠ [46] ∧
    (encode_regname NAME_MAX x add_val).2 ≠ [46, 46] ∧
    (x ≠ [46] → x ≠ [46, 46] →
      (encode_regname NAME_MAX x add_val).2 = escape_body x ++ val_suffix add_val ∧
      (escape_body x).count 46 = x.count 46) := by
  rw [encode_regname_spec NAME_MAX x add_val hn h]
  refine ⟨?_, ?_, ?_, ?_, ?_, ?_⟩
  · intro hN
    have h3 : ¬ (3 ≥ NAME_MAX + 1) := by omega
    constructor
    · simp [encode_regname, encode_loop, must_encode, isdirsep, at_, h3]
      rfl
    · simp [encode_regname, encode_loop, must_encode, isdirsep, at_, h3]
      rfl
  · intro hx; subst hx; rfl
  · intro hx; subst hx; rfl
  · by_cases h1 : x = [46]
    · subst h1; cases add_val <;> decide
    · by_cases h2 : x = [46, 46]
      · subst h2; cases add_val <;> decide
      · simp only [escaped_name, if_neg h1, if_neg h2]
        cases add_val
        · simpa [val_suffix] using (escape_body_ne_dot x h1 h2).1
        · intro hc
          have := congrArg List.getLast? hc
          simp [val_suffix, val_marker] at this
  · by_cases h1 : x = [46]
    · subst h1; cases add_val <;> decide
    · by_cases h2 : x = [46, 46]
      · subst h2; cases add_val <;> decide
      · simp only [escaped_name, if_neg h1, if_neg h2]
        cases add_val
        · simpa [val_suffix] using (escape_body_ne_dot x h1 h2).2
        · intro hc
          have := congrArg List.getLast? hc
          simp [val_suffix, val_marker] at this
  · intro h1 h2
    refine ⟨?_, escape_body_count_dot x⟩
    simp only [escaped_name, if_neg h1, if_neg h2]

/-- Witness of C10 on the raw name `..b`, one of the names of the claim. -/
theorem encode_dot_rule_witness :
    NulFree (cstr "..b") ∧ (encode_regname 255 (cstr "..b") false).1 = 0 ∧
    (encode_regname 255 (cstr "..b") false).2 = cstr "..b" ∧
    (encode_regname 255 (cstr "..b") false).2 ≠ [46, 46] :=
  ⟨by decide, by decide, by decide,
    (encode_dot_rule 255 (cstr "..b") false (by decide) (by decide)).2.2.2.2.1⟩

/-! ## Rejection of bad escapes -/

theorem hex_value_lt (h : Nat) (hx : isxdigit h = true) : hex_value h < 16 :=
  (strtoul_digit_xdigit h hx).2

/-- A percent sign is not a hexadecimal digit. -/
theorem not_isxdigit_pct : isxdigit 37 = false := by decide

/-- When the two characters after a percent sign denote an accepted character,
both are hexadecimal digits and the character is their value. -/
theorem strtoul16_accepted (h1 h2 : Nat)
    (hc : must_encode (strtoul16 [h1, h2] % 256) = true ∨ strtoul16 [h1, h2] % 256 = 46) :
    isxdigit h1 = true ∧ isxdigit h2 = true ∧
      strtoul16 [h1, h2] % 256 = hex_value h1 * 16 + hex_value h2 := by
  have hv : 16 ≤ strtoul16 [h1, h2] % 256 ∧ strtoul16 [h1, h2] % 256 ≤ 240 := by
    rcases hc with hc | hc
    · rw [must_encode_iff] at hc; omega
    · omega
  cases hx : (isxdigit h1 && isxdigit h2)
  · have := strtoul16_two_small h1 h2 hx
    omega
  · simp only [Bool.and_eq_true] at hx
    refine ⟨hx.1, hx.2, ?_⟩
    rw [strtoul16_two_hex h1 h2 hx.1 hx.2]
    have := hex_value_lt h1 hx.1
    have := hex_value_lt h2 hx.2
    omega

/-- The acceptance test of the decoder (line 149) as a proposition. -/
theorem accepted_iff (c si len a3 : Nat) :
    ¬ ((!(must_encode c || (c == 46 && si == 0 && (len == 3 || (a3 == 46 && len == 4))))) = true)
      ↔ (must_encode c = true ∨ (c = 46 ∧ si = 0 ∧ (len = 3 ∨ (a3 = 46 ∧ len = 4)))) := by
  cases must_encode c <;> simp [and_assoc]
  intro _ _
  by_cases h3 : len = 3 <;> simp [h3]

/-- The loop of the decoder fails as soon as the rest of the string holds a
percent sign that starts a bad escape (induction on a bound of the length). -/
theorem decode_loop_bad_aux (src : List Nat) (len : Nat) :
    ∀ (n : Nat) (rest : List Nat), rest.length ≤ n → ∀ (si : Nat) (dst : List Nat),
    len = si + rest.length → ∀ (j : Nat), at_ rest j = 37 →
    ¬ (si + j + 4 = len ∧ rest.drop j = val_marker) →
    (si + j + 2 ≥ len ∨
        (isxdigit (at_ rest (j + 1)) && isxdigit (at_ rest (j + 2))) = false ∨
        (isxdigit (at_ rest (j + 1)) = true ∧ isxdigit (at_ rest (j + 2)) = true ∧
          must_encode (hex_value (at_ rest (j + 1)) * 16 + hex_value (at_ rest (j + 2))) = false ∧
          ¬ (hex_value (at_ rest (j + 1)) * 16 + hex_value (at_ rest (j + 2)) = 46 ∧ si + j = 0 ∧
              (len = 3 ∨ (len = 4 ∧ at_ src 3 = 46))))) →
    (decode_loop src len rest si dst).1 = -1 := by
  intro n
  induction n with
  | zero =>
    intro rest hn si dst _ j hj
    have : rest = [] := List.length_eq_zero.1 (by omega)
    subst this
    simp [at_] at hj
  | succ n ih =>
    intro rest hn si dst hlen j hj hterm hbad
    match rest, hn, hlen, hj, hterm, hbad with
    | [], _, _, hj, _, _ => simp [at_] at hj
    | c :: rest, hn, hlen, hj, hterm, hbad =>
      have hn' : rest.length ≤ n := by simpa using hn
      by_cases hc : c = 37
      · subst hc
        by_cases hm : si + 4 = len ∧ rest.take 3 = [118, 97, 108]
        · exfalso
          obtain ⟨h4, ht⟩ := hm
          have hl3 : rest.length = 3 := by simp at hlen; omega
          have hr : rest = [118, 97, 108] := by
            rw [← ht, List.take_of_length_le (by omega)]
          subst hr
          match j, hj, hterm with
          | 0, _, hterm => exact hterm ⟨by omega, rfl⟩
          | 1, hj, _ | 2, hj, _ | 3, hj, _ => simp [at_] at hj
          | j + 4, hj, _ => simp [at_] at hj
        · by_cases hl : si + 2 ≥ len
          · rw [decode_loop.eq_def]
            simp only [if_true, if_neg hm, if_pos hl]
          · match rest, hn', hlen, hj, hterm, hbad, hm with
            | [], _, hlen, _, _, _, _ => simp at hlen; omega
            | [_], _, hlen, _, _, _, _ => simp at hlen; omega
            | h1 :: h2 :: rest2, hn', hlen, hj, hterm, hbad, hm =>
              have hn2 : rest2.length ≤ n := by simp at hn'; omega
              rw [decode_loop_pct _ _ _ _ _ _ _ hm hl]
              split
              · rfl
              · rename_i hacc
                have hacc' : must_encode (strtoul16 [h1, h2] % 256) = true ∨
                    (strtoul16 [h1, h2] % 256 = 46 ∧ si = 0 ∧
                      (len = 3 ∨ (at_ src 3 = 46 ∧ len = 4))) :=
                  (accepted_iff _ _ _ _).1 hacc
                have hx := strtoul16_accepted h1 h2 (by
                  rcases hacc' with h | h
                  · exact Or.inl h
                  · exact Or.inr h.1)
                match j, hj, hterm, hbad with
                | 0, _, _, hbad =>
                  exfalso
                  simp only [at_cons_succ, at_cons_zero, Nat.add_zero, Nat.zero_add] at hbad
                  rcases hbad with hb | hb | ⟨_, _, hb1, hb2⟩
                  · omega
                  · simp [hx.1, hx.2.1] at hb
                  · rw [← hx.2.2] at hb1 hb2
                    rcases hacc' with h | ⟨h46, h0, h⟩
                    · simp [hb1] at h
                    · apply hb2
                      refine ⟨h46, h0, ?_⟩
                      rcases h with h | h
                      · exact Or.inl h
                      · exact Or.inr ⟨h.2, h.1⟩
                | 1, hj, _, _ =>
                  exfalso
                  rw [at_cons_succ, at_cons_zero] at hj
                  rw [hj] at hx
                  simp [not_isxdigit_pct] at hx
                | 2, hj, _, _ =>
                  exfalso
                  rw [at_cons_succ, at_cons_succ, at_cons_zero] at hj
                  rw [hj] at hx
                  simp [not_isxdigit_pct] at hx
                | j + 3, hj, hterm, hbad =>
                  simp only [at_cons_succ] at hj hbad
                  apply ih rest2 hn2 (si + 3) _ (by simp at hlen ⊢; omega) j hj
                  · intro h
                    apply hterm
                    refine ⟨by omega, ?_⟩
                    simpa using h.2
                  · have e : si + 3 + j = si + (j + 3) := by omega
                    rw [e]
                    exact hbad
      · rw [decode_loop_plain _ _ _ _ _ _ hc]
        match j, hj, hterm, hbad with
        | 0, hj, _, _ =>
          rw [at_cons_zero] at hj
          exact absurd hj hc
        | j + 1, hj, hterm, hbad =>
          simp only [at_cons_succ] at hj hbad
          apply ih rest hn' (si + 1) _ (by simp at hlen ⊢; omega) j hj
          · intro h
            apply hterm
            refine ⟨by omega, ?_⟩
            simpa using h.2
          · have e : si + 1 + j = si + (j + 1) := by omega
            rw [e]
            exact hbad

/-- C8: decode rejects bad escapes. For every input string (without embedded
NUL) with a `%` at index `i` that is not the start of a terminal `%val`
marker, `decode_regname` returns -1 whenever (a) fewer than two characters
follow the `%`, or (b) the two following characters are not both hexadecimal
digits, or (c) the escaped character is none of `/`, `\`, `:`, `%` and is not
a leading `.` whose whole name is exactly `.` or `..`. -/
theorem decode_rejects_bad_escape (s : List Nat) (hn : NulFree s) (i : Nat)
    (hp : at_ s i = 37)
    (hterm : ¬ (i + 4 = s.length ∧ s.drop i = val_marker))
    (hbad : BadEscape s i) :
    (decode_regname s).1 = -1 := by
  unfold decode_regname decode_regname_len
  rw [strlen_of_nulFree s hn, List.take_length]
  apply decode_loop_bad_aux s s.length s.length s (le_refl _) 0 [] (by simp) i hp
  · simpa using hterm
  · simpa [BadEscape] using hbad

/-- Witness of C8: the escape `%41` of the letter A, which needs no escape. -/
theorem decode_rejects_bad_escape_witness :
    NulFree (cstr "x%41") ∧ at_ (cstr "x%41") 1 = 37 ∧ BadEscape (cstr "x%41") 1 ∧
      (decode_regname (cstr "x%41")).1 = -1 :=
  ⟨by decide, by decide, Or.inr (Or.inr (by decide)),
    decode_rejects_bad_escape (cstr "x%41") (by decide) 1 (by decide) (by decide)
      (Or.inr (Or.inr (by decide)))⟩

/-! ## Injectivity of the decoder -/

theorem hex_digit_hex_value (h : Nat) (hx : isxdigit h = true) (hu : is_upper_hex h = false) :
    hex_digit (hex_value h) = h := by
  have r := isxdigit_range h hx
  simp only [is_upper_hex, Bool.and_eq_false_iff, decide_eq_false_iff_not] at hu
  unfold hex_digit hex_value
  split_ifs <;> omega

/-- With lowercase digits, the two characters of an accepted escape are the
two digits the encoder writes for the decoded character. -/
theorem accepted_lower_hex (h1 h2 : Nat)
    (hc : must_encode (strtoul16 [h1, h2] % 256) = true ∨ strtoul16 [h1, h2] % 256 = 46)
    (hu1 : is_upper_hex h1 = false) (hu2 : is_upper_hex h2 = false) :
    h1 = hex_digit (strtoul16 [h1, h2] % 256 / 16) ∧
      h2 = hex_digit (strtoul16 [h1, h2] % 256 % 16) := by
  obtain ⟨hx1, hx2, hv⟩ := strtoul16_accepted h1 h2 hc
  have l1 := hex_value_lt h1 hx1
  have l2 := hex_value_lt h2 hx2
  rw [hv]
  have e1 : (hex_value h1 * 16 + hex_value h2) / 16 = hex_value h1 := by omega
  have e2 : (hex_value h1 * 16 + hex_value h2) % 16 = hex_value h2 := by omega
  rw [e1, e2, hex_digit_hex_value h1 hx1 hu1, hex_digit_hex_value h2 hx2 hu2]
  exact ⟨rfl, rfl⟩

theorem no_raw_special_cons (c : Nat) (s : List Nat) (h : no_raw_special (c :: s) = true) :
    (c ≠ 47 ∧ c ≠ 92 ∧ c ≠ 58) ∧ no_raw_special s = true := by
  simpa [no_raw_special, and_assoc] using h

theorem lower_hex_escapes_cons (c : Nat) (s : List Nat) (h : lower_hex_escapes (c :: s) = true) :
    (c = 37 → is_upper_hex (at_ s 0) = false ∧ is_upper_hex (at_ s 1) = false) ∧
      lower_hex_escapes s = true := by
  simp only [lower_hex_escapes, Bool.and_eq_true, Bool.or_eq_true, bne_iff_ne, ne_eq,
    Bool.not_eq_true'] at h
  refine ⟨fun hc => ?_, h.2⟩
  rcases h.1 with h' | h'
  · exact absurd hc h'
  · exact h'

/-- Past the first character, an accepted canonical rest of the input is the
character-by-character escape of what the loop appends, followed by the
marker exactly when the loop returns 1. -/
theorem decode_loop_canonical (src : List Nat) (len : Nat) :
    ∀ (n : Nat) (rest : List Nat), rest.length ≤ n → ∀ (si : Nat) (dst : List Nat),
    len = si + 1 + rest.length → no_raw_special rest = true → lower_hex_escapes rest = true →
    (decode_loop src len rest (si + 1) dst).1 ≠ -1 →
    ∃ x b, decode_loop src len rest (si + 1) dst = (if b then 1 else 0, dst ++ x) ∧
      rest = escape_body x ++ val_suffix b := by
  intro n
  induction n with
  | zero =>
    intro rest hn si dst _ _ _ _
    have : rest = [] := List.length_eq_zero.1 (by omega)
    subst this
    exact ⟨[], false, by simp [decode_loop], by simp [escape_body, val_suffix]⟩
  | succ n ih =>
    intro rest hn si dst hlen hraw hlow hacc
    match rest, hn, hlen, hraw, hlow, hacc with
    | [], _, _, _, _, _ =>
      exact ⟨[], false, by simp [decode_loop], by simp [escape_body, val_suffix]⟩
    | c :: rest, hn, hlen, hraw, hlow, hacc =>
      have hn' : rest.length ≤ n := by simpa using hn
      obtain ⟨hrc, hraw'⟩ := no_raw_special_cons c rest hraw
      obtain ⟨hlc, hlow'⟩ := lower_hex_escapes_cons c rest hlow
      by_cases hc : c = 37
      · subst hc
        by_cases hm : si + 1 + 4 = len ∧ rest.take 3 = [118, 97, 108]
        · obtain ⟨h4, ht⟩ := hm
          have hl3 : rest.length = 3 := by simp at hlen; omega
          have hr : rest = [118, 97, 108] := by
            rw [← ht, List.take_of_length_le (by omega)]
          subst hr
          refine ⟨[], true, ?_, rfl⟩
          rw [decode_loop.eq_def]
          simp [h4]
        · by_cases hl : si + 1 + 2 ≥ len
          · exfalso
            apply hacc
            rw [decode_loop.eq_def]
            simp only [if_true, if_neg hm, if_pos hl]
          · match rest, hn', hlen, hraw', hlow', hlc, hacc, hm with
            | [], _, hlen, _, _, _, _, _ => simp at hlen; omega
            | [_], _, hlen, _, _, _, _, _ => simp at hlen; omega
            | h1 :: h2 :: rest2, hn', hlen, hraw', hlow', hlc, hacc, hm =>
              have hn2 : rest2.length ≤ n := by simp at hn'; omega
              have hraw2 := (no_raw_special_cons _ _ (no_raw_special_cons _ _ hraw').2).2
              have hlow2 := (lower_hex_escapes_cons _ _ (lower_hex_escapes_cons _ _ hlow').2).2
              have hu := hlc rfl
              rw [at_cons_zero, at_cons_succ, at_cons_zero] at hu
              rw [decode_loop_pct _ _ _ _ _ _ _ hm hl] at hacc ⊢
              split at hacc
              · exact absurd rfl hacc
              · rename_i hok
                rw [if_neg hok]
                have hok' := (accepted_iff _ _ _ _).1 hok
                have hmust : must_encode (strtoul16 [h1, h2] % 256) = true := by
                  rcases hok' with h | h
                  · exact h
                  · omega
                obtain ⟨e1, e2⟩ := accepted_lower_hex h1 h2 (Or.inl hmust) hu.1 hu.2
                obtain ⟨x, b, hd, hr⟩ := ih rest2 hn2 (si + 3) _ (by simp at hlen ⊢; omega)
                  hraw2 hlow2 hacc
                refine ⟨(strtoul16 [h1, h2] % 256) :: x, b, ?_, ?_⟩
                · rw [hd]; simp
                · have e : escape_body ((strtoul16 [h1, h2] % 256) :: x) ++ val_suffix b =
                      37 :: hex_digit (strtoul16 [h1, h2] % 256 / 16) ::
                        hex_digit (strtoul16 [h1, h2] % 256 % 16) ::
                        (escape_body x ++ val_suffix b) := by
                    simp [escape_body, escape_char, hmust]
                  rw [e, ← hr, ← e1, ← e2]
      · rw [decode_loop_plain _ _ _ _ _ _ hc] at hacc ⊢
        obtain ⟨x, b, hd, hr⟩ := ih rest hn' (si + 1) _ (by simp at hlen ⊢; omega)
          hraw' hlow' hacc
        refine ⟨c :: x, b, ?_, ?_⟩
        · rw [hd]; simp
        · have hm : must_encode c = false := by
            cases h : must_encode c
            · rfl
            · rw [must_encode_iff] at h; omega
          have e : escape_body (c :: x) ++ val_suffix b = c :: (escape_body x ++ val_suffix b) := by
            simp [escape_body, escape_char, hm]
          rw [e, ← hr]

/-- An accepted canonical input is determined by what it decodes to. -/
theorem decode_regname_canonical (s : List Nat) (hn : NulFree s) (hc : canonical s = true)
    (hacc : (decode_regname s).1 ≠ -1) :
    ∃ x b, decode_regname s = (if b then 1 else 0, x) ∧ s = decoded_form x b := by
  unfold decode_regname decode_regname_len at hacc ⊢
  rw [strlen_of_nulFree s hn, List.take_length] at hacc ⊢
  simp only [canonical, Bool.and_eq_true, bne_iff_ne, ne_eq] at hc
  obtain ⟨⟨⟨hraw, hd1⟩, hd2⟩, hlow⟩ := hc
  match s, hraw, hd1, hd2, hlow, hacc with
  | [], _, _, _, _, _ =>
    exact ⟨[], false, by simp [decode_loop], by simp [decoded_form, escape_body, val_suffix]⟩
  | c :: rest, hraw, hd1, hd2, hlow, hacc =>
    obtain ⟨hrc, hraw'⟩ := no_raw_special_cons c rest hraw
    obtain ⟨hlc, hlow'⟩ := lower_hex_escapes_cons c rest hlow
    by_cases hc : c = 37
    · subst hc
      by_cases hm : 0 + 4 = (37 :: rest).length ∧ rest.take 3 = [118, 97, 108]
      · obtain ⟨h4, ht⟩ := hm
        have hl3 : rest.length = 3 := by simp at h4; omega
        have hr : rest = [118, 97, 108] := by
          rw [← ht, List.take_of_length_le (by omega)]
        subst hr
        exact ⟨[], true, by decide, by decide⟩
      · by_cases hl : 0 + 2 ≥ (37 :: rest).length
        · exfalso
          apply hacc
          rw [decode_loop.eq_def]
          simp only [if_true, if_neg hm, if_pos hl]
        · match rest, hraw', hlow', hlc, hacc, hm, hl, hd1, hd2 with
          | [], _, _, _, _, _, hl, _, _ => simp at hl
          | [_], _, _, _, _, _, hl, _, _ => simp at hl
          | h1 :: h2 :: rest2, hraw', hlow', hlc, hacc, hm, hl, _, _ =>
            have hraw2 := (no_raw_special_cons _ _ (no_raw_special_cons _ _ hraw').2).2
            have hlow2 := (lower_hex_escapes_cons _ _ (lower_hex_escapes_cons _ _ hlow').2).2
            have hu := hlc rfl
            rw [at_cons_zero, at_cons_succ, at_cons_zero] at hu
            rw [decode_loop_pct _ _ _ _ _ _ _ hm hl] at hacc ⊢
            split at hacc
            · exact absurd rfl hacc
            · rename_i hok
              rw [if_neg hok]
              have hok' := (accepted_iff _ _ _ _).1 hok
              have hcc : must_encode (strtoul16 [h1, h2] % 256) = true ∨
                  strtoul16 [h1, h2] % 256 = 46 := by
                rcases hok' with h | h
                · exact Or.inl h
                · exact Or.inr h.1
              obtain ⟨e1, e2⟩ := accepted_lower_hex h1 h2 hcc hu.1 hu.2
              by_cases hmust : must_encode (strtoul16 [h1, h2] % 256) = true
              · obtain ⟨x, b, hd, hr⟩ := decode_loop_canonical (37 :: h1 :: h2 :: rest2)
                  (37 :: h1 :: h2 :: rest2).length rest2.length rest2 (le_refl _) 2 _
                  (by simp only [List.length_cons]; omega) hraw2 hlow2 hacc
                refine ⟨(strtoul16 [h1, h2] % 256) :: x, b, ?_, ?_⟩
                · rw [hd]; simp
                · have hne : strtoul16 [h1, h2] % 256 ≠ 46 := by
                    intro h; rw [h] at hmust; simp [must_encode, isdirsep] at hmust
                  have e : escape_body ((strtoul16 [h1, h2] % 256) :: x) ++ val_suffix b =
                      37 :: hex_digit (strtoul16 [h1, h2] % 256 / 16) ::
                        hex_digit (strtoul16 [h1, h2] % 256 % 16) ::
                        (escape_body x ++ val_suffix b) := by
                    simp [escape_body, escape_char, hmust]
                  have hf : decoded_form ((strtoul16 [h1, h2] % 256) :: x) b =
                      escape_body ((strtoul16 [h1, h2] % 256) :: x) ++ val_suffix b := by
                    simp [decoded_form, hne]
                  rw [hf, e, ← hr, ← e1, ← e2]
              · rcases hok' with h | ⟨h46, _, h⟩
                · exact absurd h hmust
                · rw [h46] at e1 e2 ⊢
                  have e1' : h1 = 50 := by rw [e1]; decide
                  have e2' : h2 = 101 := by rw [e2]; decide
                  subst e1' e2'
                  rcases h with h | ⟨h3, h4⟩
                  · have : rest2 = [] :=
                      List.length_eq_zero.1 (by simp only [List.length_cons] at h; omega)
                    subst this
                    exact ⟨[46], false, by simp [decode_loop], by decide⟩
                  · have hl1 : rest2.length = 1 := by
                      simp only [List.length_cons] at h4; omega
                    match rest2, hl1, h3 with
                    | [d], _, h3 =>
                      simp [at_] at h3
                      subst h3
                      exact ⟨[46, 46], false, by simp [decode_loop], by decide⟩
    · rw [decode_loop_plain _ _ _ _ _ _ hc] at hacc ⊢
      obtain ⟨x, b, hd, hr⟩ := decode_loop_canonical (c :: rest) (c :: rest).length
        rest.length rest (le_refl _) 0 _ (by simp only [List.length_cons]; omega) hraw' hlow' hacc
      refine ⟨c :: x, b, ?_, ?_⟩
      · rw [hd]; simp
      · have hm : must_encode c = false := by
          cases h : must_encode c
          · rfl
          · rw [must_encode_iff] at h; omega
        have e : escape_body (c :: x) ++ val_suffix b = c :: (escape_body x ++ val_suffix b) := by
          simp [escape_body, escape_char, hm]
        have hf : decoded_form (c :: x) b = escape_body (c :: x) ++ val_suffix b := by
          unfold decoded_form
          rw [if_neg, if_neg]
          · rintro ⟨hb, hx⟩
            subst hb
            apply hd2
            rw [hr]
            simp at hx
            obtain ⟨h1, h2⟩ := hx
            subst h1 h2
            rfl
          · rintro ⟨hb, hx⟩
            subst hb
            apply hd1
            rw [hr]
            simp at hx
            obtain ⟨h1, h2⟩ := hx
            subst h1 h2
            rfl
        rw [hf, e, ← hr]

/-- C7, as amended: `decode_regname` is injective on its accepted canonical
inputs. If two POSIX names without unescaped `/`, `\` or `:`, neither of them
the literal `.` or `..`, with lowercase escapes, both decode successfully to
the same raw name with the same value-only hint, then they are equal. -/
theorem decode_injective_on_canonical (s1 s2 : List Nat) (hn1 : NulFree s1) (hn2 : NulFree s2)
    (hc1 : canonical s1 = true) (hc2 : canonical s2 = true)
    (hacc : (decode_regname s1).1 ≠ -1) (heq : decode_regname s1 = decode_regname s2) :
    s1 = s2 := by
  obtain ⟨x1, b1, hd1, hs1⟩ := decode_regname_canonical s1 hn1 hc1 hacc
  obtain ⟨x2, b2, hd2, hs2⟩ := decode_regname_canonical s2 hn2 hc2 (heq ▸ hacc)
  rw [hd1, hd2] at heq
  have hx : x1 = x2 := congrArg Prod.snd heq
  have hb : b1 = b2 := by
    have := congrArg Prod.fst heq
    cases b1 <;> cases b2 <;> simp at this <;> rfl
  rw [hs1, hs2, hx, hb]

/-- Witness of the amended C7. -/
theorem decode_injective_on_canonical_witness :
    NulFree (cstr "a%3ab%val") ∧ canonical (cstr "a%3ab%val") = true ∧
      (decode_regname (cstr "a%3ab%val")).1 ≠ -1 ∧ cstr "a%3ab%val" = cstr "a%3ab%val" :=
  ⟨by decide, by decide, by decide,
    decode_injective_on_canonical (cstr "a%3ab%val") (cstr "a%3ab%val") (by decide) (by decide)
      (by decide) (by decide) (by decide) rfl⟩

/-- C7 as stated fails: the decoder is not injective on the inputs it accepts.
The names `:` and `%3a` both decode to the raw name `:` with hint 0, as do
`.` and `%2e` to `.`, and `%2F` and `%2f` to `/`. -/
theorem decode_not_injective :
    decode_regname (cstr ":") = (0, cstr ":") ∧ decode_regname (cstr "%3a") = (0, cstr ":") ∧
      cstr ":" ≠ cstr "%3a" ∧
    decode_regname (cstr ".") = (0, cstr ".") ∧ decode_regname (cstr "%2e") = (0, cstr ".") ∧
    decode_regname (cstr "%2F") = (0, cstr "/") ∧ decode_regname (cstr "%2f") = (0, cstr "/") := by
  decide

/-! ## Arithmetic of the position -/

/-- The test of the flag bit, in arithmetic. -/
theorem and_values_mask (x : Nat) :
    x &&& REG_ENUM_VALUES_MASK = if x / 2 ^ 27 % 2 = 1 then 2 ^ 27 else 0 := by
  have h := Nat.and_two_pow x 27
  rw [Nat.testBit_to_div_mod] at h
  show x &&& 2 ^ 27 = _
  rw [h]
  split
  · rename_i h1; rw [decide_eq_true h1]; rfl
  · rename_i h1; rw [decide_eq_false h1]; rfl

/-- Setting the flag bit of a position below it. -/
theorem or_values_mask (x : Nat) (hx : x < 2 ^ 27) :
    x ||| REG_ENUM_VALUES_MASK = x + 2 ^ 27 := by
  have h := Nat.mul_add_lt_is_or hx 1
  show x ||| 2 ^ 27 = _
  rw [Nat.or_comm]
  simp only [Nat.mul_one] at h
  omega

/-- Clearing the flag bit. -/
theorem and_not_values_mask (x : Nat) :
    x &&& NOT_REG_ENUM_VALUES_MASK = 2 ^ 27 * ((x / 2 ^ 27) &&& 30) + x % 2 ^ 27 := by
  apply Nat.eq_of_testBit_eq
  intro j
  have hlt : x % 2 ^ 27 < 2 ^ 27 := Nat.mod_lt _ (by decide)
  have hx : x = 2 ^ 27 * (x / 2 ^ 27) + x % 2 ^ 27 := (Nat.div_add_mod x (2 ^ 27)).symm
  have hC : NOT_REG_ENUM_VALUES_MASK = 2 ^ 27 * 30 + (2 ^ 27 - 1) := by decide
  rw [Nat.testBit_and, hC, Nat.testBit_mul_pow_two_add _ hlt j,
    Nat.testBit_mul_pow_two_add 30 (by decide : 2 ^ 27 - 1 < 2 ^ 27) j]
  conv => lhs; arg 1; rw [hx, Nat.testBit_mul_pow_two_add _ hlt j]
  have hones : Nat.testBit (2 ^ 27 - 1) j = decide (j < 27) := Nat.testBit_two_pow_sub_one 27 j
  by_cases hj : j < 27
  · rw [if_pos hj, if_pos hj, if_pos hj, hones]
    simp [hj]
  · rw [if_neg hj, if_neg hj, if_neg hj, Nat.testBit_and]

/-- The exposed position, in arithmetic. -/
theorem and_position_mask (x : Nat) : x &&& REG_POSITION_MASK = x % 65536 := by
  show x &&& (2 ^ 16 - 1) = _
  rw [Nat.and_pow_two_sub_one_eq_mod]

/-- The value index held by a position of the values phase. -/
theorem value_index (low j : Nat) (hl : low < 65536) (hj : j ≤ 2047) :
    ((low + j * 65536 + 2 ^ 27) &&& NOT_REG_ENUM_VALUES_MASK) >>> 16 = j := by
  rw [and_not_values_mask, Nat.shiftRight_eq_div_pow]
  have h1 : (low + j * 65536 + 2 ^ 27) / 2 ^ 27 = 1 := by omega
  have h2 : (low + j * 65536 + 2 ^ 27) % 2 ^ 27 = low + j * 65536 := by omega
  rw [h1, h2]
  have : (1 &&& 30 : Nat) = 0 := by decide
  rw [this]
  omega

/-! ## The seen-name table -/

/-- A bit of the table is set when the byte of the hash has the bit of the
hash. -/
theorem is_set_iff (t : __DIR_hash) (h : Nat) :
    t.is_set h = (t.table ((h >>> 3) &&& (HASH_SIZE - 1))).testBit (h &&& 0x3) := by
  unfold __DIR_hash.is_set
  rw [Nat.one_shiftLeft, Nat.and_two_pow]
  cases (t.table ((h >>> 3) &&& (HASH_SIZE - 1))).testBit (h &&& 0x3)
  · simp
  · simp

/-- After `set (h)` the bit of `h` is set. -/
theorem is_set_set_self (t : __DIR_hash) (h : Nat) : (t.set h).is_set h = true := by
  rw [is_set_iff]
  simp [__DIR_hash.set, Nat.one_shiftLeft, Nat.testBit_two_pow_self]

/-- `set` clears no bit. -/
theorem is_set_set_of_is_set (t : __DIR_hash) (h g : Nat) (hg : t.is_set g = true) :
    (t.set h).is_set g = true := by
  rw [is_set_iff] at hg ⊢
  simp only [__DIR_hash.set]
  split
  · rename_i he
    rw [Nat.testBit_or, hg]
    rfl
  · exact hg

theorem hash_after_preserves (env : Env) (names : List (List Nat)) :
    ∀ (t : __DIR_hash) (g : Nat), t.is_set g = true → (hash_after env t names).is_set g = true := by
  induction names with
  | nil => intro t g hg; exact hg
  | cons k names ih =>
    intro t g hg
    exact ih _ g (is_set_set_of_is_set t _ g hg)

/-- No false negative: the hash of every name that has been set is found. -/
theorem hash_after_is_set (env : Env) (names : List (List Nat)) :
    ∀ (t : __DIR_hash) (k : List Nat), k ∈ names →
      (hash_after env t names).is_set (env.hash_path_name 1 k) = true := by
  induction names with
  | nil => intro t k hk; simp at hk
  | cons k0 names ih =>
    intro t k hk
    rcases List.mem_cons.1 hk with h | h
    · subst h
      exact hash_after_preserves env names _ _ (is_set_set_self t _)
    · exact ih _ k h

/-! ## Single calls of readdir -/

theorem mask_clear (x : Nat) (hx : x < 2 ^ 27) : x &&& REG_ENUM_VALUES_MASK = 0 := by
  rw [and_values_mask, if_neg]
  have : x / 2 ^ 27 = 0 := by omega
  rw [this]
  decide

theorem mask_set (n j : Nat) (hn : 2 + n + j < 65536) (hj : j ≤ 2047) :
    values_position n j &&& REG_ENUM_VALUES_MASK = 2 ^ 27 := by
  rw [and_values_mask, if_pos]
  unfold values_position
  have : (2 + n + j + j * 65536 + 2 ^ 27) / 2 ^ 27 = 1 := by omega
  rw [this]

theorem close_note_open (h : HKEY) (w : World) : RegCloseKey h (note_open h w) = w := by
  simp [RegCloseKey, note_open]

/-- The existence probe leaves the process state as it was. -/
theorem key_exists_world (env : Env) (parent : HKEY) (name : List Nat) (wow64 : Nat)
    (w : World) : (key_exists env parent name wow64 w).2 = w := by
  unfold key_exists
  simp only
  split
  · exact close_note_open _ _
  · rfl

/-- The existence probe on a viewed key tells whether the name is one of a
sub-key. -/
theorem key_exists_view {env : Env} {wow64 : Nat} {h : HKEY} {ks : List (List Nat)}
    (kv : KeysView env wow64 h ks) (name : List Nat) (w : World) :
    (key_exists env h name wow64 w).1 = decide (name ∈ ks) := by
  have hp := kv.probe name
  unfold key_exists
  simp only
  by_cases hm : name ∈ ks
  · rw [decide_eq_true hm]
    rcases hp.2 hm with h1 | h1 <;> simp [h1]
  · rw [decide_eq_false hm]
    have h1 : ¬ ((env.RegOpenKeyEx h name (KEY_READ ||| wow64)).1 = ERROR_SUCCESS) :=
      fun h1 => hm (hp.1 (Or.inl h1))
    have h2 : ¬ ((env.RegOpenKeyEx h name (KEY_READ ||| wow64)).1 = ERROR_ACCESS_DENIED) :=
      fun h2 => hm (hp.1 (Or.inr h2))
    simp [h1, h2]

/-- A call in the sub-keys phase: the sub-key of the next index is listed as a
directory and its hash is recorded. -/
theorem readdir_retry_key (env : Env) (wow64 fuel : Nat) (h : HKEY) (H : __DIR_hash) (F : Nat)
    (de : dirent) (w : World) (i : Nat) (k : List Nat) (hi : 2 + i + 1 < 2 ^ 27)
    (hk : env.RegEnumKeyEx h i = (ERROR_SUCCESS, k)) (hne : at_ k 0 ≠ 0)
    (henc : (encode_regname env.NAME_MAX k false).1 = 0) :
    readdir_retry env wow64 (fuel + 1)
      { __d_position := 2 + i, __handle := h, __d_internal := H, __flags := F } de w =
    some { res := 0,
           dir := { __d_position := 2 + i + 1, __handle := h,
                    __d_internal := H.set (env.hash_path_name 1 k), __flags := F },
           de := { d_name := (encode_regname env.NAME_MAX k false).2, d_type := DT_DIR },
           w := w } := by
  have m1 : (2 + i) &&& REG_ENUM_VALUES_MASK = 0 := mask_clear _ (by omega)
  have m2 : (2 + i + 1) &&& REG_ENUM_VALUES_MASK = 0 := mask_clear _ (by omega)
  have e1 : 2 + i - SPECIAL_DOT_FILE_COUNT = i := by
    show 2 + i - 2 = i
    omega
  unfold readdir_retry
  simp only [m1, m2, e1, hk, ne_eq, not_true_eq_false, if_false, if_true, hne, henc,
    ERROR_SUCCESS, ERROR_NO_MORE_ITEMS, ERROR_MORE_DATA, false_and, and_false,
    OfNat.ofNat_ne_zero, OfNat.zero_ne_ofNat]

/-- The call that finds no more sub-keys sets the flag bit and starts again
on the values. -/
theorem readdir_retry_switch (env : Env) (wow64 fuel : Nat) (h : HKEY) (H : __DIR_hash)
    (F : Nat) (de : dirent) (w : World) (n : Nat) (hn : 2 + n < 65536)
    (hk : (env.RegEnumKeyEx h n).1 = ERROR_NO_MORE_ITEMS) :
    readdir_retry env wow64 (fuel + 1)
      { __d_position := 2 + n, __handle := h, __d_internal := H, __flags := F } de w =
    readdir_retry env wow64 fuel
      { __d_position := values_position n 0, __handle := h, __d_internal := H, __flags := F }
      de w := by
  have m1 : (2 + n) &&& REG_ENUM_VALUES_MASK = 0 := mask_clear _ (by omega)
  have e1 : 2 + n - SPECIAL_DOT_FILE_COUNT = n := by
    show 2 + n - 2 = n
    omega
  have e2 : (2 + n) ||| REG_ENUM_VALUES_MASK = values_position n 0 := by
    rw [or_values_mask _ (by omega)]
    simp [values_position]
  conv => lhs; unfold readdir_retry
  simp only [m1, e1, e2, hk, ne_eq, not_true_eq_false, if_false, if_true, and_self]

/-- A call in the values phase: the value of the next index is listed as a
regular file, under `@` when it is unnamed, else under its encoded name, with
the marker exactly when a sub-key has its name. -/
theorem readdir_retry_value (env : Env) (wow64 fuel : Nat) (h : HKEY) (H : __DIR_hash)
    (F : Nat) (de : dirent) (w : World) (ks : List (List Nat))
    (kv : KeysView env wow64 h ks) (hH : ∀ k ∈ ks, H.is_set (env.hash_path_name 1 k) = true)
    (n j : Nat) (v : List Nat) (hn : 2 + n + j + 1 < 65536) (hj : j + 1 ≤ 2047)
    (hv : env.RegEnumValue h j = (ERROR_SUCCESS, v))
    (henc : at_ v 0 ≠ 0 → (encode_regname env.NAME_MAX v (decide (v ∈ ks))).1 = 0) :
    readdir_retry env wow64 (fuel + 1)
      { __d_position := values_position n j, __handle := h, __d_internal := H, __flags := F }
      de w =
    some { res := 0,
           dir := { __d_position := values_position n (j + 1), __handle := h,
                    __d_internal := H, __flags := F },
           de := { d_name := value_name env ks v, d_type := DT_REG },
           w := w } := by
  have m1 : values_position n j &&& REG_ENUM_VALUES_MASK = 2 ^ 27 :=
    mask_set n j (by omega) (by omega)
  have m2 : (values_position n j + 1) &&& REG_ENUM_VALUES_MASK = 2 ^ 27 := by
    have := mask_set (n + 1) j (by omega) (by omega)
    have e : values_position (n + 1) j = values_position n j + 1 := by
      unfold values_position; omega
    rw [e] at this
    exact this
  have e3 : values_position n j + 1 + 65536 = values_position n (j + 1) := by
    unfold values_position; omega
  have m3 : values_position n (j + 1) &&& REG_ENUM_VALUES_MASK = 2 ^ 27 :=
    mask_set n (j + 1) (by omega) hj
  have e1 : (values_position n j &&& NOT_REG_ENUM_VALUES_MASK) >>> 16 = j := by
    have := value_index (2 + n + j) j (by omega) (by omega)
    unfold values_position
    exact this
  unfold readdir_retry
  simp only [m1, m2, e1, e3, m3, hv, ne_eq, if_true, if_false, ERROR_SUCCESS,
    ERROR_NO_MORE_ITEMS, ERROR_MORE_DATA, false_and, and_false, not_true_eq_false,
    OfNat.ofNat_ne_zero, OfNat.zero_ne_ofNat, not_false_eq_true, Nat.reducePow,
    value_name]
  by_cases h0 : at_ v 0 = 0
  · simp only [h0, if_true]
  · simp only [h0, if_false]
    have hadd : (if H.is_set (env.hash_path_name 1 v) = true then
          ((key_exists env h v wow64 w).1, H, (key_exists env h v wow64 w).2)
        else (false, H, w)) = (decide (v ∈ ks), H, w) := by
      split
      · rw [key_exists_world, key_exists_view kv]
      · rename_i hs
        by_cases hm : v ∈ ks
        · exact absurd (hH v hm) hs
        · rw [decide_eq_false hm]
    simp only [hadd, henc h0, not_true_eq_false, if_false]

/-- The call that finds no more values closes the key and reports the end of
the directory. -/
theorem readdir_retry_end (env : Env) (wow64 fuel : Nat) (h : HKEY) (H : __DIR_hash)
    (F : Nat) (de : dirent) (w : World) (n m : Nat) (hn : 2 + n + m < 65536) (hm : m ≤ 2047)
    (hv : (env.RegEnumValue h m).1 = ERROR_NO_MORE_ITEMS) :
    readdir_retry env wow64 (fuel + 1)
      { __d_position := values_position n m, __handle := h, __d_internal := H, __flags := F }
      de w =
    some { res := ENMFILE,
           dir := { __d_position := values_position n m, __handle := INVALID_HANDLE_VALUE,
                    __d_internal := H, __flags := F },
           de := de, w := RegCloseKey h w } := by
  have m1 : values_position n m &&& REG_ENUM_VALUES_MASK = 2 ^ 27 := mask_set n m hn hm
  have e1 : (values_position n m &&& NOT_REG_ENUM_VALUES_MASK) >>> 16 = m := by
    have := value_index (2 + n + m) m (by omega) (by omega)
    unfold values_position
    exact this
  unfold readdir_retry
  simp only [m1, e1, hv, ne_eq, if_true, if_false, ERROR_SUCCESS,
    ERROR_NO_MORE_ITEMS, ERROR_MORE_DATA, false_and, and_false, not_true_eq_false,
    OfNat.ofNat_ne_zero, OfNat.zero_ne_ofNat, not_false_eq_true, Nat.reducePow, true_and,
    and_self, and_true, Nat.reduceEqDiff]

/-! ## Calls of readdir on an open key -/

theorem saw_dots : dirent_saw_dot ||| dirent_saw_dot_dot = 3 := by decide

theorem or_three_idem (F : Nat) : (F ||| 3) ||| 3 = F ||| 3 := by
  rw [Nat.or_assoc, Nat.or_self]

/-- The first call on a freshly opened or rewound directory opens the key and
lists the dot entry. -/
theorem readdir_first (env : Env) (wow64 fuel : Nat) (path : List Nat) (H0 : __DIR_hash)
    (f0 : Nat) (de : dirent) (w0 w1 : World) (h : HKEY) (hp : at_ path 0 ≠ 0)
    (ho : open_key env (path.drop 1) KEY_READ wow64 false w0 = (h, w1))
    (hh : h ≠ INVALID_HANDLE_VALUE) :
    readdir env wow64 fuel path
      { __d_position := 0, __handle := INVALID_HANDLE_VALUE, __d_internal := H0, __flags := f0 }
      de w0 =
    some { res := 0,
           dir := { __d_position := 1, __handle := h, __d_internal := __DIR_hash.new,
                    __flags := f0 ||| 3 },
           de := { de with d_name := cstr "." }, w := w1 } := by
  unfold readdir
  simp only [hp, if_false, ho, hh, if_true, ne_eq, not_true_eq_false, saw_dots]
  rfl

/-- The second call lists the dot-dot entry. -/
theorem readdir_second (env : Env) (wow64 fuel : Nat) (path : List Nat) (H : __DIR_hash)
    (F : Nat) (de : dirent) (w : World) (h : HKEY) (hp : at_ path 0 ≠ 0)
    (hh : h ≠ INVALID_HANDLE_VALUE) :
    readdir env wow64 fuel path
      { __d_position := 1, __handle := h, __d_internal := H, __flags := F ||| 3 } de w =
    some { res := 0,
           dir := { __d_position := 2, __handle := h, __d_internal := H, __flags := F ||| 3 },
           de := { de with d_name := cstr ".." }, w := w } := by
  unfold readdir
  simp only [hp, if_false, hh, saw_dots, or_three_idem]
  rfl

/-- From the third call on, a call on an open key is the part after the label
`retry`. -/
theorem readdir_open (env : Env) (wow64 fuel : Nat) (path : List Nat) (H : __DIR_hash)
    (F : Nat) (de : dirent) (w : World) (h : HKEY) (p : Nat) (hp : at_ path 0 ≠ 0)
    (hh : h ≠ INVALID_HANDLE_VALUE) (h2 : 2 ≤ p) :
    readdir env wow64 fuel path
      { __d_position := p, __handle := h, __d_internal := H, __flags := F ||| 3 } de w =
    readdir_retry env wow64 fuel
      { __d_position := p, __handle := h, __d_internal := H, __flags := F ||| 3 } de w := by
  have hlt : ¬ (p < SPECIAL_DOT_FILE_COUNT) := by
    show ¬ (p < 2)
    omega
  unfold readdir
  simp only [hp, if_false, hh, saw_dots, or_three_idem, hlt]
  rfl

/-- Once the key has been closed at the end of the listing, every call reports
the end of the directory and changes nothing. -/
theorem readdir_closed (env : Env) (wow64 fuel : Nat) (path : List Nat) (H : __DIR_hash)
    (F : Nat) (de : dirent) (w : World) (p : Nat) (hp : at_ path 0 ≠ 0) (h0 : p ≠ 0) :
    readdir env wow64 fuel path
      { __d_position := p, __handle := INVALID_HANDLE_VALUE, __d_internal := H,
        __flags := F ||| 3 } de w =
    some { res := ENMFILE,
           dir := { __d_position := p, __handle := INVALID_HANDLE_VALUE, __d_internal := H,
                    __flags := F ||| 3 },
           de := de, w := w } := by
  unfold readdir
  simp only [hp, if_false, if_true, saw_dots, or_three_idem, ne_eq, h0, not_false_eq_true]

/-- A call of the sub-keys phase. -/
theorem readdir_key_call (env : Env) (wow64 fuel : Nat) (path : List Nat) (h : HKEY)
    (H : __DIR_hash) (F : Nat) (de : dirent) (w : World) (i : Nat) (k : List Nat)
    (hp : at_ path 0 ≠ 0) (hh : h ≠ INVALID_HANDLE_VALUE) (hf : 1 ≤ fuel)
    (hi : 2 + i + 1 < 2 ^ 27)
    (hk : env.RegEnumKeyEx h i = (ERROR_SUCCESS, k)) (hne : at_ k 0 ≠ 0)
    (henc : (encode_regname env.NAME_MAX k false).1 = 0) :
    readdir env wow64 fuel path
      { __d_position := 2 + i, __handle := h, __d_internal := H, __flags := F ||| 3 } de w =
    some { res := 0,
           dir := { __d_position := 2 + i + 1, __handle := h,
                    __d_internal := H.set (env.hash_path_name 1 k), __flags := F ||| 3 },
           de := { d_name := (encode_regname env.NAME_MAX k false).2, d_type := DT_DIR },
           w := w } := by
  obtain ⟨f, rfl⟩ : ∃ f, fuel = f + 1 := ⟨fuel - 1, by omega⟩
  rw [readdir_open env wow64 _ path H F de w h _ hp hh (by omega)]
  exact readdir_retry_key env wow64 f h H _ de w i k hi hk hne henc

/-- A call of the values phase that lists a value. -/
theorem readdir_value_call (env : Env) (wow64 fuel : Nat) (path : List Nat) (h : HKEY)
    (H : __DIR_hash) (F : Nat) (de : dirent) (w : World) (ks : List (List Nat))
    (kv : KeysView env wow64 h ks) (hH : ∀ k ∈ ks, H.is_set (env.hash_path_name 1 k) = true)
    (j p : Nat) (v : List Nat) (hp : at_ path 0 ≠ 0) (hh : h ≠ INVALID_HANDLE_VALUE)
    (hf : 2 ≤ fuel) (hs : ValuesStart ks.length j p)
    (hn : 2 + ks.length + j + 1 < 65536) (hj : j + 1 ≤ 2047)
    (hv : env.RegEnumValue h j = (ERROR_SUCCESS, v))
    (henc : at_ v 0 ≠ 0 → (encode_regname env.NAME_MAX v (decide (v ∈ ks))).1 = 0) :
    readdir env wow64 fuel path
      { __d_position := p, __handle := h, __d_internal := H, __flags := F ||| 3 } de w =
    some { res := 0,
           dir := { __d_position := values_position ks.length (j + 1), __handle := h,
                    __d_internal := H, __flags := F ||| 3 },
           de := { d_name := value_name env ks v, d_type := DT_REG },
           w := w } := by
  obtain ⟨f, rfl⟩ : ∃ f, fuel = f + 2 := ⟨fuel - 2, by omega⟩
  rcases hs with hs | ⟨hj0, hs⟩
  · subst hs
    rw [readdir_open env wow64 _ path H F de w h _ hp hh (by unfold values_position; omega)]
    exact readdir_retry_value env wow64 (f + 1) h H _ de w ks kv hH _ j v hn hj hv henc
  · subst hs hj0
    rw [readdir_open env wow64 _ path H F de w h _ hp hh (by omega),
      readdir_retry_switch env wow64 (f + 1) h H _ de w _ (by omega)
        (kv.key_none _ (le_refl _))]
    exact readdir_retry_value env wow64 f h H _ de w ks kv hH _ 0 v hn hj hv henc

/-- The call of the values phase that finds no more values. -/
theorem readdir_end_call (env : Env) (wow64 fuel : Nat) (path : List Nat) (h : HKEY)
    (H : __DIR_hash) (F : Nat) (de : dirent) (w : World) (ks vs : List (List Nat))
    (kv : KeysView env wow64 h ks)
    (hvn : (env.RegEnumValue h vs.length).1 = ERROR_NO_MORE_ITEMS) (p : Nat)
    (hp : at_ path 0 ≠ 0)
    (hh : h ≠ INVALID_HANDLE_VALUE) (hf : 2 ≤ fuel) (hs : ValuesStart ks.length vs.length p)
    (hn : 2 + ks.length + vs.length < 65536) (hm : vs.length ≤ 2047) :
    readdir env wow64 fuel path
      { __d_position := p, __handle := h, __d_internal := H, __flags := F ||| 3 } de w =
    some { res := ENMFILE,
           dir := { __d_position := values_position ks.length vs.length,
                    __handle := INVALID_HANDLE_VALUE, __d_internal := H, __flags := F ||| 3 },
           de := de, w := RegCloseKey h w } := by
  obtain ⟨f, rfl⟩ : ∃ f, fuel = f + 2 := ⟨fuel - 2, by omega⟩
  rcases hs with hs | ⟨hj0, hs⟩
  · subst hs
    rw [readdir_open env wow64 _ path H F de w h _ hp hh (by unfold values_position; omega)]
    exact readdir_retry_end env wow64 (f + 1) h H _ de w _ _ hn hm hvn
  · subst hs
    rw [readdir_open env wow64 _ path H F de w h _ hp hh (by omega),
      readdir_retry_switch env wow64 (f + 1) h H _ de w _ (by omega)
        (kv.key_none _ (le_refl _))]
    have := readdir_retry_end env wow64 f h H (F ||| 3) de w ks.length vs.length hn hm hvn
    rw [hj0] at this ⊢
    exact this

/-! ## Runs of successive calls -/

/-- A run of calls after a call with a known result. -/
theorem readdir_n_step (env : Env) (wow64 fuel : Nat) (path : List Nat) (k : Nat) (dir : DIR)
    (de : dirent) (w : World) (r : ReaddirResult)
    (h : readdir env wow64 fuel path dir de w = some r) :
    readdir_n env wow64 fuel path (k + 1) dir de w =
      (readdir_n env wow64 fuel path k r.dir r.de r.w).map (fun rs => r :: rs) := by
  rw [readdir_n, h]
  simp only
  cases readdir_n env wow64 fuel path k r.dir r.de r.w <;> rfl

theorem drop_eq_cons_get {α : Type} (l : List α) (i : Nat) (a : α) (rest : List α)
    (h : l.drop i = a :: rest) : l.get? i = some a ∧ l.drop (i + 1) = rest := by
  constructor
  · have := List.head?_drop l i
    rw [h] at this
    simpa using this.symm
  · have := List.drop_drop 1 i l
    rw [Nat.add_comm] at this
    rw [← List.drop_drop, h]
    rfl

theorem drop_length_le {α : Type} (l : List α) (i : Nat) (rest : List α)
    (h : l.drop i = rest) : i + rest.length = l.length ∨ (rest = [] ∧ l.length ≤ i) := by
  subst h
  by_cases hi : i ≤ l.length
  · left; simp; omega
  · right
    constructor
    · exact List.drop_eq_nil_of_le (by omega)
    · omega

/-- The sub-keys phase: from the position of sub-key `i`, the next calls list
the remaining sub-keys in order, as directories, and leave the directory at
the position after the last sub-key with every hash recorded. -/
theorem readdir_n_keys (env : Env) (wow64 fuel : Nat) (path : List Nat) (h : HKEY) (F : Nat)
    (ks : List (List Nat)) (kv : KeysView env wow64 h ks)
    (hnames : ∀ k ∈ ks, at_ k 0 ≠ 0 ∧ (encode_regname env.NAME_MAX k false).1 = 0)
    (hp : at_ path 0 ≠ 0) (hh : h ≠ INVALID_HANDLE_VALUE) (hf : 1 ≤ fuel)
    (hn : 2 + ks.length < 65536) :
    ∀ (rest : List (List Nat)) (i : Nat), ks.drop i = rest → i ≤ ks.length →
    ∀ (H : __DIR_hash) (de : dirent) (w : World),
    ∃ (L : List ReaddirResult) (de1 : dirent),
      L.map ReaddirResult.seen = rest.map (key_entry env) ∧
      ∀ k, readdir_n env wow64 fuel path (rest.length + k)
          { __d_position := 2 + i, __handle := h, __d_internal := H, __flags := F ||| 3 } de w =
        (readdir_n env wow64 fuel path k
          { __d_position := 2 + ks.length, __handle := h,
            __d_internal := hash_after env H rest, __flags := F ||| 3 } de1 w).map
          (fun rs => L ++ rs) := by
  intro rest
  induction rest with
  | nil =>
    intro i hd hi H de w
    have hlen : i = ks.length := by
      rcases drop_length_le ks i [] hd with h1 | ⟨_, h1⟩
      · simpa using h1
      · omega
    subst hlen
    refine ⟨[], de, rfl, fun k => ?_⟩
    simp only [List.length_nil, Nat.zero_add, hash_after, List.foldl_nil, List.nil_append]
    cases readdir_n env wow64 fuel path k _ de w <;> rfl
  | cons a rest ih =>
    intro i hd hi H de w
    obtain ⟨hget, hd'⟩ := drop_eq_cons_get ks i a rest hd
    have hlen : i + (rest.length + 1) = ks.length := by
      rcases drop_length_le ks i (a :: rest) hd with h1 | ⟨h1, _⟩
      · simpa using h1
      · simp at h1
    have hmem : a ∈ ks := List.get?_mem hget
    have hcall := readdir_key_call env wow64 fuel path h H F de w i a hp hh hf
      (by omega) (kv.key_some i a hget) (hnames a hmem).1 (hnames a hmem).2
    obtain ⟨L, de1, hL, hrun⟩ := ih (i + 1) hd' (by omega)
      (H.set (env.hash_path_name 1 a))
      { d_name := (encode_regname env.NAME_MAX a false).2, d_type := DT_DIR } w
    refine ⟨{ res := 0,
              dir := { __d_position := 2 + i + 1, __handle := h,
                       __d_internal := H.set (env.hash_path_name 1 a), __flags := F ||| 3 },
              de := { d_name := (encode_regname env.NAME_MAX a false).2, d_type := DT_DIR },
              w := w } :: L, de1, ?_, fun k => ?_⟩
    · rw [List.map_cons, List.map_cons, hL]
      rfl
    · have e1 : (a :: rest).length + k = (rest.length + k) + 1 := by simp; omega
      have e2 : 2 + i + 1 = 2 + (i + 1) := by omega
      rw [e1, readdir_n_step _ _ _ _ _ _ _ _ _ hcall]
      simp only [e2, hrun k, Option.map_map]
      rfl

/-- The values phase: from a position that starts at value `j`, the next calls
list the remaining values in order, as regular files. -/
theorem readdir_n_values (env : Env) (wow64 fuel : Nat) (path : List Nat) (h : HKEY) (F : Nat)
    (ks vs : List (List Nat)) (kv : KeysView env wow64 h ks)
    (hvs : ∀ j v, vs.get? j = some v → env.RegEnumValue h j = (ERROR_SUCCESS, v))
    (hnames : ∀ v ∈ vs, at_ v 0 ≠ 0 →
      (encode_regname env.NAME_MAX v (decide (v ∈ ks))).1 = 0)
    (H : __DIR_hash) (hH : ∀ k ∈ ks, H.is_set (env.hash_path_name 1 k) = true)
    (hp : at_ path 0 ≠ 0) (hh : h ≠ INVALID_HANDLE_VALUE) (hf : 2 ≤ fuel)
    (hn : 2 + ks.length + vs.length < 65536) (hm : vs.length ≤ 2047) :
    ∀ (rest : List (List Nat)) (j : Nat), vs.drop j = rest → j ≤ vs.length →
    ∀ (p : Nat) (de : dirent) (w : World), ValuesStart ks.length j p →
    ∃ (L : List ReaddirResult) (de1 : dirent) (p1 : Nat),
      L.map ReaddirResult.seen = rest.map (value_entry env ks) ∧
      ValuesStart ks.length vs.length p1 ∧
      ∀ k, readdir_n env wow64 fuel path (rest.length + k)
          { __d_position := p, __handle := h, __d_internal := H, __flags := F ||| 3 } de w =
        (readdir_n env wow64 fuel path k
          { __d_position := p1, __handle := h, __d_internal := H, __flags := F ||| 3 }
          de1 w).map (fun rs => L ++ rs) := by
  intro rest
  induction rest with
  | nil =>
    intro j hd hj p de w hs
    have hlen : j = vs.length := by
      rcases drop_length_le vs j [] hd with h1 | ⟨_, h1⟩
      · simpa using h1
      · omega
    subst hlen
    refine ⟨[], de, p, rfl, hs, fun k => ?_⟩
    simp only [List.length_nil, Nat.zero_add, List.nil_append]
    cases readdir_n env wow64 fuel path k _ de w <;> rfl
  | cons a rest ih =>
    intro j hd hj p de w hs
    obtain ⟨hget, hd'⟩ := drop_eq_cons_get vs j a rest hd
    have hlen : j + (rest.length + 1) = vs.length := by
      rcases drop_length_le vs j (a :: rest) hd with h1 | ⟨h1, _⟩
      · simpa using h1
      · simp at h1
    have hmem : a ∈ vs := List.get?_mem hget
    have hcall := readdir_value_call env wow64 fuel path h H F de w ks kv hH j p a hp hh hf hs
      (by omega) (by omega) (hvs j a hget) (hnames a hmem)
    obtain ⟨L, de1, p1, hL, hs1, hrun⟩ := ih (j + 1) hd' (by omega)
      (values_position ks.length (j + 1))
      { d_name := value_name env ks a, d_type := DT_REG } w (Or.inl rfl)
    refine ⟨{ res := 0,
              dir := { __d_position := values_position ks.length (j + 1), __handle := h,
                       __d_internal := H, __flags := F ||| 3 },
              de := { d_name := value_name env ks a, d_type := DT_REG },
              w := w } :: L, de1, p1, ?_, hs1, fun k => ?_⟩
    · rw [List.map_cons, List.map_cons, hL]
      rfl
    · have e1 : (a :: rest).length + k = (rest.length + k) + 1 := by simp; omega
      rw [e1, readdir_n_step _ _ _ _ _ _ _ _ _ hcall]
      simp only [hrun k, Option.map_map]
      rfl

/-- After the end of the listing, every further call reports the end of the
directory. -/
theorem readdir_n_closed (env : Env) (wow64 fuel : Nat) (path : List Nat) (H : __DIR_hash)
    (F : Nat) (p : Nat) (hp : at_ path 0 ≠ 0) (h0 : p ≠ 0) :
    ∀ (k : Nat) (de : dirent) (w : World),
    ∃ R : List ReaddirResult, R.length = k ∧ (∀ r ∈ R, r.res = ENMFILE) ∧
      readdir_n env wow64 fuel path k
        { __d_position := p, __handle := INVALID_HANDLE_VALUE, __d_internal := H,
          __flags := F ||| 3 } de w = some R := by
  intro k
  induction k with
  | zero => intro de w; exact ⟨[], rfl, by simp, rfl⟩
  | succ k ih =>
    intro de w
    obtain ⟨R, hl, hr, hrun⟩ := ih de w
    have hcall := readdir_closed env wow64 fuel path H F de w p hp h0
    refine ⟨{ res := ENMFILE,
              dir := { __d_position := p, __handle := INVALID_HANDLE_VALUE, __d_internal := H,
                       __flags := F ||| 3 },
              de := de, w := w } :: R, by simp [hl], ?_, ?_⟩
    · intro r hr'
      rcases List.mem_cons.1 hr' with h1 | h1
      · rw [h1]
      · exact hr r h1
    · rw [readdir_n_step _ _ _ _ _ _ _ _ _ hcall]
      simp only [hrun, Option.map_some']

/-- The listing of a directory. On a freshly opened directory of a key with
the sub-keys `ks` and the values `vs`, the first `2 + n + m` calls of `readdir`
succeed and list `.`, `..`, the sub-keys and the values; every later call
reports the end of the directory. -/
theorem readdir_listing (env : Env) (wow64 fuel : Nat) (path : List Nat) (h : HKEY)
    (ks vs : List (List Nat)) (de0 : dirent) (w0 w1 : World)
    (kv : KeyView env wow64 h ks vs) (hnames : NamesEncode env ks vs)
    (hp : at_ path 0 ≠ 0)
    (ho : open_key env (path.drop 1) KEY_READ wow64 false w0 = (h, w1))
    (hh : h ≠ INVALID_HANDLE_VALUE) (hf : 2 ≤ fuel)
    (hn : 2 + ks.length + vs.length < 65536) (hm : vs.length ≤ 2047) (k : Nat) :
    ∃ (L R : List ReaddirResult),
      readdir_n env wow64 fuel path (2 + ks.length + vs.length + (k + 1)) opendir de0 w0 =
        some (L ++ R) ∧
      L.map ReaddirResult.seen =
        [(0, cstr ".", de0.d_type), (0, cstr "..", de0.d_type)] ++ ks.map (key_entry env) ++
          vs.map (value_entry env ks) ∧
      R.length = k + 1 ∧ ∀ r ∈ R, r.res = ENMFILE := by
  have c1 := readdir_first env wow64 fuel path __DIR_hash.new 0 de0 w0 w1 h hp ho hh
  have c2 := readdir_second env wow64 fuel path __DIR_hash.new 0
    { de0 with d_name := cstr "." } w1 h hp hh
  obtain ⟨L1, de1, hL1, run1⟩ := readdir_n_keys env wow64 fuel path h 0 ks kv.toKeysView
    hnames.1 hp hh
    (by omega) (by omega) ks 0 rfl (Nat.zero_le _) __DIR_hash.new
    { de0 with d_name := cstr ".." } w1
  obtain ⟨L2, de2, p2, hL2, hs2, run2⟩ := readdir_n_values env wow64 fuel path h 0 ks vs
    kv.toKeysView kv.value_some hnames.2
    (hash_after env __DIR_hash.new ks) (fun k hk => hash_after_is_set env ks _ k hk)
    hp hh hf hn hm vs 0 rfl (Nat.zero_le _) (2 + ks.length) de1 w1 (Or.inr ⟨rfl, rfl⟩)
  have c3 := readdir_end_call env wow64 fuel path h (hash_after env __DIR_hash.new ks) 0 de2 w1
    ks vs kv.toKeysView (kv.value_none _ (le_refl _)) p2 hp hh hf hs2 hn hm
  obtain ⟨R, hRl, hRr, run3⟩ := readdir_n_closed env wow64 fuel path
    (hash_after env __DIR_hash.new ks) 0 (values_position ks.length vs.length) hp
    (by unfold values_position; omega) k de2 (RegCloseKey h w1)
  let r1 : ReaddirResult :=
    { res := 0,
      dir := { __d_position := 1, __handle := h, __d_internal := __DIR_hash.new,
               __flags := 0 ||| 3 },
      de := { de0 with d_name := cstr "." }, w := w1 }
  let r2 : ReaddirResult :=
    { res := 0,
      dir := { __d_position := 2, __handle := h, __d_internal := __DIR_hash.new,
               __flags := 0 ||| 3 },
      de := { de0 with d_name := cstr ".." }, w := w1 }
  let r3 : ReaddirResult :=
    { res := ENMFILE,
      dir := { __d_position := values_position ks.length vs.length,
               __handle := INVALID_HANDLE_VALUE,
               __d_internal := hash_after env __DIR_hash.new ks, __flags := 0 ||| 3 },
      de := de2, w := RegCloseKey h w1 }
  refine ⟨r1 :: r2 :: (L1 ++ L2), r3 :: R, ?_, ?_, by simp [hRl], ?_⟩
  · have e : 2 + ks.length + vs.length + (k + 1) = (ks.length + (vs.length + (k + 1))) + 1 + 1 := by
      omega
    have c1' : readdir env wow64 fuel path opendir de0 w0 = some r1 := c1
    rw [e, readdir_n_step _ _ _ _ _ _ _ _ _ c1', readdir_n_step _ _ _ _ _ _ _ _ _ c2]
    have run1' := run1 (vs.length + (k + 1))
    simp only [Nat.add_zero] at run1'
    rw [run1', run2 (k + 1), readdir_n_step _ _ _ _ _ _ _ _ _ c3, run3]
    simp
    exact ⟨rfl, rfl⟩
  · simp only [List.map_cons, List.map_append, hL1, hL2]
    rfl
  · intro r hr
    rcases List.mem_cons.1 hr with h1 | h1
    · rw [h1]
    · exact hRr r h1

/-! ## The listing of a key -/

/-- The host of a store shows every key of the store with its sub-keys and
values. -/
theorem store_env_view (keys : List StoreKey) (wow64 : Nat) (k : StoreKey)
    (hk : store_find keys k.handle = some k) :
    KeyView (store_env keys) wow64 k.handle (k.subkeys.map Prod.fst) k.values := by
  refine { key_some := ?_, key_none := ?_, probe := ?_, value_some := ?_, value_none := ?_ }
  · intro i name hi
    simp only [store_env, hk, Option.map_some', store_enum, hi]
  · intro i hi
    have : (k.subkeys.map Prod.fst).get? i = none := List.get?_eq_none.2 hi
    simp only [store_env, hk, Option.map_some', store_enum, this]
  · intro name
    simp only [store_env, store_open, hk]
    cases hf : k.subkeys.find? fun p => p.1 == name with
    | none =>
      simp only [ERROR_FILE_NOT_FOUND, ERROR_SUCCESS, ERROR_ACCESS_DENIED]
      constructor
      · intro h; omega
      · intro hm
        exfalso
        obtain ⟨p, hp, hpn⟩ := List.mem_map.1 hm
        have := List.find?_eq_none.1 hf p hp
        simp [hpn] at this
    | some p =>
      simp only [ERROR_SUCCESS, true_or, true_iff]
      have h1 := List.find?_some hf
      have h2 := List.mem_of_find?_eq_some hf
      have h3 : p.1 = name := by simpa using h1
      exact List.mem_map.2 ⟨p, h2, h3⟩
  · intro j v hj
    simp only [store_env, hk, Option.map_some', store_enum, hj]
  · intro j hj
    have : k.values.get? j = none := List.get?_eq_none.2 hj
    simp only [store_env, hk, Option.map_some', store_enum, this]

/-- The listing of a key with at most 2047 values. For every non-root
directory that resolves to a key with sub-keys `ks` and values `vs` in host
enumeration order, where every name encodes successfully,
`2 + n + m < 65536` and the number `m` of values is at most 2047, successive
`readdir` calls on an unchanged store return exactly `.`, `..`, then the
encoded name of each sub-key in order with type `DT_DIR`, then each value in
order with type `DT_REG` (the unnamed default value under the name `@`, any
other value under its encoded name, which carries the marker when a sub-key
has the same name), and then end-of-directory on every later call. -/
theorem readdir_lists_key (env : Env) (wow64 fuel : Nat) (path : List Nat) (h : HKEY)
    (ks vs : List (List Nat)) (de0 : dirent) (w0 w1 : World)
    (kv : KeyView env wow64 h ks vs) (hnames : NamesEncode env ks vs)
    (hp : at_ path 0 ≠ 0)
    (ho : open_key env (path.drop 1) KEY_READ wow64 false w0 = (h, w1))
    (hh : h ≠ INVALID_HANDLE_VALUE) (hf : 2 ≤ fuel)
    (hn : 2 + ks.length + vs.length < 65536) (hm : vs.length ≤ 2047) (k : Nat) :
    ∃ (L R : List ReaddirResult),
      readdir_n env wow64 fuel path (2 + ks.length + vs.length + (k + 1)) opendir de0 w0 =
        some (L ++ R) ∧
      L.map ReaddirResult.seen =
        [(0, cstr ".", de0.d_type), (0, cstr "..", de0.d_type)] ++ ks.map (key_entry env) ++
          vs.map (value_entry env ks) ∧
      R.length = k + 1 ∧ ∀ r ∈ R, r.res = ENMFILE :=
  readdir_listing env wow64 fuel path h ks vs de0 w0 w1 kv hnames hp ho hh hf hn hm k

/-- The listing of the key `SOFTWARE` of the small store. -/
theorem readdir_lists_key_witness :
    NamesEncode demo_env [cstr "Cygwin"] [[], cstr "Cygwin", cstr "Version"] ∧
    open_key demo_env (cstr "HKEY_LOCAL_MACHINE/SOFTWARE") KEY_READ 0 false world0 =
      (100, { opened := [100], errno := 0 }) ∧
    ∃ (L R : List ReaddirResult),
      readdir_n demo_env 0 2 (cstr "/HKEY_LOCAL_MACHINE/SOFTWARE") (2 + 1 + 3 + (0 + 1))
          opendir dirent0 world0 = some (L ++ R) ∧
      L.map ReaddirResult.seen =
        [(0, cstr ".", 0), (0, cstr "..", 0), (0, cstr "Cygwin", DT_DIR), (0, cstr "@", DT_REG),
          (0, cstr "Cygwin%val", DT_REG), (0, cstr "Version", DT_REG)] ∧
      R.length = 0 + 1 ∧ ∀ r ∈ R, r.res = ENMFILE :=
  ⟨by decide, by decide,
    readdir_lists_key demo_env 0 2 (cstr "/HKEY_LOCAL_MACHINE/SOFTWARE") 100
      [cstr "Cygwin"] [[], cstr "Cygwin", cstr "Version"] dirent0 world0
      { opened := [100], errno := 0 }
      (store_env_view demo_keys 0 demo_software (by decide)) (by decide) (by decide)
      (by decide) (by decide) (by decide) (by decide) (by decide) 0⟩

/-! ## The value index past its eleven bits -/

/-- A name without NUL, without a character to encode and without a dot is
encoded as itself. -/
theorem encode_loop_plain (N : Nat) (src : List Nat) (rest : List Nat) :
    ∀ (si : Nat) (dst : List Nat), (∀ c ∈ rest, c ≠ 0 ∧ must_encode c = false ∧ c ≠ 46) →
      encode_loop N src rest si dst = some (dst ++ rest) := by
  induction rest with
  | nil => intro si dst _; simp [encode_loop]
  | cons c rest ih =>
    intro si dst h
    obtain ⟨h0, hm, hd⟩ := h c (List.mem_cons_self _ _)
    have hr : ∀ c ∈ rest, c ≠ 0 ∧ must_encode c = false ∧ c ≠ 46 :=
      fun d hd => h d (List.mem_cons_of_mem _ hd)
    simp [encode_loop, h0, hm, hd, ih _ _ hr]

theorem encode_wide_name (j : Nat) :
    encode_regname 255 (wide_name j) false = (0, wide_name j) := by
  have h : ∀ c ∈ wide_name j, c ≠ 0 ∧ must_encode c = false ∧ c ≠ 46 := by
    intro c hc
    simp only [wide_name, List.mem_cons, List.mem_singleton, List.not_mem_nil, or_false] at hc
    have hne : ¬ (c = 47 ∨ c = 92 ∨ c = 58 ∨ c = 37) := by omega
    refine ⟨by omega, ?_, by omega⟩
    cases hm : must_encode c
    · rfl
    · exact absurd ((must_encode_iff c).1 hm) hne
  unfold encode_regname
  rw [encode_loop_plain 255 _ _ 0 [] h]
  rfl

/-- The call that lists the value of index 2047: the addition of 0x10000 clears
the flag bit, and the value is listed as a directory, without marker. -/
theorem readdir_retry_overflow (env : Env) (wow64 fuel : Nat) (h : HKEY) (H : __DIR_hash)
    (F : Nat) (de : dirent) (w : World) (n : Nat) (v : List Nat) (hn : 2 + n + 2048 < 65536)
    (hv : env.RegEnumValue h 2047 = (ERROR_SUCCESS, v)) (h0 : at_ v 0 ≠ 0)
    (henc : (encode_regname env.NAME_MAX v false).1 = 0) :
    readdir_retry env wow64 (fuel + 1)
      { __d_position := values_position n 2047, __handle := h, __d_internal := H,
        __flags := F } de w =
    some { res := 0,
           dir := { __d_position := values_position n 2047 + 1 + 65536, __handle := h,
                    __d_internal := H.set (env.hash_path_name 1 v), __flags := F },
           de := { d_name := (encode_regname env.NAME_MAX v false).2, d_type := DT_DIR },
           w := w } := by
  have m1 : values_position n 2047 &&& REG_ENUM_VALUES_MASK = 2 ^ 27 :=
    mask_set n 2047 (by omega) (by omega)
  have m2 : (values_position n 2047 + 1) &&& REG_ENUM_VALUES_MASK = 2 ^ 27 := by
    have := mask_set (n + 1) 2047 (by omega) (by omega)
    have e : values_position (n + 1) 2047 = values_position n 2047 + 1 := by
      unfold values_position; omega
    rw [e] at this
    exact this
  have m3 : (values_position n 2047 + 1 + 65536) &&& REG_ENUM_VALUES_MASK = 0 := by
    rw [and_values_mask, if_neg]
    unfold values_position
    have : (2 + n + 2047 + 2047 * 65536 + 2 ^ 27 + 1 + 65536) / 2 ^ 27 = 2 := by omega
    rw [this]
    decide
  have e1 : (values_position n 2047 &&& NOT_REG_ENUM_VALUES_MASK) >>> 16 = 2047 := by
    have := value_index (2 + n + 2047) 2047 (by omega) (by omega)
    unfold values_position
    exact this
  unfold readdir_retry
  simp only [m1, m2, m3, e1, hv, ne_eq, if_true, if_false, ERROR_SUCCESS,
    ERROR_NO_MORE_ITEMS, ERROR_MORE_DATA, false_and, and_false, not_true_eq_false,
    OfNat.ofNat_ne_zero, OfNat.zero_ne_ofNat, not_false_eq_true, Nat.reducePow, h0, henc]

/-- The same call, from `readdir`. -/
theorem readdir_overflow_call (env : Env) (wow64 fuel : Nat) (path : List Nat) (h : HKEY)
    (H : __DIR_hash) (F : Nat) (de : dirent) (w : World) (n : Nat) (v : List Nat)
    (hp : at_ path 0 ≠ 0) (hh : h ≠ INVALID_HANDLE_VALUE) (hf : 1 ≤ fuel)
    (hn : 2 + n + 2048 < 65536)
    (hv : env.RegEnumValue h 2047 = (ERROR_SUCCESS, v)) (h0 : at_ v 0 ≠ 0)
    (henc : (encode_regname env.NAME_MAX v false).1 = 0) :
    readdir env wow64 fuel path
      { __d_position := values_position n 2047, __handle := h, __d_internal := H,
        __flags := F ||| 3 } de w =
    some { res := 0,
           dir := { __d_position := values_position n 2047 + 1 + 65536, __handle := h,
                    __d_internal := H.set (env.hash_path_name 1 v), __flags := F ||| 3 },
           de := { d_name := (encode_regname env.NAME_MAX v false).2, d_type := DT_DIR },
           w := w } := by
  obtain ⟨f, rfl⟩ : ∃ f, fuel = f + 1 := ⟨fuel - 1, by omega⟩
  rw [readdir_open env wow64 _ path H F de w h _ hp hh (by unfold values_position; omega)]
  exact readdir_retry_overflow env wow64 f h H _ de w n v hn hv h0 henc

theorem getLast_append_one {α : Type} (L : List α) (r : α) :
    (L ++ [r]).getLast? = some r := by
  induction L with
  | nil => rfl
  | cons a L ih =>
    cases h : L ++ [r] with
    | nil => simp at h
    | cons b M =>
      rw [List.cons_append, h, List.getLast?_cons_cons, ← h, ih]

theorem getLast_two_append {α : Type} (a b : α) (L : List α) (r : α) :
    (a :: b :: (L ++ [r])).getLast? = some r :=
  getLast_append_one (a :: b :: L) r

theorem wide_keys_view : KeysView wide_env 0 HKEY_LOCAL_MACHINE [] := by
  refine { key_some := ?_, key_none := ?_, probe := ?_ }
  · intro i k hi; simp at hi
  · intro i _; rfl
  · intro name
    simp [wide_env, ERROR_FILE_NOT_FOUND, ERROR_SUCCESS, ERROR_ACCESS_DENIED]

/-- C4 at the failing input: in a key without sub-keys and with 2048 values, so
that `2 + n + m = 2050 < 65536`, whose names all encode, the 2050th call of
`readdir` lists the value of index 2047 with the type `DT_DIR`, not `DT_REG`.
The addition of 0x10000 of line 500 carries out of the 11 bits that the flag
bit 0x8000000 leaves to the value index, where the comment of lines 25-29
gives the index 15 bits, and clears the flag bit. -/
theorem readdir_value_listed_as_directory :
    (∀ j < 2048, wide_env.RegEnumValue HKEY_LOCAL_MACHINE j = (ERROR_SUCCESS, wide_name j) ∧
      encode_regname wide_env.NAME_MAX (wide_name j) false = (0, wide_name j)) ∧
    (wide_env.RegEnumValue HKEY_LOCAL_MACHINE 2048).1 = ERROR_NO_MORE_ITEMS ∧
    (readdir_n wide_env 0 2 (cstr "/HKEY_LOCAL_MACHINE") 2050 opendir dirent0 world0).map
        (fun rs => rs.getLast?.map ReaddirResult.seen) =
      some (some (0, cstr "v2047", DT_DIR)) := by
  refine ⟨?_, by decide, ?_⟩
  · intro j hj
    refine ⟨?_, encode_wide_name j⟩
    simp [wide_env, hj]
  · have hp : at_ (cstr "/HKEY_LOCAL_MACHINE") 0 ≠ 0 := by decide
    have hh : HKEY_LOCAL_MACHINE ≠ INVALID_HANDLE_VALUE := by decide
    have ho : open_key wide_env ((cstr "/HKEY_LOCAL_MACHINE").drop 1) KEY_READ 0 false world0 =
        (HKEY_LOCAL_MACHINE, world0) := by decide
    have c1 := readdir_first wide_env 0 2 _ __DIR_hash.new 0 dirent0 world0 world0 _ hp ho hh
    have c2 := readdir_second wide_env 0 2 (cstr "/HKEY_LOCAL_MACHINE") __DIR_hash.new 0
      { dirent0 with d_name := cstr "." } world0 _ hp hh
    have hlen : ((List.range 2047).map wide_name).length = 2047 := by simp
    have hvs : ∀ j v, ((List.range 2047).map wide_name).get? j = some v →
        wide_env.RegEnumValue HKEY_LOCAL_MACHINE j = (ERROR_SUCCESS, v) := by
      intro j v hj
      have hlt : j < 2047 := by
        have := (List.get?_eq_some.1 hj).1
        rw [hlen] at this
        exact this
      have hv : v = wide_name j := by
        have h1 : ((List.range 2047).map wide_name).get? j = some (wide_name j) := by
          rw [List.get?_eq_getElem?, List.getElem?_map, List.getElem?_range hlt]
          rfl
        rw [h1] at hj
        exact (Option.some.inj hj).symm
      subst hv
      have : j < 2048 := by omega
      simp [wide_env, this]
    obtain ⟨L2, de2, p2, _, hs2, run2⟩ := readdir_n_values wide_env 0 2
      (cstr "/HKEY_LOCAL_MACHINE") HKEY_LOCAL_MACHINE 0 [] ((List.range 2047).map wide_name)
      wide_keys_view hvs
      (by
        intro v hv _
        obtain ⟨j, _, rfl⟩ := List.mem_map.1 hv
        have := encode_wide_name j
        simp only [List.not_mem_nil, decide_False]
        show (encode_regname 255 (wide_name j) false).1 = 0
        rw [this])
      __DIR_hash.new (by intro k hk; simp at hk) hp hh (le_refl _)
      (by rw [hlen]; decide) (by rw [hlen]) _ 0 rfl (Nat.zero_le _) 2
      { dirent0 with d_name := cstr ".." } world0 (Or.inr ⟨rfl, rfl⟩)
    have hp2 : p2 = values_position 0 2047 := by
      simp only [hlen, List.length_nil] at hs2
      rcases hs2 with h1 | ⟨h1, _⟩
      · exact h1
      · omega
    subst hp2
    have c3 := readdir_overflow_call wide_env 0 2 (cstr "/HKEY_LOCAL_MACHINE")
      HKEY_LOCAL_MACHINE __DIR_hash.new 0 de2 world0 0 (wide_name 2047) hp hh (by decide)
      (by decide) (by simp [wide_env]) (by decide)
      (by rw [show wide_env.NAME_MAX = 255 from rfl, encode_wide_name])
    have e : (2050 : Nat) = (2047 + 1) + 1 + 1 := rfl
    have c1' : readdir wide_env 0 2 (cstr "/HKEY_LOCAL_MACHINE") opendir dirent0 world0 =
        some { res := 0,
               dir := { __d_position := 1, __handle := HKEY_LOCAL_MACHINE,
                        __d_internal := __DIR_hash.new, __flags := 0 ||| 3 },
               de := { d_name := cstr ".", d_type := dirent0.d_type }, w := world0 } := c1
    have run2' := run2 1
    simp only [hlen, List.length_nil, Nat.add_zero, List.drop_zero] at run2'
    rw [e, readdir_n_step _ _ _ _ _ _ _ _ _ c1', readdir_n_step _ _ _ _ _ _ _ _ _ c2, run2',
      readdir_n_step _ _ _ _ _ _ _ _ _ c3]
    simp only [readdir_n, Option.map_some', Option.map_map, Function.comp, List.cons_append,
      getLast_two_append, ReaddirResult.seen]
    have hname : (encode_regname wide_env.NAME_MAX (wide_name 2047) false).2 = cstr "v2047" := by
      rw [show wide_env.NAME_MAX = 255 from rfl, encode_wide_name]
      decide
    rw [hname]

/-! ## The marker in the listing -/

theorem scan_back_ge (s : List Nat) (j : Nat) (hj : isdirsep (at_ s j) = true) :
    ∀ i, j ≤ i → j ≤ scan_back s i := by
  intro i
  induction i with
  | zero => intro h; simp [scan_back]; omega
  | succ i ih =>
    intro h
    unfold scan_back
    split
    · exact h
    · rename_i hs
      have : j ≠ i + 1 := by
        intro e; subst e; exact hs hj
      exact ih (by omega)

/-- For every path of two or more components, `exists` returns 0 and leaves
the process state untouched, whatever the store holds: the test `file ==
path` of line 239 fails and the statement it guards is the whole `for` loop
together with the `else` of line 247. -/
theorem exists_nested_path (env : Env) (wow64 fuel : Nat) (parent leaf : List Nat) (w : World)
    (hn : NulFree (parent ++ 47 :: leaf)) (hl : leaf ≠ []) :
    fhandler_registry_exists env wow64 fuel (47 :: (parent ++ 47 :: leaf)) w = some (0, w) := by
  have hlen := strlen_of_nulFree _ hn
  have hsep : isdirsep (at_ (47 :: (parent ++ 47 :: leaf)) (parent.length + 1)) = true := by
    rw [at_cons_succ]
    unfold at_
    rw [List.getD_eq_getElem?_getD, List.getElem?_append_right (le_refl _)]
    simp [isdirsep]
  have hpos : 0 < leaf.length := List.length_pos.2 hl
  have hL : (parent ++ 47 :: leaf).length = parent.length + 1 + leaf.length := by
    simp; omega
  have hscan : ∀ f, parent.length + leaf.length ≤ f →
      parent.length + 1 ≤ scan_back (47 :: (parent ++ 47 :: leaf)) f :=
    fun f hf => scan_back_ge _ _ hsep f (by omega)
  have h0 : ¬ (at_ (47 :: (parent ++ 47 :: leaf)) 0 = 0) := by
    rw [at_cons_zero]; omega
  unfold fhandler_registry_exists
  simp only [h0, if_false, List.drop_one, List.tail_cons, hlen]
  generalize hf : (if (isdirsep (at_ (47 :: (parent ++ 47 :: leaf)) (parent ++ 47 :: leaf).length) &&
      decide ((parent ++ 47 :: leaf).length > 1)) = true then (parent ++ 47 :: leaf).length - 1
      else (parent ++ 47 :: leaf).length) = f
  have hfge : parent.length + leaf.length ≤ f := by
    rw [← hf]; split <;> omega
  have hsc := hscan f hfge
  have hne : ¬ (scan_back (47 :: (parent ++ 47 :: leaf)) f + 1 = 1) := by omega
  rw [if_neg hne]
  simp [exists_out]

/-- C5 at the failing input: in the small store `SOFTWARE` is a sub-key of
`HKEY_LOCAL_MACHINE` and `Version` a value of `SOFTWARE`, the parent paths
open and the leaves decode, and `exists` returns 0 for both paths, where the
claim says a positive and a negative value. -/
theorem exists_misses_nested_entries :
    demo_env.RegEnumKeyEx HKEY_LOCAL_MACHINE 0 = (ERROR_SUCCESS, cstr "SOFTWARE") ∧
    demo_env.RegEnumValue 100 2 = (ERROR_SUCCESS, cstr "Version") ∧
    (open_key demo_env (cstr "HKEY_LOCAL_MACHINE") KEY_READ 0 false world0).1 =
      HKEY_LOCAL_MACHINE ∧
    (open_key demo_env (cstr "HKEY_LOCAL_MACHINE/SOFTWARE") KEY_READ 0 false world0).1 = 100 ∧
    decode_regname (cstr "SOFTWARE") = (0, cstr "SOFTWARE") ∧
    decode_regname (cstr "Version") = (0, cstr "Version") ∧
    fhandler_registry_exists demo_env 0 10 (cstr "/HKEY_LOCAL_MACHINE/SOFTWARE") world0 =
      some (0, world0) ∧
    fhandler_registry_exists demo_env 0 10 (cstr "/HKEY_LOCAL_MACHINE/SOFTWARE/Version")
      world0 = some (0, world0) := by
  decide

/-- C3 at the failing input: in the key `SOFTWARE` of the small store the
third call of `readdir` lists the sub-key `Cygwin`; after two calls `telldir`
gives 2, and `rewinddir`, `seekdir (2)` and one call of `readdir` give the
entry `..`, because the loop of `seekdir` is left after the first call of
`readdir` that succeeds. The same happens after three and after four calls. -/
theorem seekdir_does_not_resume :
    (readdir_n demo_env 0 2 (cstr "/HKEY_LOCAL_MACHINE/SOFTWARE") 5 opendir dirent0 world0).map
        (fun rs => rs.map ReaddirResult.seen) =
      some [(0, cstr ".", 0), (0, cstr "..", 0), (0, cstr "Cygwin", DT_DIR),
        (0, cstr "@", DT_REG), (0, cstr "Cygwin%val", DT_REG)] ∧
    resumed_entry demo_env 0 2 (cstr "/HKEY_LOCAL_MACHINE/SOFTWARE") 2 10 =
      some (2, (0, cstr "..", 0)) ∧
    resumed_entry demo_env 0 2 (cstr "/HKEY_LOCAL_MACHINE/SOFTWARE") 3 10 =
      some (3, (0, cstr "..", DT_DIR)) ∧
    resumed_entry demo_env 0 2 (cstr "/HKEY_LOCAL_MACHINE/SOFTWARE") 4 10 =
      some (4, (0, cstr "..", DT_REG)) := by
  decide

/-! ## The seen-name table and the listing of the mount root -/

theorem fold_set_preserves (later : List Nat) :
    ∀ (t : __DIR_hash) (g : Nat), t.is_set g = true →
      (later.foldl __DIR_hash.set t).is_set g = true := by
  induction later with
  | nil => intro t g hg; exact hg
  | cons a later ih =>
    intro t g hg
    exact ih _ g (is_set_set_of_is_set t a g hg)

/-- C17: the seen-name set has no false negatives. For every state `t` of the
table and every hash value `h`, `is_set (h)` is true immediately after
`set (h)`; `set` never clears a bit (whatever was set in `t` stays set after
`set (h)`), so `is_set (h)` stays true after any later sequence of `set`
calls; and in a freshly constructed table `is_set (h)` is false. -/
theorem dir_hash_no_false_negative (t : __DIR_hash) (h : Nat) (later : List Nat) :
    (t.set h).is_set h = true ∧
    (∀ g, t.is_set g = true → (t.set h).is_set g = true) ∧
    (later.foldl __DIR_hash.set (t.set h)).is_set h = true ∧
    __DIR_hash.new.is_set h = false := by
  refine ⟨is_set_set_self t h, fun g hg => is_set_set_of_is_set t h g hg,
    fold_set_preserves later _ h (is_set_set_self t h), ?_⟩
  simp [__DIR_hash.is_set, __DIR_hash.new]

/-- A call of `readdir` on the mount root. -/
theorem readdir_root (env : Env) (wow64 fuel : Nat) (path : List Nat) (dir : DIR) (de : dirent)
    (w : World) (hp : at_ path 0 = 0) :
    readdir env wow64 fuel path dir de w =
      some (if dir.__d_position ≥ ROOT_KEY_COUNT then
          { res := ENMFILE, dir := { dir with __flags := dir.__flags ||| 3 }, de := de, w := w }
        else
          { res := 0,
            dir := { dir with __flags := dir.__flags ||| 3,
                              __d_position := dir.__d_position + 1 },
            de := { de with d_name := registry_listing.getD dir.__d_position [] }, w := w }) := by
  unfold readdir
  simp only [hp, if_true, saw_dots]
  split <;> rfl

/-- On the mount root, from position `p` the next calls list the root names
from index `p` on and leave the position at the number of root names. -/
theorem readdir_n_root_names (env : Env) (wow64 fuel : Nat) (path : List Nat)
    (hp : at_ path 0 = 0) :
    ∀ (rest : List (List Nat)) (p : Nat), registry_listing.drop p = rest →
    p ≤ registry_listing.length →
    ∀ (dir : DIR) (de : dirent) (w : World), dir.__d_position = p →
    ∃ (L : List ReaddirResult) (dir1 : DIR) (de1 : dirent),
      L.map (fun r => (r.res, r.de.d_name)) = rest.map (fun n => ((0 : Int), n)) ∧
      dir1.__d_position = registry_listing.length ∧
      ∀ k, readdir_n env wow64 fuel path (rest.length + k) dir de w =
        (readdir_n env wow64 fuel path k dir1 de1 w).map (fun rs => L ++ rs) := by
  intro rest
  induction rest with
  | nil =>
    intro p hd hle dir de w hpos
    have hlen : p = registry_listing.length := by
      rcases drop_length_le registry_listing p [] hd with h1 | ⟨_, h1⟩
      · simpa using h1
      · omega
    refine ⟨[], dir, de, rfl, by rw [hpos, hlen], fun k => ?_⟩
    simp only [List.length_nil, Nat.zero_add, List.nil_append]
    cases readdir_n env wow64 fuel path k dir de w <;> rfl
  | cons a rest ih =>
    intro p hd hle dir de w hpos
    obtain ⟨hget, hd'⟩ := drop_eq_cons_get registry_listing p a rest hd
    have hlen : p + (rest.length + 1) = registry_listing.length := by
      rcases drop_length_le registry_listing p (a :: rest) hd with h1 | ⟨h1, _⟩
      · simpa using h1
      · simp at h1
    have hlt : ¬ (dir.__d_position ≥ ROOT_KEY_COUNT) := by
      rw [hpos]
      show ¬ (p ≥ registry_listing.length)
      omega
    have hname : registry_listing.getD p [] = a := by
      rw [List.getD_eq_getElem?_getD, ← List.get?_eq_getElem?, hget]
      rfl
    have hcall := readdir_root env wow64 fuel path dir de w hp
    rw [if_neg hlt, hpos, hname] at hcall
    obtain ⟨L, dir1, de1, hL, hp1, hrun⟩ := ih (p + 1) hd' (by omega)
      { dir with __flags := dir.__flags ||| 3, __d_position := p + 1 }
      { de with d_name := a } w rfl
    refine ⟨{ res := 0,
              dir := { dir with __flags := dir.__flags ||| 3, __d_position := p + 1 },
              de := { de with d_name := a }, w := w } :: L, dir1, de1, ?_, hp1, fun k => ?_⟩
    · rw [List.map_cons, List.map_cons, hL]
    · have e1 : (a :: rest).length + k = (rest.length + k) + 1 := by simp; omega
      rw [e1, readdir_n_step _ _ _ _ _ _ _ _ _ hcall]
      simp only [hrun k, Option.map_map]
      rfl

/-- On the mount root, at the position after the last root name every call
reports the end of the directory and leaves the position. -/
theorem readdir_n_root_end (env : Env) (wow64 fuel : Nat) (path : List Nat)
    (hp : at_ path 0 = 0) :
    ∀ (k : Nat) (dir : DIR) (de : dirent) (w : World),
    dir.__d_position = registry_listing.length →
    ∃ R : List ReaddirResult, R.length = k ∧
      (∀ r ∈ R, r.res = ENMFILE ∧ r.dir.__d_position = registry_listing.length) ∧
      readdir_n env wow64 fuel path k dir de w = some R := by
  intro k
  induction k with
  | zero => intro dir de w _; exact ⟨[], rfl, by simp, rfl⟩
  | succ k ih =>
    intro dir de w hpos
    have hge : dir.__d_position ≥ ROOT_KEY_COUNT := by
      rw [hpos]
      exact le_refl _
    have hcall := readdir_root env wow64 fuel path dir de w hp
    rw [if_pos hge] at hcall
    obtain ⟨R, hl, hr, hrun⟩ := ih { dir with __flags := dir.__flags ||| 3 } de w hpos
    refine ⟨{ res := ENMFILE, dir := { dir with __flags := dir.__flags ||| 3 }, de := de,
              w := w } :: R, by simp [hl], ?_, ?_⟩
    · intro r hr'
      rcases List.mem_cons.1 hr' with h1 | h1
      · rw [h1]
        exact ⟨rfl, hpos⟩
      · exact hr r h1
    · rw [readdir_n_step _ _ _ _ _ _ _ _ _ hcall]
      simp only [hrun, Option.map_some']

/-- C13: root listing. For a directory on the mount root at position 0,
successive `readdir` calls return exactly the names `.`, `..`,
`HKEY_CLASSES_ROOT`, `HKEY_CURRENT_CONFIG`, `HKEY_CURRENT_USER`,
`HKEY_LOCAL_MACHINE`, `HKEY_USERS`, `HKEY_PERFORMANCE_DATA` in that order
(`ROOT_KEY_COUNT` = 8 entries), and every later call returns end-of-directory
and leaves the position at 8. -/
theorem readdir_root_listing (env : Env) (wow64 fuel : Nat) (path : List Nat) (dir : DIR)
    (de0 : dirent) (w0 : World) (hp : at_ path 0 = 0) (h0 : dir.__d_position = 0) (k : Nat) :
    ROOT_KEY_COUNT = 8 ∧
    ∃ (L R : List ReaddirResult),
      readdir_n env wow64 fuel path (ROOT_KEY_COUNT + k) dir de0 w0 = some (L ++ R) ∧
      L.map (fun r => (r.res, r.de.d_name)) =
        [(0, cstr "."), (0, cstr ".."), (0, cstr "HKEY_CLASSES_ROOT"),
          (0, cstr "HKEY_CURRENT_CONFIG"), (0, cstr "HKEY_CURRENT_USER"),
          (0, cstr "HKEY_LOCAL_MACHINE"), (0, cstr "HKEY_USERS"),
          (0, cstr "HKEY_PERFORMANCE_DATA")] ∧
      R.length = k ∧ ∀ r ∈ R, r.res = ENMFILE ∧ r.dir.__d_position = 8 := by
  refine ⟨rfl, ?_⟩
  obtain ⟨L, dir1, de1, hL, hp1, hrun⟩ := readdir_n_root_names env wow64 fuel path hp
    registry_listing 0 rfl (Nat.zero_le _) dir de0 w0 h0
  obtain ⟨R, hRl, hRr, hR⟩ := readdir_n_root_end env wow64 fuel path hp k dir1 de1 w0 hp1
  refine ⟨L, R, ?_, ?_, hRl, hRr⟩
  · have := hrun k
    rw [hR] at this
    exact this
  · rw [hL]
    rfl

/-- Witness of C13: the mount root of the small store, twelve calls. -/
theorem readdir_root_listing_witness :
    ROOT_KEY_COUNT = 8 ∧
    ∃ (L R : List ReaddirResult),
      readdir_n demo_env 0 2 [] (ROOT_KEY_COUNT + 4) opendir dirent0 world0 = some (L ++ R) ∧
      L.map (fun r => (r.res, r.de.d_name)) =
        [(0, cstr "."), (0, cstr ".."), (0, cstr "HKEY_CLASSES_ROOT"),
          (0, cstr "HKEY_CURRENT_CONFIG"), (0, cstr "HKEY_CURRENT_USER"),
          (0, cstr "HKEY_LOCAL_MACHINE"), (0, cstr "HKEY_USERS"),
          (0, cstr "HKEY_PERFORMANCE_DATA")] ∧
      R.length = 4 ∧ ∀ r ∈ R, r.res = ENMFILE ∧ r.dir.__d_position = 8 :=
  readdir_root_listing demo_env 0 2 [] opendir dirent0 world0 (by decide) (by decide) 4

/-! ## The value reader -/

/-- The loop over the sub-keys on a host that enumerates the sub-keys `ks`:
from index `i` it fails with `EISDIR` when one of the remaining names matches
and with `ENOENT` when none does. -/
theorem value_not_found_spec (env : Env) (handle : HKEY) (value_name : List Nat)
    (ks : List (List Nat))
    (hks : ∀ i k, ks.get? i = some k → env.RegEnumKeyEx handle i = (ERROR_SUCCESS, k))
    (hend : (env.RegEnumKeyEx handle ks.length).1 = ERROR_NO_MORE_ITEMS) (w : World) :
    ∀ (rest : List (List Nat)) (i fuel : Nat), ks.drop i = rest → i ≤ ks.length →
    rest.length < fuel →
    value_not_found env handle value_name fuel i w =
      some (false, set_errno
        (if rest.any (fun k => strcasematch k value_name) then EISDIR else ENOENT) w) := by
  intro rest
  induction rest with
  | nil =>
    intro i fuel hd hi hf
    have hlen : i = ks.length := by
      rcases drop_length_le ks i [] hd with h1 | ⟨_, h1⟩
      · simpa using h1
      · omega
    subst hlen
    obtain ⟨f, rfl⟩ : ∃ f, fuel = f + 1 := ⟨fuel - 1, by simp at hf; omega⟩
    unfold value_not_found
    simp [hend, ERROR_NO_MORE_ITEMS, ERROR_SUCCESS, ERROR_MORE_DATA]
  | cons a rest ih =>
    intro i fuel hd hi hf
    obtain ⟨hget, hd'⟩ := drop_eq_cons_get ks i a rest hd
    have hlen : i + (rest.length + 1) = ks.length := by
      rcases drop_length_le ks i (a :: rest) hd with h1 | ⟨h1, _⟩
      · simpa using h1
      · simp at h1
    obtain ⟨f, rfl⟩ : ∃ f, fuel = f + 1 := ⟨fuel - 1, by simp at hf; omega⟩
    have hcall := hks i a hget
    unfold value_not_found
    simp only [hcall, ERROR_SUCCESS, true_or, if_true, List.any_cons]
    by_cases hm : strcasematch a value_name = true
    · simp [hm]
    · have hm' : strcasematch a value_name = false := by simpa using hm
      rw [ih (i + 1) f hd' (by omega) (by simp at hf; omega)]
      simp [hm']

/-- The part after the label `value_not_found` never gives `true`. -/
theorem value_not_found_false (env : Env) (handle : HKEY) (value_name : List Nat) :
    ∀ (fuel i : Nat) (w : World) (r : Bool × World),
      value_not_found env handle value_name fuel i w = some r → r.1 = false := by
  intro fuel
  induction fuel with
  | zero => intro i w r h; simp [value_not_found] at h
  | succ f ih =>
    intro i w r h
    unfold value_not_found at h
    simp only at h
    split at h
    · split at h
      · cases h; rfl
      · exact ih _ _ _ h
    · split at h <;> (cases h; rfl)

/-- The growth loop when the query of pass `p` reports that the value does not
exist: what the loop over the sub-keys gives. -/
theorem fill_filebuf_grow_not_found (env : Env) (fuel : Nat) (handle : HKEY)
    (value_name : List Nat) :
    ∀ (p passes : Nat) (fh : fhandler_registry) (w : World) (b : Nat),
    fh.io_handle = handle → fh.value_name = value_name → fh.bufalloc = 1000 * b →
    (∀ i < p, (env.RegQueryValueEx handle value_name (some (1000 * (b + i + 1)))).1 =
      ERROR_MORE_DATA) →
    (env.RegQueryValueEx handle value_name (some (1000 * (b + p + 1)))).1 =
      ERROR_FILE_NOT_FOUND →
    p < passes →
    ∃ fh1, fill_filebuf_grow env fuel passes fh w =
      (value_not_found env handle value_name fuel 0 w).map fun r => (r.1, fh1, r.2) := by
  intro p
  induction p with
  | zero =>
    intro passes fh w b hh hv hb _ hnf hp
    obtain ⟨q, rfl⟩ : ∃ q, passes = q + 1 := ⟨passes - 1, by omega⟩
    have e : fh.bufalloc + 1000 = 1000 * (b + 0 + 1) := by omega
    unfold fill_filebuf_grow
    simp only [hh, hv, e, hnf, ERROR_FILE_NOT_FOUND, ERROR_SUCCESS, ERROR_MORE_DATA]
    exact ⟨_, rfl⟩
  | succ p ih =>
    intro passes fh w b hh hv hb hmore hnf hp
    obtain ⟨q, rfl⟩ : ∃ q, passes = q + 1 := ⟨passes - 1, by omega⟩
    have e : fh.bufalloc + 1000 = 1000 * (b + 0 + 1) := by omega
    have h0 := hmore 0 (by omega)
    unfold fill_filebuf_grow
    simp only [hh, hv, e, h0, ERROR_FILE_NOT_FOUND, ERROR_SUCCESS, ERROR_MORE_DATA]
    simp only [ne_eq, not_true_eq_false, and_false, if_false, if_true, OfNat.ofNat_ne_zero,
      not_false_eq_true]
    refine ih q _ w (b + 1) rfl rfl (by simp) (fun i hi => ?_) ?_ (by omega)
    · have := hmore (i + 1) (by omega)
      have e2 : b + (i + 1) + 1 = b + 1 + i + 1 := by omega
      rw [e2] at this
      exact this
    · have e2 : b + (p + 1) + 1 = b + 1 + p + 1 := by omega
      rw [e2] at hnf
      exact hnf

/-- When the host reports that the value does not exist, `fill_filebuf` gives
what the part after the label `value_not_found` gives. -/
theorem fill_filebuf_not_found (env : Env) (fuel : Nat) (fh : fhandler_registry) (w : World)
    (p : Nat) (hnf : ValueNotFound env fh.io_handle fh.value_name p) (hp : p < fuel) :
    ∃ fh1, fill_filebuf env fuel fh w =
      (value_not_found env fh.io_handle fh.value_name fuel 0 w).map
        fun r => (r.1, fh1, r.2) := by
  unfold ValueNotFound at hnf
  by_cases hh : fh.io_handle ≠ HKEY_PERFORMANCE_DATA
  · rw [if_pos hh] at hnf
    unfold fill_filebuf
    rw [if_pos hh]
    simp only [hnf, ERROR_FILE_NOT_FOUND, ERROR_SUCCESS, ne_eq, OfNat.ofNat_ne_zero,
      not_false_eq_true, if_true, not_true_eq_false, if_false]
    exact ⟨_, rfl⟩
  · rw [if_neg hh] at hnf
    unfold fill_filebuf
    rw [if_neg hh]
    exact fill_filebuf_grow_not_found env fuel fh.io_handle fh.value_name p fuel
      { fh with bufalloc := 0 } w 0 rfl rfl rfl
      (fun i hi => by simpa using hnf.1 i hi) (by simpa using hnf.2) hp

/-- C15: missing value versus directory. When the host reports that the named
value does not exist, `fill_filebuf` never returns success; and on a host that
enumerates the sub-keys `ks` of the key, it fails with `EISDIR` if some
sub-key has a name equal, case-insensitively, to the value name, and with
`ENOENT` if the enumeration ends with no such match. -/
theorem fill_filebuf_missing_value (env : Env) (fuel : Nat) (fh : fhandler_registry)
    (w : World) (p : Nat) (hnf : ValueNotFound env fh.io_handle fh.value_name p)
    (hp : p < fuel) :
    (∀ r, fill_filebuf env fuel fh w = some r → r.1 = false) ∧
    ∀ ks : List (List Nat),
      (∀ i k, ks.get? i = some k → env.RegEnumKeyEx fh.io_handle i = (ERROR_SUCCESS, k)) →
      (env.RegEnumKeyEx fh.io_handle ks.length).1 = ERROR_NO_MORE_ITEMS →
      ks.length < fuel →
      ∃ fh1 w1, fill_filebuf env fuel fh w = some (false, fh1, w1) ∧
        w1.errno =
          if ks.any (fun k => strcasematch k fh.value_name) then EISDIR else ENOENT := by
  obtain ⟨fh1, hfill⟩ := fill_filebuf_not_found env fuel fh w p hnf hp
  constructor
  · intro r hr
    rw [hfill] at hr
    cases hv : value_not_found env fh.io_handle fh.value_name fuel 0 w with
    | none => rw [hv] at hr; simp at hr
    | some v =>
      rw [hv] at hr
      simp only [Option.map_some', Option.some.injEq] at hr
      rw [← hr]
      exact value_not_found_false env _ _ fuel 0 w v hv
  · intro ks hks hend hf
    have hv := value_not_found_spec env fh.io_handle fh.value_name ks hks hend w ks 0 fuel rfl
      (Nat.zero_le _) hf
    rw [hfill, hv]
    exact ⟨fh1, _, rfl, rfl⟩

/-- Witness of C15 on the key `SOFTWARE` of the small store, which has the
sub-key `Cygwin` and no value `cygwin`: the name denotes a directory. -/
theorem fill_filebuf_missing_value_witness :
    ValueNotFound demo_env 100 (cstr "cygwin") 0 ∧
    (∀ r, fill_filebuf demo_env 5 { fh0 with io_handle := 100, value_name := cstr "cygwin" }
      world0 = some r → r.1 = false) ∧
    ∀ ks : List (List Nat),
      (∀ i k, ks.get? i = some k → demo_env.RegEnumKeyEx 100 i = (ERROR_SUCCESS, k)) →
      (demo_env.RegEnumKeyEx 100 ks.length).1 = ERROR_NO_MORE_ITEMS →
      ks.length < 5 →
      ∃ fh1 w1, fill_filebuf demo_env 5
          { fh0 with io_handle := 100, value_name := cstr "cygwin" } world0 =
          some (false, fh1, w1) ∧
        w1.errno = if ks.any (fun k => strcasematch k (cstr "cygwin")) then EISDIR else ENOENT :=
  ⟨by decide,
    fill_filebuf_missing_value demo_env 5
      { fh0 with io_handle := 100, value_name := cstr "cygwin" } world0 0 (by decide)
      (by decide)⟩

/-- C14 at the failing input: on a host where the value has grown between the
query of its size and the query that reads it, the second query fails with
`ERROR_MORE_DATA` and `fill_filebuf` returns true, with errno set and
`filesize` left as it was; for `HKEY_PERFORMANCE_DATA` on a host that denies
the query, the growth loop returns true as well. The first query of an
ordinary key, when denied, returns false. -/
theorem fill_filebuf_reports_success_on_error :
    (grown_env.RegQueryValueEx 100 (cstr "Version") none).1 = ERROR_SUCCESS ∧
    (grown_env.RegQueryValueEx 100 (cstr "Version") (some 4)).1 = ERROR_MORE_DATA ∧
    fill_filebuf grown_env 5 { fh0 with io_handle := 100, value_name := cstr "Version" }
        world0 =
      some (true, { fh0 with io_handle := 100, value_name := cstr "Version", bufalloc := 4 },
        { opened := [], errno := 5 }) ∧
    (denied_env.RegQueryValueEx HKEY_PERFORMANCE_DATA (cstr "Global") (some 1000)).1 =
      ERROR_ACCESS_DENIED ∧
    fill_filebuf denied_env 5
        { fh0 with io_handle := HKEY_PERFORMANCE_DATA, value_name := cstr "Global" } world0 =
      some (true,
        { fh0 with io_handle := HKEY_PERFORMANCE_DATA, value_name := cstr "Global",
                   bufalloc := 1000 },
        { opened := [], errno := 5 }) ∧
    fill_filebuf denied_env 5 { fh0 with io_handle := 100, value_name := cstr "Version" }
        world0 =
      some (false, { fh0 with io_handle := 100, value_name := cstr "Version" },
        { opened := [], errno := 5 }) := by
  decide

/-! ## Opening a path -/

theorem at_mem (c : List Nat) (k : Nat) (h : k < c.length) : at_ c k ∈ c := by
  unfold at_
  rw [List.getD_eq_getElem?_getD, List.getElem?_eq_getElem h]
  exact List.getElem_mem h

theorem component_nulFree {c : List Nat} (hc : Component c) : NulFree c :=
  fun x hx => (hc.2 x hx).1

theorem nulFree_path_front (comps : List (List Nat)) (hc : ∀ c ∈ comps, Component c) :
    NulFree (path_front comps) := by
  induction comps with
  | nil => intro x hx; simp [path_front] at hx
  | cons c cs ih =>
    intro x hx
    simp only [path_front, List.mem_append, List.mem_cons] at hx
    rcases hx with h | h | h
    · exact (hc c (List.mem_cons_self _ _)).2 x h |>.1
    · omega
    · exact ih (fun d hd => hc d (List.mem_cons_of_mem _ hd)) x h

/-- The backward scan ends at the separator in front of the path when no
separator lies in between. -/
theorem scan_back_zero (s : List Nat) :
    ∀ n, (∀ i, 1 ≤ i → i ≤ n → isdirsep (at_ s i) = false) → scan_back s n = 0 := by
  intro n
  induction n with
  | zero => intro _; rfl
  | succ n ih =>
    intro h
    unfold scan_back
    rw [if_neg (by rw [h (n + 1) (by omega) (le_refl _)]; decide)]
    exact ih (fun i h1 h2 => h i h1 (by omega))

/-- For a path of one component, the last component starts the path. -/
theorem leaf_index_single (c : List Nat) (hc : Component c) : leaf_index (47 :: c) = 1 := by
  have hlen := strlen_of_nulFree c (component_nulFree hc)
  have hpos : 0 < c.length := List.length_pos.2 hc.1
  have hsep : ∀ i, 1 ≤ i → i ≤ c.length → isdirsep (at_ (47 :: c) i) = false := by
    intro i h1 h2
    obtain ⟨j, rfl⟩ : ∃ j, i = j + 1 := ⟨i - 1, by omega⟩
    rw [at_cons_succ]
    exact (hc.2 _ (at_mem c j (by omega))).2
  unfold leaf_index
  simp only [List.drop_one, List.tail_cons, hlen]
  rw [hsep c.length (by omega) (le_refl _)]
  simp only [Bool.false_and, Bool.false_eq_true, if_false]
  rw [scan_back_zero _ _ hsep]

/-- For a path of two or more components, the last component does not start
the path. -/
theorem leaf_index_nested (parent leaf : List Nat) (hn : NulFree (parent ++ 47 :: leaf))
    (hl : leaf ≠ []) : leaf_index (47 :: (parent ++ 47 :: leaf)) ≠ 1 := by
  have hlen := strlen_of_nulFree _ hn
  have hsep : isdirsep (at_ (47 :: (parent ++ 47 :: leaf)) (parent.length + 1)) = true := by
    rw [at_cons_succ]
    unfold at_
    rw [List.getD_eq_getElem?_getD, List.getElem?_append_right (le_refl _)]
    simp [isdirsep]
  have hpos : 0 < leaf.length := List.length_pos.2 hl
  have hL : (parent ++ 47 :: leaf).length = parent.length + 1 + leaf.length := by
    simp; omega
  unfold leaf_index
  simp only [List.drop_one, List.tail_cons, hlen]
  generalize hf : (if (isdirsep (at_ (47 :: (parent ++ 47 :: leaf)) (parent ++ 47 :: leaf).length) &&
      decide ((parent ++ 47 :: leaf).length > 1)) = true then (parent ++ 47 :: leaf).length - 1
      else (parent ++ 47 :: leaf).length) = f
  have hfge : parent.length + leaf.length ≤ f := by
    rw [← hf]; split <;> omega
  have hsc := scan_back_ge _ _ hsep f (by omega)
  omega

theorem find_zip_isSome {α β : Type} (f : α → Bool) :
    ∀ (l1 : List α) (l2 : List β), l1.length = l2.length →
      ((l1.zip l2).find? (fun p => f p.1)).isSome = l1.any f := by
  intro l1
  induction l1 with
  | nil => intro l2 _; rfl
  | cons a l1 ih =>
    intro l2 h
    match l2, h with
    | b :: l2, h =>
      simp only [List.zip_cons_cons, List.find?_cons, List.any_cons]
      cases hf : f a
      · simp only [Bool.false_or]
        exact ih l2 (by simpa using h)
      · rfl

/-- Whether the loop over the root names finds a match. -/
theorem root_find_isSome (path : List Nat) :
    ((registry_listing.zip registry_keys).find?
        (fun p => path_prefix_p p.1 path (strlen p.1) true)).isSome =
      registry_listing.any (fun n => path_prefix_p n path (strlen n) true) :=
  find_zip_isSome (fun n => path_prefix_p n path (strlen n) true) _ _ rfl

/-- C11, as amended: write opens. For every path strictly below the mount
root, given by its components `comps` and `leaf`, and every flags value with
`O_WRONLY` set, after the `open` of the base class has succeeded: for a path of
two or more components, whether or not it exists, `open` sets errno to
`EROFS`; for a path of one component `open` fails (returns 0), with errno
`EEXIST` (when `O_CREAT` and `O_EXCL` are both set) or `EISDIR` when the
component matches a root name, and with errno `EROFS` (when `O_CREAT` is set)
or `ENOENT` when it matches none. -/
theorem open_wronly_refused (env : Env)
    (virtual_open : Nat → Nat → fhandler_registry → Int × fhandler_registry)
    (wow64 fuel : Nat) (comps : List (List Nat)) (leaf : List Nat) (flags mode : Nat)
    (fh : fhandler_registry) (w : World)
    (hb : (virtual_open flags mode fh).1 ≠ 0)
    (hc : ∀ c ∈ comps, Component c) (hl : Component leaf)
    (hw : flags &&& O_WRONLY ≠ 0) :
    ∃ res fh1 w1,
      fhandler_registry_open env virtual_open wow64 fuel (47 :: (path_front comps ++ leaf))
        flags mode fh w = some (res, fh1, w1) ∧
      (comps ≠ [] → w1.errno = EROFS) ∧
      (comps = [] → res = 0 ∧ w1.errno =
        if registry_listing.any (fun n => path_prefix_p n leaf (strlen n) true) then
          (if flags &&& (O_CREAT ||| O_EXCL) = (O_CREAT ||| O_EXCL) then EEXIST else EISDIR)
        else (if flags &&& O_CREAT ≠ 0 then EROFS else ENOENT)) := by
  match comps, hc with
  | [], _ =>
    have h0 : ¬ (at_ (47 :: leaf) 0 = 0) := by
      rw [at_cons_zero]; omega
    have hfile := leaf_index_single leaf hl
    have hfind := root_find_isSome leaf
    unfold fhandler_registry_open
    simp only [path_front, List.nil_append, List.drop_one, List.tail_cons]
    rw [if_neg hb, if_neg h0, if_pos hfile]
    cases hf : (registry_listing.zip registry_keys).find?
        (fun p => path_prefix_p p.1 leaf (strlen p.1) true) with
    | none =>
      rw [hf] at hfind
      simp only [Option.isSome_none] at hfind
      rw [← hfind]
      by_cases hcr : flags &&& O_CREAT ≠ 0
      · simp only [if_pos hcr, Bool.false_eq_true, if_false]
        exact ⟨_, _, _, rfl, fun h => absurd rfl h, fun _ => ⟨rfl, rfl⟩⟩
      · simp only [if_neg hcr, Bool.false_eq_true, if_false]
        exact ⟨_, _, _, rfl, fun h => absurd rfl h, fun _ => ⟨rfl, rfl⟩⟩
    | some p =>
      rw [hf] at hfind
      simp only [Option.isSome_some] at hfind
      rw [← hfind]
      by_cases hce : flags &&& (O_CREAT ||| O_EXCL) = (O_CREAT ||| O_EXCL)
      · simp only [if_pos hce, if_true]
        exact ⟨_, _, _, rfl, fun h => absurd rfl h, fun _ => ⟨rfl, rfl⟩⟩
      · simp only [if_neg hce, if_pos hw, if_true]
        exact ⟨_, _, _, rfl, fun h => absurd rfl h, fun _ => ⟨rfl, rfl⟩⟩
  | c :: cs, hc =>
    have hn : NulFree (c ++ 47 :: (path_front cs ++ leaf)) := by
      have := nulFree_append (nulFree_path_front (c :: cs) hc) (component_nulFree hl)
      simpa [path_front] using this
    have hne : path_front cs ++ leaf ≠ [] := by
      intro h
      exact hl.1 (List.append_eq_nil.1 h).2
    have hfile := leaf_index_nested c (path_front cs ++ leaf) hn hne
    have e : path_front (c :: cs) ++ leaf = c ++ 47 :: (path_front cs ++ leaf) := by
      simp [path_front]
    have h0 : ¬ (at_ (47 :: (c ++ 47 :: (path_front cs ++ leaf))) 0 = 0) := by
      rw [at_cons_zero]; omega
    unfold fhandler_registry_open
    simp only [e]
    rw [if_neg hb, if_neg h0, if_neg hfile, if_pos hw]
    exact ⟨_, _, _, rfl, fun _ => rfl, fun h => absurd h (by simp)⟩

/-- Witness of the amended C11: a nested path of the small store and flags
`O_WRONLY`. -/
theorem open_wronly_refused_witness :
    ∃ res fh1 w1,
      fhandler_registry_open demo_env virtual_open_ok 0 5
        (47 :: (path_front [cstr "HKEY_LOCAL_MACHINE"] ++ cstr "SOFTWARE")) O_WRONLY 0 fh0
        world0 = some (res, fh1, w1) ∧
      ([cstr "HKEY_LOCAL_MACHINE"] ≠ [] → w1.errno = EROFS) ∧
      ([cstr "HKEY_LOCAL_MACHINE"] = [] → res = 0 ∧ w1.errno =
        if registry_listing.any
            (fun n => path_prefix_p n (cstr "SOFTWARE") (strlen n) true) then
          (if O_WRONLY &&& (O_CREAT ||| O_EXCL) = (O_CREAT ||| O_EXCL) then EEXIST else EISDIR)
        else (if O_WRONLY &&& O_CREAT ≠ 0 then EROFS else ENOENT)) :=
  open_wronly_refused demo_env virtual_open_ok 0 5 [cstr "HKEY_LOCAL_MACHINE"]
    (cstr "SOFTWARE") O_WRONLY 0 fh0 world0 (by decide) (by decide) (by decide) (by decide)

/-- C11 as stated fails: with flags `O_WRONLY`, the one-component path of the
root key `HKEY_LOCAL_MACHINE` fails with `EISDIR` and the one-component path
`nothing`, which matches no root name, fails with `ENOENT`; neither errno is
`EROFS`. On the nested path `HKEY_LOCAL_MACHINE/SOFTWARE` errno is `EROFS`
and the value returned is 1, the assignment of line 664 being overwritten at
the label `success`. -/
theorem open_wronly_not_erofs :
    O_WRONLY &&& O_WRONLY ≠ 0 ∧
    fhandler_registry_open demo_env virtual_open_ok 0 5 (cstr "/HKEY_LOCAL_MACHINE") O_WRONLY 0
        fh0 world0 = some (0, fh0, { opened := [], errno := EISDIR }) ∧
    fhandler_registry_open demo_env virtual_open_ok 0 5 (cstr "/nothing") O_WRONLY 0
        fh0 world0 = some (0, fh0, { opened := [], errno := ENOENT }) ∧
    EISDIR ≠ EROFS ∧ ENOENT ≠ EROFS ∧
    (fhandler_registry_open demo_env virtual_open_ok 0 5 (cstr "/HKEY_LOCAL_MACHINE/SOFTWARE")
        O_WRONLY 0 fh0 world0).map (fun r => (r.1, r.2.2.errno)) = some (1, EROFS) := by
  decide

/-- C12 at the failing input: in the small store the sub-key `SOFTWARE` of
`HKEY_LOCAL_MACHINE` and its value `Version` exist, and `open` with flags
`O_CREAT | O_EXCL` returns 1 for both paths, with the key handle and the
bytes of the value; with `O_WRONLY` added it returns 1 as well, with errno
`EROFS`. For the mount root and for the root key the same flags give 0 and
`EEXIST`. -/
theorem open_exclusive_create_succeeds :
    (O_CREAT ||| O_EXCL) &&& (O_CREAT ||| O_EXCL) = O_CREAT ||| O_EXCL ∧
    (open_key value_env (cstr "HKEY_LOCAL_MACHINE/SOFTWARE") KEY_READ 0 false world0).1 = 100 ∧
    value_env.RegEnumValue 100 2 = (ERROR_SUCCESS, cstr "Version") ∧
    (fhandler_registry_open value_env virtual_open_ok 0 5 (cstr "/HKEY_LOCAL_MACHINE/SOFTWARE")
        (O_CREAT ||| O_EXCL) 0 fh0 world0).map
      (fun r => (r.1, r.2.1.io_handle, r.2.1.open_status)) = some (1, 100, true) ∧
    (fhandler_registry_open value_env virtual_open_ok 0 5
        (cstr "/HKEY_LOCAL_MACHINE/SOFTWARE/Version") (O_CREAT ||| O_EXCL) 0 fh0 world0).map
      (fun r => (r.1, r.2.1.io_handle, r.2.1.filebuf, r.2.1.filesize)) =
      some (1, 100, cstr "1.7", 3) ∧
    (fhandler_registry_open value_env virtual_open_ok 0 5 (cstr "/HKEY_LOCAL_MACHINE/SOFTWARE")
        (O_WRONLY ||| O_CREAT ||| O_EXCL) 0 fh0 world0).map
      (fun r => (r.1, r.2.2.errno)) = some (1, EROFS) ∧
    (fhandler_registry_open value_env virtual_open_ok 0 5 (cstr "/HKEY_LOCAL_MACHINE")
        (O_CREAT ||| O_EXCL) 0 fh0 world0).map
      (fun r => (r.1, r.2.2.errno)) = some (0, EEXIST) ∧
    (fhandler_registry_open value_env virtual_open_ok 0 5 []
        (O_CREAT ||| O_EXCL) 0 fh0 world0).map
      (fun r => (r.1, r.2.2.errno)) = some (0, EEXIST) := by
  decide

/-- C16 at the failing input: in the small store `SOFTWARE` opens under
`HKEY_LOCAL_MACHINE` with the handle 100 and has no sub-key `Missing`;
`open_key` on the path returns `INVALID_HANDLE_VALUE` and leaves the handle
100 open. So does the lookup of the value `Version` as a key. After a decode
error and after a value-only component the handle is closed. -/
theorem open_key_leaks_parent :
    demo_env.RegOpenKeyEx HKEY_LOCAL_MACHINE (cstr "SOFTWARE") KEY_READ = (ERROR_SUCCESS, 100) ∧
    (demo_env.RegOpenKeyEx 100 (cstr "Missing") KEY_READ).1 = ERROR_FILE_NOT_FOUND ∧
    open_key demo_env (cstr "HKEY_LOCAL_MACHINE/SOFTWARE/Missing") KEY_READ 0 false world0 =
      (INVALID_HANDLE_VALUE, { opened := [100], errno := ENOENT }) ∧
    open_key demo_env (cstr "HKEY_LOCAL_MACHINE/SOFTWARE/Version") KEY_READ 0 false world0 =
      (INVALID_HANDLE_VALUE, { opened := [100], errno := ENOENT }) ∧
    open_key demo_env (cstr "HKEY_LOCAL_MACHINE/SOFTWARE/a%zz") KEY_READ 0 false world0 =
      (INVALID_HANDLE_VALUE, { opened := [], errno := EINVAL }) ∧
    open_key demo_env (cstr "HKEY_LOCAL_MACHINE/SOFTWARE/Cygwin%val/x") KEY_READ 0 false world0 =
      (INVALID_HANDLE_VALUE, { opened := [], errno := ENOENT }) := by
  decide

/-! ## The key resolver on a component that carries the marker -/

/-- The decoding loop reads its source only through `src[3]`, and only when
the length is 4. -/
theorem decode_loop_src (src1 src2 : List Nat) (len : Nat)
    (h3 : len = 4 → at_ src1 3 = at_ src2 3) :
    ∀ (n : Nat) (rest : List Nat), rest.length ≤ n → ∀ (si : Nat) (dst : List Nat),
      decode_loop src1 len rest si dst = decode_loop src2 len rest si dst := by
  intro n
  induction n with
  | zero =>
    intro rest hn si dst
    have : rest = [] := List.length_eq_zero.1 (by omega)
    subst this
    rw [decode_loop.eq_def, decode_loop.eq_def]
  | succ n ih =>
    intro rest hn si dst
    match rest, hn with
    | [], _ => rw [decode_loop.eq_def, decode_loop.eq_def]
    | c :: rest, hn =>
      have hn' : rest.length ≤ n := by simpa using hn
      by_cases hc : c = 37
      · subst hc
        by_cases hm : si + 4 = len ∧ rest.take 3 = [118, 97, 108]
        · rw [decode_loop.eq_def, decode_loop.eq_def]
          simp only [if_true, if_pos hm]
        · by_cases hl : si + 2 ≥ len
          · rw [decode_loop.eq_def, decode_loop.eq_def]
            simp only [if_true, if_neg hm, if_pos hl]
          · match rest, hn', hm with
            | [], _, hm =>
              rw [decode_loop.eq_def, decode_loop.eq_def]
              simp only [if_true, if_neg hm, if_neg hl]
            | [h1], _, hm =>
              rw [decode_loop.eq_def, decode_loop.eq_def]
              simp only [if_true, if_neg hm, if_neg hl]
            | h1 :: h2 :: rest2, hn', hm =>
              rw [decode_loop_pct src1 len h1 h2 rest2 si dst hm hl,
                decode_loop_pct src2 len h1 h2 rest2 si dst hm hl]
              have e : (len == 3 || (at_ src1 3 == 46 && len == 4)) =
                  (len == 3 || (at_ src2 3 == 46 && len == 4)) := by
                by_cases h4 : len = 4
                · rw [h3 h4]
                · have : (len == 4) = false := by simpa using h4
                  rw [this]
                  simp
              rw [e, ih rest2 (by simp at hn'; omega)]
      · rw [decode_loop_plain src1 len c rest si dst hc,
          decode_loop_plain src2 len c rest si dst hc]
        exact ih rest hn' _ _

/-- Decoding the component at the front of a longer string is decoding the
component. -/
theorem decode_regname_len_front (c rest : List Nat) (hn : NulFree c) :
    decode_regname_len (c ++ rest) c.length = decode_regname c := by
  unfold decode_regname
  rw [strlen_of_nulFree c hn]
  unfold decode_regname_len
  rw [List.take_left, List.take_length]
  apply decode_loop_src _ _ _ _ c.length c (le_refl _)
  intro h4
  unfold at_
  rw [List.getD_eq_getElem?_getD, List.getD_eq_getElem?_getD,
    List.getElem?_append_left (by omega)]

/-- The length of the component at the front of a string. -/
theorem component_len_front (c rest : List Nat) (hc : ∀ x ∈ c, x ≠ 0 ∧ isdirsep x = false)
    (hr : at_ rest 0 = 0 ∨ isdirsep (at_ rest 0) = true) :
    component_len (c ++ rest) = c.length := by
  induction c with
  | nil =>
    match rest, hr with
    | [], _ => rfl
    | x :: rest, hr =>
      rw [at_cons_zero] at hr
      simp only [List.nil_append, component_len, List.length_nil]
      rw [if_pos hr]
  | cons a c ih =>
    have ha := hc a (List.mem_cons_self _ _)
    have ih' := ih (fun x hx => hc x (List.mem_cons_of_mem _ hx))
    show component_len (a :: (c ++ rest)) = c.length + 1
    rw [component_len, if_neg (by rw [ha.2]; simp [ha.1]), ih']

theorem at_append_zero (c rest : List Nat) (hc : c ≠ []) : at_ (c ++ rest) 0 = at_ c 0 := by
  match c, hc with
  | a :: c, _ => rfl

theorem component_at_zero (c : List Nat) (hc : Component c) : at_ c 0 ≠ 0 :=
  (hc.2 _ (at_mem c 0 (List.length_pos.2 hc.1))).1

theorem at_drop_one (l : List Nat) (i : Nat) : at_ (l.drop 1) i = at_ l (i + 1) := by
  match l with
  | [] => simp [at_]
  | a :: l => simp [at_cons_succ]

/-- A C string that holds a slash before any NUL has one for `strchr`. -/
theorem no_slash_front (pre post : List Nat) (hn : NulFree pre) :
    no_slash (pre ++ 47 :: post) = false := by
  have hlen : ∀ (pre : List Nat), NulFree pre → pre.length + 1 ≤ strlen (pre ++ 47 :: post) := by
    intro pre
    induction pre with
    | nil => intro _; simp [strlen]
    | cons a pre ih =>
      intro h
      have ha : a ≠ 0 := h a (List.mem_cons_self _ _)
      have := ih (nulFree_tail h)
      show (a :: pre).length + 1 ≤ strlen (a :: (pre ++ 47 :: post))
      rw [strlen, if_neg ha, List.length_cons]
      omega
  unfold no_slash
  have hmem : (47 : Nat) ∈ (pre ++ 47 :: post).take (strlen (pre ++ 47 :: post)) := by
    have h1 : (pre ++ [47]) <+: (pre ++ 47 :: post).take (strlen (pre ++ 47 :: post)) := by
      rw [List.prefix_take_iff]
      refine ⟨?_, ?_⟩
      · exact ⟨post, by simp⟩
      · simpa using hlen pre hn
    exact h1.subset (by simp)
  simp [hmem]

/-- One pass of the loop of `open_key` on a component that is followed by a
separator. -/
theorem open_key_loop_step (env : Env) (access wow64 : Nat) (isValue : Bool) (fuel : Nat)
    (c rest : List Nat) (hc : Component c) (hKey hParentKey : HKEY)
    (po : Bool) (w : World) :
    open_key_loop env access wow64 isValue (fuel + 1) (c ++ 47 :: rest) hKey hParentKey po w =
      if (decode_regname c).1 < 0 then
        (INVALID_HANDLE_VALUE,
          if po then RegCloseKey hParentKey (set_errno EINVAL w) else set_errno EINVAL w)
      else if at_ rest 0 = 0 ∧ isValue = true then (hKey, w)
      else if (decode_regname c).1 ≠ 0 then
        (INVALID_HANDLE_VALUE,
          if po then RegCloseKey hParentKey (set_errno ENOENT w) else set_errno ENOENT w)
      else if hParentKey ≠ INVALID_HANDLE_VALUE then
        if (open_child env hParentKey (decode_regname c).2
            ((if (no_slash rest = true ∧ isValue = true) ∨ at_ rest 0 = 0 then access
              else KEY_READ) ||| wow64)).1 ≠ ERROR_SUCCESS then
          (INVALID_HANDLE_VALUE, seterrno_from_win_error env
            (open_child env hParentKey (decode_regname c).2
              ((if (no_slash rest = true ∧ isValue = true) ∨ at_ rest 0 = 0 then access
                else KEY_READ) ||| wow64)).1 w)
        else
          open_key_loop env access wow64 isValue fuel rest
            (open_child env hParentKey (decode_regname c).2
              ((if (no_slash rest = true ∧ isValue = true) ∨ at_ rest 0 = 0 then access
                else KEY_READ) ||| wow64)).2
            (open_child env hParentKey (decode_regname c).2
              ((if (no_slash rest = true ∧ isValue = true) ∨ at_ rest 0 = 0 then access
                else KEY_READ) ||| wow64)).2
            true
            (if po then RegCloseKey hParentKey (note_open
              (open_child env hParentKey (decode_regname c).2
                ((if (no_slash rest = true ∧ isValue = true) ∨ at_ rest 0 = 0 then access
                  else KEY_READ) ||| wow64)).2 w)
             else note_open
              (open_child env hParentKey (decode_regname c).2
                ((if (no_slash rest = true ∧ isValue = true) ∨ at_ rest 0 = 0 then access
                  else KEY_READ) ||| wow64)).2 w)
      else if root_key_lookup (decode_regname c).2 hKey = INVALID_HANDLE_VALUE then
        (root_key_lookup (decode_regname c).2 hKey, w)
      else
        open_key_loop env access wow64 isValue fuel rest (root_key_lookup (decode_regname c).2 hKey)
          (root_key_lookup (decode_regname c).2 hKey) po w := by
  have h0 : ¬ (at_ (c ++ 47 :: rest) 0 = 0) := by
    rw [at_append_zero c _ hc.1]
    exact component_at_zero c hc
  have hlen : component_len (c ++ 47 :: rest) = c.length :=
    component_len_front c _ hc.2 (Or.inr (by rw [at_cons_zero]; decide))
  have hdec : decode_regname_len (c ++ 47 :: rest) c.length = decode_regname c :=
    decode_regname_len_front c _ (component_nulFree hc)
  have hdrop : (c ++ 47 :: rest).drop c.length = 47 :: rest := List.drop_left _ _
  have h47 : ¬ (at_ (47 :: rest) 0 = 0) := by rw [at_cons_zero]; omega
  rw [open_key_loop]
  simp only [h0, hlen, hdec, hdrop, h47, if_false, ne_eq, not_false_eq_true, if_true,
    List.drop_one, List.tail_cons, open_child]

/-- The pass of the loop of `open_key` on a component that carries the marker
and is not the last one, or is the last one of a key lookup: the lookup fails
with `ENOENT`. -/
theorem open_key_loop_marked (env : Env) (access wow64 : Nat) (isValue : Bool) (fuel : Nat)
    (marked tail : List Nat) (hm : Component marked) (hd : (decode_regname marked).1 = 1)
    (ht : at_ tail 0 = 0 ∨ at_ tail 0 = 47)
    (hlast : isValue = false ∨ (at_ tail 0 = 47 ∧ at_ tail 1 ≠ 0))
    (hKey hParentKey : HKEY) (po : Bool) (w : World) :
    open_key_loop env access wow64 isValue (fuel + 1) (marked ++ tail) hKey hParentKey po w =
      (INVALID_HANDLE_VALUE,
        if po then RegCloseKey hParentKey (set_errno ENOENT w) else set_errno ENOENT w) := by
  have h0 : ¬ (at_ (marked ++ tail) 0 = 0) := by
    rw [at_append_zero marked _ hm.1]
    exact component_at_zero marked hm
  have hlen : component_len (marked ++ tail) = marked.length :=
    component_len_front marked _ hm.2 (by
      rcases ht with h | h
      · exact Or.inl h
      · right; rw [h]; decide)
  have hdec : decode_regname_len (marked ++ tail) marked.length = decode_regname marked :=
    decode_regname_len_front marked _ (component_nulFree hm)
  have hdrop : (marked ++ tail).drop marked.length = tail := List.drop_left _ _
  have hnl : ¬ (at_ (if at_ tail 0 ≠ 0 then tail.drop 1 else tail) 0 = 0 ∧ isValue = true) := by
    rintro ⟨h1, h2⟩
    rcases hlast with h | ⟨h3, h4⟩
    · rw [h] at h2; exact absurd h2 (by decide)
    · rw [if_pos (by rw [h3]; decide), at_drop_one] at h1
      exact h4 h1
  rw [open_key_loop]
  simp only [h0, hlen, hdec, hdrop, hd, if_false]
  rw [if_neg (by decide), if_neg hnl, if_pos (by decide)]

theorem path_front_cons (c : List Nat) (cs : List (List Nat)) (x : List Nat) :
    path_front (c :: cs) ++ x = c ++ 47 :: (path_front cs ++ x) := by
  simp [path_front]

theorem path_front_length (c : List Nat) (cs : List (List Nat)) :
    (path_front (c :: cs)).length = c.length + 1 + (path_front cs).length := by
  simp [path_front]; omega

/-- The rest of a path in front of the marked component is not empty. -/
theorem front_at_zero (cs : List (List Nat)) (hc : ∀ c ∈ cs, Component c) (marked tail : List Nat)
    (hm : Component marked) : at_ (path_front cs ++ (marked ++ tail)) 0 ≠ 0 := by
  match cs, hc with
  | [], _ =>
    rw [path_front, List.nil_append, at_append_zero marked _ hm.1]
    exact component_at_zero marked hm
  | c :: cs, hc =>
    have h1 := hc c (List.mem_cons_self _ _)
    rw [path_front_cons, at_append_zero c _ h1.1]
    exact component_at_zero c h1

/-- Part of C19: the loop of `open_key` fails on every path in which a
component that carries the marker lies ahead, whatever the components in
front of it do. -/
theorem open_key_loop_fails (env : Env) (access wow64 : Nat) (isValue : Bool)
    (marked tail : List Nat) (hm : Component marked) (hd : (decode_regname marked).1 = 1)
    (ht : at_ tail 0 = 0 ∨ at_ tail 0 = 47)
    (hlast : isValue = false ∨ (at_ tail 0 = 47 ∧ at_ tail 1 ≠ 0)) :
    ∀ (comps : List (List Nat)), (∀ c ∈ comps, Component c) →
    ∀ (fuel : Nat) (hKey hParentKey : HKEY) (po : Bool) (w : World),
    (path_front comps).length < fuel →
    (open_key_loop env access wow64 isValue fuel (path_front comps ++ (marked ++ tail))
      hKey hParentKey po w).1 = INVALID_HANDLE_VALUE := by
  intro comps
  induction comps with
  | nil =>
    intro _ fuel hKey hParentKey po w hf
    obtain ⟨f, rfl⟩ : ∃ f, fuel = f + 1 := ⟨fuel - 1, by omega⟩
    rw [path_front, List.nil_append,
      open_key_loop_marked env access wow64 isValue f marked tail hm hd ht hlast]
  | cons c cs ih =>
    intro hc fuel hKey hParentKey po w hf
    obtain ⟨f, rfl⟩ : ∃ f, fuel = f + 1 := ⟨fuel - 1, by omega⟩
    have hcs : ∀ d ∈ cs, Component d := fun d hd => hc d (List.mem_cons_of_mem _ hd)
    have hr := front_at_zero cs hcs marked tail hm
    have hf' : (path_front cs).length < f := by
      rw [path_front_length] at hf; omega
    rw [path_front_cons, open_key_loop_step env access wow64 isValue f c _
      (hc c (List.mem_cons_self _ _))]
    generalize (if (no_slash (path_front cs ++ (marked ++ tail)) = true ∧ isValue = true) ∨
      at_ (path_front cs ++ (marked ++ tail)) 0 = 0 then access else KEY_READ) = ea
    by_cases h1 : (decode_regname c).1 < 0
    · rw [if_pos h1]
    · rw [if_neg h1, if_neg (fun h => hr h.1)]
      by_cases h2 : (decode_regname c).1 ≠ 0
      · rw [if_pos h2]
      · rw [if_neg h2]
        by_cases h3 : hParentKey ≠ INVALID_HANDLE_VALUE
        · rw [if_pos h3]
          by_cases h4 : (open_child env hParentKey (decode_regname c).2
              (ea ||| wow64)).1 ≠ ERROR_SUCCESS
          · rw [if_pos h4]
          · rw [if_neg h4]
            exact ih hcs f _ _ _ _ hf'
        · rw [if_neg h3]
          by_cases h5 : root_key_lookup (decode_regname c).2 hKey = INVALID_HANDLE_VALUE
          · rw [if_pos h5]
            exact h5
          · rw [if_neg h5]
            exact ih hcs f _ _ _ _ hf'

theorem errno_close (po : Bool) (h : HKEY) (e : Int) (w : World) :
    (if po then RegCloseKey h (set_errno e w) else set_errno e w).errno = e := by
  cases po <;> rfl

/-- Part of C19: when the components in front of the marked one resolve, the
loop of `open_key` reaches the marked component and fails with `ENOENT`. -/
theorem open_key_loop_enoent (env : Env) (access wow64 : Nat) (isValue : Bool)
    (marked tail : List Nat) (hm : Component marked) (hd : (decode_regname marked).1 = 1)
    (ht : at_ tail 0 = 0 ∨ at_ tail 0 = 47)
    (hlast : isValue = false ∨ (at_ tail 0 = 47 ∧ at_ tail 1 ≠ 0)) :
    ∀ (comps : List (List Nat)), (∀ c ∈ comps, Component c) →
    ∀ (fuel1 fuel2 : Nat) (hKey hParentKey : HKEY) (po : Bool) (w : World),
    (path_front comps).length < fuel1 → (path_front comps).length < fuel2 →
    (comps = [] ∨ (open_key_loop env KEY_READ wow64 false fuel1 (path_front comps)
      hKey hParentKey po w).1 ≠ INVALID_HANDLE_VALUE) →
    (open_key_loop env access wow64 isValue fuel2 (path_front comps ++ (marked ++ tail))
      hKey hParentKey po w).2.errno = ENOENT := by
  intro comps
  induction comps with
  | nil =>
    intro _ fuel1 fuel2 hKey hParentKey po w _ hf _
    obtain ⟨f, rfl⟩ : ∃ f, fuel2 = f + 1 := ⟨fuel2 - 1, by omega⟩
    rw [path_front, List.nil_append,
      open_key_loop_marked env access wow64 isValue f marked tail hm hd ht hlast]
    exact errno_close _ _ _ _
  | cons c cs ih =>
    intro hc fuel1 fuel2 hKey hParentKey po w hf1 hf2 hA
    obtain ⟨f1, rfl⟩ : ∃ f, fuel1 = f + 1 := ⟨fuel1 - 1, by omega⟩
    obtain ⟨f2, rfl⟩ : ∃ f, fuel2 = f + 1 := ⟨fuel2 - 1, by omega⟩
    have hcc := hc c (List.mem_cons_self _ _)
    have hcs : ∀ d ∈ cs, Component d := fun d hd => hc d (List.mem_cons_of_mem _ hd)
    have hr := front_at_zero cs hcs marked tail hm
    have hf1' : (path_front cs).length < f1 := by
      rw [path_front_length] at hf1; omega
    have hf2' : (path_front cs).length < f2 := by
      rw [path_front_length] at hf2; omega
    have hns : ¬ (no_slash (path_front cs ++ (marked ++ tail)) = true ∧ isValue = true) := by
      rintro ⟨h1, h2⟩
      have hslash : no_slash (path_front cs ++ (marked ++ tail)) = false := by
        match cs, hcs with
        | [], _ =>
          rcases hlast with h | ⟨h3, _⟩
          · rw [h] at h2; exact absurd h2 (by decide)
          · match tail, h3 with
            | x :: tail, h3 =>
              rw [at_cons_zero] at h3
              subst h3
              rw [path_front, List.nil_append]
              exact no_slash_front marked tail (component_nulFree hm)
        | d :: ds, hcs =>
          rw [path_front_cons]
          exact no_slash_front d _ (component_nulFree (hcs d (List.mem_cons_self _ _)))
      rw [hslash] at h1
      exact absurd h1 (by decide)
    have hA' := hA.resolve_left (by simp)
    have e1 : path_front (c :: cs) = c ++ 47 :: path_front cs := by simp [path_front]
    rw [e1, open_key_loop_step env KEY_READ wow64 false f1 c _ hcc] at hA'
    rw [path_front_cons, open_key_loop_step env access wow64 isValue f2 c _ hcc]
    simp only [Bool.false_eq_true, and_false, false_or, if_false, ite_self] at hA'
    simp only [hr, false_and, if_false, hns, or_self]
    by_cases h1 : (decode_regname c).1 < 0
    · rw [if_pos h1] at hA'; exact absurd rfl hA'
    · rw [if_neg h1] at hA' ⊢
      by_cases h2 : (decode_regname c).1 ≠ 0
      · rw [if_pos h2] at hA'; exact absurd rfl hA'
      · rw [if_neg h2] at hA' ⊢
        by_cases h3 : hParentKey ≠ INVALID_HANDLE_VALUE
        · rw [if_pos h3] at hA' ⊢
          by_cases h4 : (open_child env hParentKey (decode_regname c).2
              (KEY_READ ||| wow64)).1 ≠ ERROR_SUCCESS
          · rw [if_pos h4] at hA'; exact absurd rfl hA'
          · rw [if_neg h4] at hA' ⊢
            exact ih hcs f1 f2 _ _ _ _ hf1' hf2' (Or.inr hA')
        · rw [if_neg h3] at hA' ⊢
          by_cases h5 : root_key_lookup (decode_regname c).2 hKey = INVALID_HANDLE_VALUE
          · rw [if_pos h5] at hA'; exact absurd h5 hA'
          · rw [if_neg h5] at hA' ⊢
            exact ih hcs f1 f2 _ _ _ _ hf1' hf2' (Or.inr hA')

theorem strlen_append_ge (pre x : List Nat) (hn : NulFree pre) :
    pre.length ≤ strlen (pre ++ x) := by
  induction pre with
  | nil => exact Nat.zero_le _
  | cons a pre ih =>
    have ha : a ≠ 0 := hn a (List.mem_cons_self _ _)
    have := ih (nulFree_tail hn)
    show (a :: pre).length ≤ strlen (a :: (pre ++ x))
    rw [strlen, if_neg ha, List.length_cons]
    omega

/-- C19, as amended: a value cannot have children. For every path in which a
component that carries the marker (it decodes with the value-only hint) is
not the last one, `open_key` returns `INVALID_HANDLE_VALUE` for both values of
`isValue`, and a last component that carries the marker makes `open_key` fail
when `isValue` is false; errno is `ENOENT` when there is no component in front
of the marked one or the components in front of it resolve to a key. The path
is given by the components `comps` in front, each followed by `/`, the marked
component, and the rest `tail`, which is empty or starts with `/`. -/
theorem open_key_marked_component (env : Env) (access wow64 : Nat) (isValue : Bool) (w : World)
    (comps : List (List Nat)) (marked tail : List Nat)
    (hc : ∀ c ∈ comps, Component c) (hm : Component marked)
    (hd : (decode_regname marked).1 = 1)
    (ht : at_ tail 0 = 0 ∨ at_ tail 0 = 47)
    (hlast : isValue = false ∨ (at_ tail 0 = 47 ∧ at_ tail 1 ≠ 0)) :
    (open_key env (path_front comps ++ (marked ++ tail)) access wow64 isValue w).1 =
      INVALID_HANDLE_VALUE ∧
    ((comps = [] ∨
        (open_key env (path_front comps) KEY_READ wow64 false w).1 ≠ INVALID_HANDLE_VALUE) →
      (open_key env (path_front comps ++ (marked ++ tail)) access wow64 isValue w).2.errno =
        ENOENT) := by
  have hn := nulFree_path_front comps hc
  have hf2 : (path_front comps).length < strlen (path_front comps ++ (marked ++ tail)) + 1 := by
    have := strlen_append_ge (path_front comps) (marked ++ tail) hn
    omega
  have hf1 : (path_front comps).length < strlen (path_front comps) + 1 := by
    rw [strlen_of_nulFree _ hn]; omega
  unfold open_key
  exact ⟨open_key_loop_fails env access wow64 isValue marked tail hm hd ht hlast comps hc _ _ _ _
      _ hf2,
    open_key_loop_enoent env access wow64 isValue marked tail hm hd ht hlast comps hc _ _ _ _ _
      _ hf1 hf2⟩

/-- Witness of the amended C19: in the small store, the path
`HKEY_LOCAL_MACHINE/SOFTWARE/Cygwin%val/x` looked up as a value. -/
theorem open_key_marked_component_witness :
    (open_key demo_env (cstr "HKEY_LOCAL_MACHINE/SOFTWARE/") KEY_READ 0 false world0).1 = 100 ∧
    (open_key demo_env
        (path_front [cstr "HKEY_LOCAL_MACHINE", cstr "SOFTWARE"] ++
          (cstr "Cygwin%val" ++ cstr "/x")) KEY_READ 0 true world0).1 = INVALID_HANDLE_VALUE ∧
    (([cstr "HKEY_LOCAL_MACHINE", cstr "SOFTWARE"] = [] ∨
        (open_key demo_env (path_front [cstr "HKEY_LOCAL_MACHINE", cstr "SOFTWARE"]) KEY_READ 0
          false world0).1 ≠ INVALID_HANDLE_VALUE) →
      (open_key demo_env
        (path_front [cstr "HKEY_LOCAL_MACHINE", cstr "SOFTWARE"] ++
          (cstr "Cygwin%val" ++ cstr "/x")) KEY_READ 0 true world0).2.errno = ENOENT) :=
  ⟨by decide,
    open_key_marked_component demo_env KEY_READ 0 true world0
      [cstr "HKEY_LOCAL_MACHINE", cstr "SOFTWARE"] (cstr "Cygwin%val") (cstr "/x")
      (by decide) (by decide) (by decide) (by decide) (by decide)⟩

/-- C19 as stated fails: the component `SOFTWARE%val` carries the marker and
is not the last one, and `open_key` fails with errno `EINVAL` when the
component in front of it does not decode, and leaves errno as it was (0) when
the component in front of it is no root key; neither is `ENOENT`. -/
theorem open_key_marked_not_enoent :
    decode_regname (cstr "SOFTWARE%val") = (1, cstr "SOFTWARE") ∧
    open_key demo_env (cstr "%zz/SOFTWARE%val/Cygwin") KEY_READ 0 false world0 =
      (INVALID_HANDLE_VALUE, { opened := [], errno := EINVAL }) ∧
    open_key demo_env (cstr "%zz/SOFTWARE%val/Cygwin") KEY_READ 0 true world0 =
      (INVALID_HANDLE_VALUE, { opened := [], errno := EINVAL }) ∧
    open_key demo_env (cstr "bogus/SOFTWARE%val/Cygwin") KEY_READ 0 false world0 =
      (INVALID_HANDLE_VALUE, { opened := [], errno := 0 }) ∧
    EINVAL ≠ ENOENT ∧ (0 : Int) ≠ ENOENT := by
  decide

/-! ## Rewinding a directory -/

/-- The handle `open_key` finds does not depend on the process state. -/
theorem open_key_loop_handle (env : Env) (access wow64 : Nat) (isValue : Bool) :
    ∀ (fuel : Nat) (name : List Nat) (hKey hParentKey : HKEY) (po : Bool) (w1 w2 : World),
      (open_key_loop env access wow64 isValue fuel name hKey hParentKey po w1).1 =
        (open_key_loop env access wow64 isValue fuel name hKey hParentKey po w2).1 := by
  intro fuel
  induction fuel with
  | zero => intro name hKey hParentKey po w1 w2; rfl
  | succ f ih =>
    intro name hKey hParentKey po w1 w2
    rw [open_key_loop, open_key_loop]
    split
    · rfl
    · dsimp only
      generalize component_len name = n
      generalize decode_regname_len name n = val_only
      generalize (if at_ (List.drop n name) 0 ≠ 0 then List.drop 1 (List.drop n name)
        else List.drop n name) = name1
      generalize (if no_slash name1 = true ∧ isValue = true ∨ at_ name1 0 = 0 then access
        else KEY_READ) = ea
      generalize (if (env.RegOpenKeyEx hParentKey val_only.2 (ea ||| wow64)).1 =
          ERROR_ACCESS_DENIED then env.RegCreateKeyEx hParentKey val_only.2 (ea ||| wow64)
        else env.RegOpenKeyEx hParentKey val_only.2 (ea ||| wow64)) = r
      by_cases h1 : val_only.1 < 0
      · rw [if_pos h1, if_pos h1]
      · rw [if_neg h1, if_neg h1]
        by_cases h2 : at_ name1 0 = 0 ∧ isValue = true
        · rw [if_pos h2, if_pos h2]
        · rw [if_neg h2, if_neg h2]
          by_cases h3 : val_only.1 ≠ 0
          · rw [if_pos h3, if_pos h3]
          · rw [if_neg h3, if_neg h3]
            by_cases h4 : hParentKey ≠ INVALID_HANDLE_VALUE
            · rw [if_pos h4, if_pos h4]
              by_cases h5 : r.1 ≠ ERROR_SUCCESS
              · rw [if_pos h5, if_pos h5]
              · rw [if_neg h5, if_neg h5]
                exact ih _ _ _ _ _ _
            · rw [if_neg h4, if_neg h4]
              by_cases h6 : root_key_lookup val_only.2 hKey = INVALID_HANDLE_VALUE
              · rw [if_pos h6, if_pos h6]
              · rw [if_neg h6, if_neg h6]
                exact ih _ _ _ _ _ _

theorem open_key_handle (env : Env) (name : List Nat) (access wow64 : Nat) (isValue : Bool)
    (w1 w2 : World) :
    (open_key env name access wow64 isValue w1).1 =
      (open_key env name access wow64 isValue w2).1 :=
  open_key_loop_handle env access wow64 isValue _ _ _ _ _ _ _

theorem key_exists_fst (env : Env) (parent : HKEY) (name : List Nat) (wow64 : Nat)
    (w1 w2 : World) :
    (key_exists env parent name wow64 w1).1 = (key_exists env parent name wow64 w2).1 := rfl

/-- What the part of `readdir` after the label `retry` shows and leaves does
not depend on the flags of the directory or on the process state. -/
theorem readdir_retry_cursor (env : Env) (wow64 : Nat) :
    ∀ (fuel pos : Nat) (h : HKEY) (H : __DIR_hash) (F1 F2 : Nat) (de : dirent) (w1 w2 : World),
      (readdir_retry env wow64 fuel
          { __d_position := pos, __handle := h, __d_internal := H, __flags := F1 } de w1).map
          ReaddirResult.cursor =
        (readdir_retry env wow64 fuel
          { __d_position := pos, __handle := h, __d_internal := H, __flags := F2 } de w2).map
          ReaddirResult.cursor := by
  intro fuel
  induction fuel with
  | zero => intro pos h H F1 F2 de w1 w2; rfl
  | succ f ih =>
    intro pos h H F1 F2 de w1 w2
    rw [readdir_retry, readdir_retry]
    dsimp only
    generalize (if pos &&& REG_ENUM_VALUES_MASK ≠ 0 then
        env.RegEnumValue h ((pos &&& NOT_REG_ENUM_VALUES_MASK) >>> 16)
      else env.RegEnumKeyEx h (pos - SPECIAL_DOT_FILE_COUNT)) = r
    generalize (if (pos + 1) &&& REG_ENUM_VALUES_MASK ≠ 0 then pos + 1 + 65536 else pos + 1) = pos1
    by_cases h1 : r.1 = ERROR_NO_MORE_ITEMS ∧ pos &&& REG_ENUM_VALUES_MASK = 0
    · rw [if_pos h1, if_pos h1]
      exact ih _ _ _ _ _ _ _ _
    · rw [if_neg h1, if_neg h1]
      by_cases h2 : r.1 ≠ ERROR_SUCCESS ∧ r.1 ≠ ERROR_MORE_DATA
      · rw [if_pos h2, if_pos h2]
        rfl
      · rw [if_neg h2, if_neg h2]
        by_cases h3 : at_ r.2 0 = 0
        · rw [if_pos h3, if_pos h3]
          rfl
        · rw [if_neg h3, if_neg h3]
          by_cases h4 : pos1 &&& REG_ENUM_VALUES_MASK = 0
          · simp only [if_pos h4]
            split
            · exact ih _ _ _ _ _ _ _ _
            · rfl
          · simp only [if_neg h4]
            by_cases h5 : H.is_set (env.hash_path_name 1 r.2) = true
            · simp only [if_pos h5, key_exists_fst env h r.2 wow64 w1 w2]
              split
              · exact ih _ _ _ _ _ _ _ _
              · rfl
            · simp only [if_neg h5]
              split
              · exact ih _ _ _ _ _ _ _ _
              · rfl

theorem alike_of_cursor (o1 o2 : Option ReaddirResult)
    (h : o1.map ReaddirResult.cursor = o2.map ReaddirResult.cursor) : alike_results o1 o2 := by
  match o1, o2, h with
  | none, none, _ => trivial
  | some r1, some r2, h =>
    simp only [Option.map_some', Option.some.injEq, ReaddirResult.cursor, Prod.mk.injEq] at h
    exact ⟨h.1, h.2.2.2.2, h.2.1, h.2.2.1, fun _ => h.2.2.2.1⟩
  | none, some _, h => simp at h
  | some _, none, h => simp at h

/-- From two directory states that list alike, a call of `readdir` with the
same entry buffer shows the same and leaves states that list alike, whatever
the flags and the process state. -/
theorem readdir_alike (env : Env) (wow64 fuel : Nat) (path : List Nat) (d1 d2 : DIR)
    (de : dirent) (w1 w2 : World) (ha : DIR.alike d1 d2) :
    alike_results (readdir env wow64 fuel path d1 de w1) (readdir env wow64 fuel path d2 de w2) := by
  obtain ⟨p, h, H1, F1⟩ := d1
  obtain ⟨p2, h2, H2, F2⟩ := d2
  obtain ⟨hp, hh, hH⟩ := ha
  simp only at hp hh hH
  subst hp hh
  by_cases hroot : at_ path 0 = 0
  · rw [readdir_root env wow64 fuel path _ de w1 hroot,
      readdir_root env wow64 fuel path _ de w2 hroot]
    dsimp only
    split
    · exact ⟨rfl, rfl, rfl, rfl, hH⟩
    · exact ⟨rfl, rfl, rfl, rfl, hH⟩
  · by_cases hinv : h = INVALID_HANDLE_VALUE
    · subst hinv
      by_cases hp0 : p = 0
      · subst hp0
        have ho := open_key_handle env (path.drop 1) KEY_READ wow64 false w1 w2
        unfold readdir
        simp only [hroot, if_false, if_true, ne_eq, not_true_eq_false]
        rw [← ho]
        by_cases hk : (open_key env (path.drop 1) KEY_READ wow64 false w1).1 =
            INVALID_HANDLE_VALUE
        · simp only [hk, if_true]
          exact ⟨rfl, rfl, rfl, rfl, fun h => absurd rfl h⟩
        · simp only [hk, if_false]
          exact ⟨rfl, rfl, rfl, rfl, fun _ => rfl⟩
      · unfold readdir
        simp only [hroot, if_false, if_true, ne_eq, hp0, not_false_eq_true]
        exact ⟨rfl, rfl, rfl, rfl, fun h => absurd rfl h⟩
    · have hH' : H1 = H2 := hH hinv
      subst hH'
      by_cases hdot : p < SPECIAL_DOT_FILE_COUNT
      · unfold readdir
        simp only [hroot, if_false, hinv, hdot, if_true]
        exact ⟨rfl, rfl, rfl, rfl, fun _ => rfl⟩
      · unfold readdir
        simp only [hroot, if_false, hinv, hdot]
        exact alike_of_cursor _ _ (readdir_retry_cursor env wow64 fuel p h H1 _ _ de w1 w2)

/-- Runs of calls from two directory states that list alike show the same. -/
theorem readdir_n_alike (env : Env) (wow64 fuel : Nat) (path : List Nat) :
    ∀ (k : Nat) (d1 d2 : DIR) (de : dirent) (w1 w2 : World), DIR.alike d1 d2 →
      (readdir_n env wow64 fuel path k d1 de w1).map (fun rs => rs.map ReaddirResult.seen) =
        (readdir_n env wow64 fuel path k d2 de w2).map (fun rs => rs.map ReaddirResult.seen) := by
  intro k
  induction k with
  | zero => intro d1 d2 de w1 w2 _; rfl
  | succ k ih =>
    intro d1 d2 de w1 w2 ha
    have hcall := readdir_alike env wow64 fuel path d1 d2 de w1 w2 ha
    rw [readdir_n, readdir_n]
    cases h1 : readdir env wow64 fuel path d1 de w1 with
    | none =>
      cases h2 : readdir env wow64 fuel path d2 de w2 with
      | none => rfl
      | some r2 => rw [h1, h2] at hcall; exact absurd hcall (by simp [alike_results])
    | some r1 =>
      cases h2 : readdir env wow64 fuel path d2 de w2 with
      | none => rw [h1, h2] at hcall; exact absurd hcall (by simp [alike_results])
      | some r2 =>
        rw [h1, h2] at hcall
        obtain ⟨hres, hde, hdir⟩ := hcall
        have hrest := ih r1.dir r2.dir r1.de r1.w r2.w hdir
        rw [hde] at hrest
        have hseen : r1.seen = r2.seen := by
          simp only [ReaddirResult.seen, hres, hde]
        dsimp only
        cases h3 : readdir_n env wow64 fuel path k r1.dir r2.de r1.w with
        | none =>
          rw [h3] at hrest
          cases h4 : readdir_n env wow64 fuel path k r2.dir r2.de r2.w with
          | none => rw [hde, h3]
          | some l2 => rw [h4] at hrest; simp at hrest
        | some l1 =>
          rw [h3] at hrest
          cases h4 : readdir_n env wow64 fuel path k r2.dir r2.de r2.w with
          | none => rw [h4] at hrest; simp at hrest
          | some l2 =>
            rw [h4] at hrest
            simp only [Option.map_some', Option.some.injEq] at hrest
            rw [hde, h3]
            simp only [Option.map_some', List.map_cons, hseen, hrest]

/-- C20: rewind replays the listing. For every directory, root or not, and
every state `dir` of its cursor, the exhausted state included, after
`rewinddir` the position is 0 and no key handle is held (the handle the
directory held has been closed), and for every number of calls the sequence
of entries returned by the subsequent `readdir` calls, over an unchanged
store, is the sequence returned from a freshly opened directory on the same
path, a directory at position 0 that holds no key handle. -/
theorem rewinddir_replays (env : Env) (wow64 fuel : Nat) (path : List Nat) (dir fresh : DIR)
    (de : dirent) (w w0 : World) (k : Nat)
    (hf0 : fresh.__d_position = 0) (hf1 : fresh.__handle = INVALID_HANDLE_VALUE) :
    (rewinddir dir w).1.__d_position = 0 ∧
    (rewinddir dir w).1.__handle = INVALID_HANDLE_VALUE ∧
    (rewinddir dir w).2 =
      (if dir.__handle ≠ INVALID_HANDLE_VALUE then RegCloseKey dir.__handle w else w) ∧
    (readdir_n env wow64 fuel path k (rewinddir dir w).1 de (rewinddir dir w).2).map
        (fun rs => rs.map ReaddirResult.seen) =
      (readdir_n env wow64 fuel path k fresh de w0).map
        (fun rs => rs.map ReaddirResult.seen) := by
  have h1 : (rewinddir dir w).1.__d_position = 0 := rfl
  have h2 : (rewinddir dir w).1.__handle = INVALID_HANDLE_VALUE := by
    unfold rewinddir
    dsimp only
    split
    · rfl
    · rename_i h
      simpa using h
  have h3 : (rewinddir dir w).2 =
      (if dir.__handle ≠ INVALID_HANDLE_VALUE then RegCloseKey dir.__handle w else w) := by
    unfold rewinddir
    dsimp only
    split <;> rfl
  refine ⟨h1, h2, h3, ?_⟩
  apply readdir_n_alike
  refine ⟨by rw [h1, hf0], by rw [h2, hf1], fun h => absurd h2 h⟩

/-- Witness of C20: the directory of the key `SOFTWARE` of the small store,
rewound after four calls, and seven calls after the rewind. -/
theorem rewinddir_replays_witness :
    (readdir_n demo_env 0 2 (cstr "/HKEY_LOCAL_MACHINE/SOFTWARE") 4 opendir dirent0 world0).map
        (fun rs => rs.map (fun r => (r.dir.__d_position, r.dir.__handle))) =
      some [(1, 100), (2, 100), (3, 100), (values_position 1 1, 100)] ∧
    (rewinddir
      { __d_position := values_position 1 1, __handle := 100, __d_internal := __DIR_hash.new,
        __flags := 3 } { opened := [100], errno := 0 }).1.__d_position = 0 ∧
    (rewinddir
      { __d_position := values_position 1 1, __handle := 100, __d_internal := __DIR_hash.new,
        __flags := 3 } { opened := [100], errno := 0 }).1.__handle = INVALID_HANDLE_VALUE ∧
    (rewinddir
      { __d_position := values_position 1 1, __handle := 100, __d_internal := __DIR_hash.new,
        __flags := 3 } { opened := [100], errno := 0 }).2 =
      (if (100 : HKEY) ≠ INVALID_HANDLE_VALUE then
        RegCloseKey 100 { opened := [100], errno := 0 } else { opened := [100], errno := 0 }) ∧
    (readdir_n demo_env 0 2 (cstr "/HKEY_LOCAL_MACHINE/SOFTWARE") 7
        (rewinddir
          { __d_position := values_position 1 1, __handle := 100,
            __d_internal := __DIR_hash.new, __flags := 3 } { opened := [100], errno := 0 }).1
        dirent0
        (rewinddir
          { __d_position := values_position 1 1, __handle := 100,
            __d_internal := __DIR_hash.new, __flags := 3 } { opened := [100], errno := 0 }).2).map
        (fun rs => rs.map ReaddirResult.seen) =
      (readdir_n demo_env 0 2 (cstr "/HKEY_LOCAL_MACHINE/SOFTWARE") 7 opendir dirent0
        world0).map (fun rs => rs.map ReaddirResult.seen) :=
  ⟨by decide,
    rewinddir_replays demo_env 0 2 (cstr "/HKEY_LOCAL_MACHINE/SOFTWARE")
      { __d_position := values_position 1 1, __handle := 100, __d_internal := __DIR_hash.new,
        __flags := 3 } opendir dirent0 { opened := [100], errno := 0 } world0 7
      (by decide) (by decide)⟩

/-! ## Passes of readdir on any host -/

/-- A pass of the sub-keys phase that finds no more sub-keys sets the flag bit
and starts again. -/
theorem readdir_retry_pass_switch (env : Env) (wow64 f pos : Nat) (h : HKEY) (H : __DIR_hash)
    (F : Nat) (de : dirent) (w : World) (hm : pos &&& REG_ENUM_VALUES_MASK = 0)
    (hk : (env.RegEnumKeyEx h (pos - SPECIAL_DOT_FILE_COUNT)).1 = ERROR_NO_MORE_ITEMS) :
    readdir_retry env wow64 (f + 1)
        { __d_position := pos, __handle := h, __d_internal := H, __flags := F } de w =
      readdir_retry env wow64 f
        { __d_position := pos ||| REG_ENUM_VALUES_MASK, __handle := h, __d_internal := H,
          __flags := F } de w := by
  have hr : (if pos &&& REG_ENUM_VALUES_MASK ≠ 0 then
        env.RegEnumValue h ((pos &&& NOT_REG_ENUM_VALUES_MASK) >>> 16)
      else env.RegEnumKeyEx h (pos - SPECIAL_DOT_FILE_COUNT)) =
      env.RegEnumKeyEx h (pos - SPECIAL_DOT_FILE_COUNT) := if_neg (fun h => h hm)
  rw [readdir_retry]
  dsimp only
  rw [hr, if_pos ⟨hk, hm⟩]

/-- A pass of the values phase that finds no more values closes the key and
reports the end of the directory. -/
theorem readdir_retry_pass_end (env : Env) (wow64 f pos : Nat) (h : HKEY) (H : __DIR_hash)
    (F : Nat) (de : dirent) (w : World) (hm : pos &&& REG_ENUM_VALUES_MASK ≠ 0)
    (hv : (env.RegEnumValue h ((pos &&& NOT_REG_ENUM_VALUES_MASK) >>> 16)).1 =
      ERROR_NO_MORE_ITEMS) :
    readdir_retry env wow64 (f + 1)
        { __d_position := pos, __handle := h, __d_internal := H, __flags := F } de w =
      some { res := ENMFILE,
             dir := { __d_position := pos, __handle := INVALID_HANDLE_VALUE, __d_internal := H,
                      __flags := F },
             de := de, w := RegCloseKey h w } := by
  have hr : (if pos &&& REG_ENUM_VALUES_MASK ≠ 0 then
        env.RegEnumValue h ((pos &&& NOT_REG_ENUM_VALUES_MASK) >>> 16)
      else env.RegEnumKeyEx h (pos - SPECIAL_DOT_FILE_COUNT)) =
      env.RegEnumValue h ((pos &&& NOT_REG_ENUM_VALUES_MASK) >>> 16) := if_pos hm
  rw [readdir_retry]
  dsimp only
  rw [hr, if_neg (fun h => hm h.2), hv, if_pos (by decide), if_neg (by decide)]

/-- A pass that gets a name from the host moves the position on and either
lists an entry or, when the name does not encode, starts again. -/
theorem readdir_retry_pass_entry (env : Env) (wow64 f pos : Nat) (h : HKEY) (H : __DIR_hash)
    (F : Nat) (de : dirent) (w : World) (buf : List Nat)
    (hr : (if pos &&& REG_ENUM_VALUES_MASK ≠ 0 then
        env.RegEnumValue h ((pos &&& NOT_REG_ENUM_VALUES_MASK) >>> 16)
      else env.RegEnumKeyEx h (pos - SPECIAL_DOT_FILE_COUNT)) = (ERROR_SUCCESS, buf)) :
    ∃ H1 : __DIR_hash,
      (∃ de1 : dirent,
        readdir_retry env wow64 (f + 1)
            { __d_position := pos, __handle := h, __d_internal := H, __flags := F } de w =
          some { res := 0,
                 dir := { __d_position :=
                            if (pos + 1) &&& REG_ENUM_VALUES_MASK ≠ 0 then pos + 1 + 65536
                            else pos + 1,
                          __handle := h, __d_internal := H1, __flags := F },
                 de := de1, w := w }) ∨
      readdir_retry env wow64 (f + 1)
          { __d_position := pos, __handle := h, __d_internal := H, __flags := F } de w =
        readdir_retry env wow64 f
          { __d_position :=
              if (pos + 1) &&& REG_ENUM_VALUES_MASK ≠ 0 then pos + 1 + 65536 else pos + 1,
            __handle := h, __d_internal := H1, __flags := F } de w := by
  rw [readdir_retry]
  dsimp only
  rw [hr]
  dsimp only
  generalize (if (pos + 1) &&& REG_ENUM_VALUES_MASK ≠ 0 then pos + 1 + 65536 else pos + 1) = pos1
  rw [if_neg (fun h => absurd h.1 (by decide)), if_neg (fun h => h.1 rfl)]
  by_cases h3 : at_ buf 0 = 0
  · rw [if_pos h3]
    exact ⟨H, Or.inl ⟨_, rfl⟩⟩
  · rw [if_neg h3]
    by_cases h4 : pos1 &&& REG_ENUM_VALUES_MASK = 0
    · simp only [if_pos h4]
      split
      · exact ⟨_, Or.inr rfl⟩
      · exact ⟨_, Or.inl ⟨_, rfl⟩⟩
    · simp only [if_neg h4]
      by_cases h5 : H.is_set (env.hash_path_name 1 buf) = true
      · simp only [if_pos h5, key_exists_world]
        split
        · exact ⟨_, Or.inr rfl⟩
        · exact ⟨_, Or.inl ⟨_, rfl⟩⟩
      · simp only [if_neg h5]
        split
        · exact ⟨_, Or.inr rfl⟩
        · exact ⟨_, Or.inl ⟨_, rfl⟩⟩

/-! ## Arithmetic of the position, without bounds -/

theorem and_thirty (y : Nat) (hy : y < 32) : y &&& 30 = y - y % 2 := by
  revert y
  decide

theorem mask_ne_zero_iff (pos : Nat) :
    pos &&& REG_ENUM_VALUES_MASK ≠ 0 ↔ pos / 134217728 % 2 = 1 := by
  rw [and_values_mask]
  have e : (2 : Nat) ^ 27 = 134217728 := by norm_num
  rw [e]
  constructor
  · intro h
    by_contra hc
    rw [if_neg hc] at h
    exact h rfl
  · intro h
    rw [if_pos h]
    decide

theorem mask_eq_zero_iff (pos : Nat) :
    pos &&& REG_ENUM_VALUES_MASK = 0 ↔ pos / 134217728 % 2 = 0 := by
  have := mask_ne_zero_iff pos
  constructor
  · intro h
    by_contra hc
    have h1 : pos / 134217728 % 2 = 1 := by omega
    exact (this.2 h1) h
  · intro h
    by_contra hc
    have := this.1 hc
    omega

theorem or_two_pow_27 (a b : Nat) (hb : b < 2 ^ 27) :
    (2 ^ 28 * a + b) ||| 2 ^ 27 = 2 ^ 28 * a + b + 2 ^ 27 := by
  have e1 := Nat.mul_add_lt_is_or hb 1
  have e2 := Nat.mul_add_lt_is_or (show b + 2 ^ 27 < 2 ^ 28 by omega) a
  have e3 := Nat.mul_add_lt_is_or (show b < 2 ^ 28 by omega) a
  simp only [Nat.mul_one] at e1
  rw [Nat.add_assoc, e2, e3, Nat.or_assoc]
  congr 1
  rw [Nat.add_comm b, e1, Nat.or_comm]

/-- Setting the flag bit of a position in which it is clear. -/
theorem or_values_mask_clear (pos : Nat) (h : pos / 134217728 % 2 = 0) :
    pos ||| REG_ENUM_VALUES_MASK = pos + 134217728 := by
  have hM : REG_ENUM_VALUES_MASK = 2 ^ 27 := by decide
  have e27 : (2 : Nat) ^ 27 = 134217728 := by norm_num
  have e28 : (2 : Nat) ^ 28 = 268435456 := by norm_num
  have key := or_two_pow_27 (pos / 268435456) (pos % 134217728) (by omega)
  have hx : 2 ^ 28 * (pos / 268435456) + pos % 134217728 = pos := by omega
  rw [hx] at key
  rw [hM, key]
  omega

/-- The value index held by a position below 2^32: the bits from bit 16
upwards without the flag bit. -/
theorem value_index_eq (pos : Nat) (h : pos < 4294967296) :
    (pos &&& NOT_REG_ENUM_VALUES_MASK) >>> 16 =
      pos / 65536 - 2048 * (pos / 134217728 % 2) := by
  rw [and_not_values_mask, Nat.shiftRight_eq_div_pow]
  have e : (2 : Nat) ^ 27 = 134217728 := by norm_num
  have e16 : (2 : Nat) ^ 16 = 65536 := by norm_num
  rw [e, e16, and_thirty _ (by omega)]
  omega

/-- A host that shows a key enumerates it. -/
theorem enumerates_of_view {env : Env} {wow64 : Nat} {h : HKEY} {ks vs : List (List Nat)}
    (kv : KeyView env wow64 h ks vs) : Enumerates env h ks vs :=
  { key_some := kv.key_some, key_none := kv.key_none, value_some := kv.value_some,
    value_none := kv.value_none }

/-- What the host answers to the enumeration of a sub-key. -/
theorem key_cases {env : Env} {h : HKEY} {ks vs : List (List Nat)}
    (kv : Enumerates env h ks vs) (i : Nat) :
    (i < ks.length ∧ ∃ k, env.RegEnumKeyEx h i = (ERROR_SUCCESS, k)) ∨
    (ks.length ≤ i ∧ (env.RegEnumKeyEx h i).1 = ERROR_NO_MORE_ITEMS) := by
  by_cases hi : i < ks.length
  · left
    exact ⟨hi, ks.get ⟨i, hi⟩, kv.key_some i _ (List.get?_eq_get hi)⟩
  · right
    exact ⟨by omega, kv.key_none i (by omega)⟩

/-- What the host answers to the enumeration of a value. -/
theorem value_cases {env : Env} {h : HKEY} {ks vs : List (List Nat)}
    (kv : Enumerates env h ks vs) (j : Nat) :
    (j < vs.length ∧ ∃ v, env.RegEnumValue h j = (ERROR_SUCCESS, v)) ∨
    (vs.length ≤ j ∧ (env.RegEnumValue h j).1 = ERROR_NO_MORE_ITEMS) := by
  by_cases hj : j < vs.length
  · left
    exact ⟨hj, vs.get ⟨j, hj⟩, kv.value_some j _ (List.get?_eq_get hj)⟩
  · right
    exact ⟨by omega, kv.value_none j (by omega)⟩

/-- On a key with `n` sub-keys and `m` values, from a position of the
traversal the part of `readdir` after the label `retry` returns: either it
lists an entry, keeps the key open and leaves a position of the traversal
whose exposed part is larger, or it reports the end of the directory, closes
the key and leaves a position below 2^31 whose exposed part is not smaller. -/
theorem readdir_retry_advances (env : Env) (wow64 : Nat) (h : HKEY) (ks vs : List (List Nat))
    (kv : Enumerates env h ks vs) (F : Nat)
    (hn : 2 + ks.length + vs.length < 65536) (hm : vs.length + 2048 < 32768) :
    ∀ (fuel pos : Nat) (H : __DIR_hash) (de : dirent) (w : World),
    CursorInv ks.length vs.length pos → passes_left ks.length vs.length pos < fuel →
    ∃ r, readdir_retry env wow64 fuel
          { __d_position := pos, __handle := h, __d_internal := H, __flags := F } de w =
        some r ∧ r.dir.__flags = F ∧
      ((r.res = 0 ∧ r.dir.__handle = h ∧ CursorInv ks.length vs.length r.dir.__d_position ∧
          pos % 65536 < r.dir.__d_position % 65536) ∨
        (r.res = ENMFILE ∧ r.dir.__handle = INVALID_HANDLE_VALUE ∧ r.dir.__d_position ≠ 0 ∧
          pos % 65536 ≤ r.dir.__d_position % 65536 ∧ r.dir.__d_position < 2147483648)) := by
  intro fuel
  induction fuel with
  | zero => intro pos H de w _ hf; omega
  | succ f ih =>
    intro pos H de w hinv hf
    unfold CursorInv next_value at hinv
    unfold passes_left next_value at hf
    by_cases hmask : pos / 134217728 % 2 = 0
    · -- the flag bit is clear: a sub-key is asked for
      have hm0 := (mask_eq_zero_iff pos).2 hmask
      have hsel : (if pos &&& REG_ENUM_VALUES_MASK ≠ 0 then
            env.RegEnumValue h ((pos &&& NOT_REG_ENUM_VALUES_MASK) >>> 16)
          else env.RegEnumKeyEx h (pos - SPECIAL_DOT_FILE_COUNT)) =
          env.RegEnumKeyEx h (pos - SPECIAL_DOT_FILE_COUNT) := if_neg (fun h => h hm0)
      have hsp : SPECIAL_DOT_FILE_COUNT = 2 := rfl
      rcases key_cases kv (pos - SPECIAL_DOT_FILE_COUNT) with ⟨hi, k, hk⟩ | ⟨hi, hk⟩
      · -- the host gives a sub-key
        rw [hsp] at hi
        have hm1 : (pos + 1) &&& REG_ENUM_VALUES_MASK = 0 :=
          (mask_eq_zero_iff _).2 (by omega)
        obtain ⟨H1, hc | hc⟩ := readdir_retry_pass_entry env wow64 f pos h H F de w k
          (by rw [hsel, hk])
        · obtain ⟨de1, hc⟩ := hc
          rw [if_neg (fun h => h hm1)] at hc
          refine ⟨_, hc, rfl, Or.inl ⟨rfl, rfl, ?_, ?_⟩⟩
          · unfold CursorInv next_value
            dsimp only
            omega
          · dsimp only
            omega
        · rw [if_neg (fun h => h hm1)] at hc
          obtain ⟨r, hr, hfl, hres⟩ := ih (pos + 1) H1 de w
            (by unfold CursorInv next_value; omega)
            (by unfold passes_left next_value; omega)
          refine ⟨r, by rw [hc, hr], hfl, ?_⟩
          rcases hres with ⟨h1, h2, h3, h4⟩ | ⟨h1, h2, h3, h4, h5⟩
          · exact Or.inl ⟨h1, h2, h3, by omega⟩
          · exact Or.inr ⟨h1, h2, h3, by omega, h5⟩
      · -- no more sub-keys: the values phase starts
        rw [hsp] at hi
        have hsw := readdir_retry_pass_switch env wow64 f pos h H F de w hm0 hk
        rw [or_values_mask_clear pos hmask] at hsw
        obtain ⟨r, hr, hfl, hres⟩ := ih (pos + 134217728) H de w
          (by unfold CursorInv next_value; omega)
          (by unfold passes_left next_value; omega)
        refine ⟨r, by rw [hsw, hr], hfl, ?_⟩
        rcases hres with ⟨h1, h2, h3, h4⟩ | ⟨h1, h2, h3, h4, h5⟩
        · exact Or.inl ⟨h1, h2, h3, by omega⟩
        · exact Or.inr ⟨h1, h2, h3, by omega, h5⟩
    · -- the flag bit is set: a value is asked for
      have hmask1 : pos / 134217728 % 2 = 1 := by omega
      have hm1 := (mask_ne_zero_iff pos).2 hmask1
      have hidx := value_index_eq pos (by omega)
      have hsel : (if pos &&& REG_ENUM_VALUES_MASK ≠ 0 then
            env.RegEnumValue h ((pos &&& NOT_REG_ENUM_VALUES_MASK) >>> 16)
          else env.RegEnumKeyEx h (pos - SPECIAL_DOT_FILE_COUNT)) =
          env.RegEnumValue h ((pos &&& NOT_REG_ENUM_VALUES_MASK) >>> 16) := if_pos hm1
      rcases value_cases kv ((pos &&& NOT_REG_ENUM_VALUES_MASK) >>> 16) with
        ⟨hj, v, hv⟩ | ⟨hj, hv⟩
      · -- the host gives a value
        rw [hidx] at hj
        have hm2 : (pos + 1) &&& REG_ENUM_VALUES_MASK ≠ 0 :=
          (mask_ne_zero_iff _).2 (by omega)
        obtain ⟨H1, hc | hc⟩ := readdir_retry_pass_entry env wow64 f pos h H F de w v
          (by rw [hsel, hv])
        · obtain ⟨de1, hc⟩ := hc
          rw [if_pos hm2] at hc
          refine ⟨_, hc, rfl, Or.inl ⟨rfl, rfl, ?_, ?_⟩⟩
          · unfold CursorInv next_value
            dsimp only
            omega
          · dsimp only
            omega
        · rw [if_pos hm2] at hc
          obtain ⟨r, hr, hfl, hres⟩ := ih (pos + 1 + 65536) H1 de w
            (by unfold CursorInv next_value; omega)
            (by unfold passes_left next_value; omega)
          refine ⟨r, by rw [hc, hr], hfl, ?_⟩
          rcases hres with ⟨h1, h2, h3, h4⟩ | ⟨h1, h2, h3, h4, h5⟩
          · exact Or.inl ⟨h1, h2, h3, by omega⟩
          · exact Or.inr ⟨h1, h2, h3, by omega, h5⟩
      · -- no more values: the end of the directory
        have he := readdir_retry_pass_end env wow64 f pos h H F de w hm1 hv
        refine ⟨_, he, rfl, Or.inr ⟨rfl, rfl, ?_, le_refl _, ?_⟩⟩
        · dsimp only
          omega
        · dsimp only
          omega


theorem telldir_eq (d : DIR) : telldir d = d.__d_position % 65536 := and_position_mask _

/-- After the end of the listing, every further call reports the end of the
directory and leaves the position where it is. -/
theorem readdir_n_closed_at (env : Env) (wow64 fuel : Nat) (path : List Nat) (H : __DIR_hash)
    (F : Nat) (p : Nat) (hp : at_ path 0 ≠ 0) (h0 : p ≠ 0) :
    ∀ (k : Nat) (de : dirent) (w : World),
    ∃ R : List ReaddirResult,
      (∀ r ∈ R, r.res = ENMFILE ∧ r.dir.__d_position = p) ∧
      readdir_n env wow64 fuel path k
        { __d_position := p, __handle := INVALID_HANDLE_VALUE, __d_internal := H,
          __flags := F ||| 3 } de w = some R := by
  intro k
  induction k with
  | zero => intro de w; exact ⟨[], by simp, rfl⟩
  | succ k ih =>
    intro de w
    obtain ⟨R, hr, hrun⟩ := ih de w
    have hcall := readdir_closed env wow64 fuel path H F de w p hp h0
    refine ⟨{ res := ENMFILE,
              dir := { __d_position := p, __handle := INVALID_HANDLE_VALUE, __d_internal := H,
                       __flags := F ||| 3 },
              de := de, w := w } :: R, ?_, ?_⟩
    · intro r hr'
      rcases List.mem_cons.1 hr' with h1 | h1
      · rw [h1]
        exact ⟨rfl, rfl⟩
      · exact hr r h1
    · rw [readdir_n_step _ _ _ _ _ _ _ _ _ hcall]
      simp only [hrun, Option.map_some']

/-- A run of calls on an open key from a position of the traversal: calls that
list an entry, then calls that report the end of the directory. The exposed
position grows with every entry and is not smaller at the end of the
directory; the position stays below 2^31. -/
theorem readdir_n_advances (env : Env) (wow64 fuel : Nat) (path : List Nat) (h : HKEY)
    (ks vs : List (List Nat)) (kv : Enumerates env h ks vs) (F : Nat)
    (hp : at_ path 0 ≠ 0) (hh : h ≠ INVALID_HANDLE_VALUE)
    (hf : 2 * (ks.length + vs.length) + 2 ≤ fuel)
    (hn : 2 + ks.length + vs.length < 65536) (hm : vs.length + 2048 < 32768) :
    ∀ (k pos : Nat) (H : __DIR_hash) (de : dirent) (w : World),
    CursorInv ks.length vs.length pos →
    ∃ (L R : List ReaddirResult),
      readdir_n env wow64 fuel path k
          { __d_position := pos, __handle := h, __d_internal := H, __flags := F ||| 3 } de w =
        some (L ++ R) ∧
      (∀ r ∈ L, r.res = 0) ∧ (∀ r ∈ R, r.res = ENMFILE) ∧
      List.Pairwise (fun a b => a < b) (pos % 65536 :: L.map (fun r => telldir r.dir)) ∧
      (∀ r ∈ R, ∀ t ∈ pos % 65536 :: L.map (fun r => telldir r.dir), t ≤ telldir r.dir) ∧
      (∀ r ∈ L ++ R, r.dir.__d_position < 2147483648) := by
  intro k
  induction k with
  | zero =>
    intro pos H de w _
    exact ⟨[], [], rfl, by simp, by simp, by simp, by simp, by simp⟩
  | succ k ih =>
    intro pos H de w hinv
    have h2 : 2 ≤ pos := by
      unfold CursorInv at hinv
      omega
    have hpl : passes_left ks.length vs.length pos < fuel := by
      unfold passes_left next_value
      omega
    obtain ⟨r, hr, hfl, hres⟩ := readdir_retry_advances env wow64 h ks vs kv (F ||| 3) hn hm
      fuel pos H de w hinv hpl
    have hcall : readdir env wow64 fuel path
        { __d_position := pos, __handle := h, __d_internal := H, __flags := F ||| 3 } de w =
        some r := by
      rw [readdir_open env wow64 fuel path H F de w h pos hp hh h2, hr]
    obtain ⟨res, ⟨rp, rh, rH, rF⟩, rde, rwd⟩ := r
    simp only at hfl hres
    subst hfl
    rcases hres with ⟨h1, h3, h4, h5⟩ | ⟨h1, h3, h4, h5, h6⟩
    · subst h1
      subst h3
      obtain ⟨L, R, hrun, hL, hR, hP, hE, hB⟩ := ih rp rH rde rwd h4
      have hrp : rp < 2147483648 := by
        unfold CursorInv at h4
        omega
      refine ⟨{ res := 0,
                dir := { __d_position := rp, __handle := rh, __d_internal := rH,
                         __flags := F ||| 3 },
                de := rde, w := rwd } :: L, R, ?_, ?_, hR, ?_, ?_, ?_⟩
      · rw [readdir_n_step _ _ _ _ _ _ _ _ _ hcall]
        simp only [hrun, Option.map_some', List.cons_append]
      · intro r hr'
        rcases List.mem_cons.1 hr' with e | e
        · rw [e]
        · exact hL r e
      · rw [List.map_cons, List.pairwise_cons]
        refine ⟨?_, ?_⟩
        · intro x hx
          rcases List.mem_cons.1 hx with e | e
          · rw [e, telldir_eq]; exact h5
          · have := (List.pairwise_cons.1 hP).1 x e
            omega
        · rw [telldir_eq]
          exact hP
      · intro r hr' t ht
        rw [List.map_cons, telldir_eq] at ht
        rcases List.mem_cons.1 ht with e | e
        · have := hE r hr' (rp % 65536) (List.mem_cons_self _ _)
          omega
        · exact hE r hr' t e
      · intro r hr'
        rw [List.cons_append] at hr'
        rcases List.mem_cons.1 hr' with e | e
        · rw [e]
          exact hrp
        · exact hB r e
    · subst h1 h3
      obtain ⟨R, hRr, hrun⟩ := readdir_n_closed_at env wow64 fuel path rH F rp hp h4 k rde rwd
      refine ⟨[], { res := ENMFILE,
                    dir := { __d_position := rp, __handle := INVALID_HANDLE_VALUE,
                             __d_internal := rH, __flags := F ||| 3 },
                    de := rde, w := rwd } :: R, ?_, by simp, ?_, by simp, ?_, ?_⟩
      · rw [readdir_n_step _ _ _ _ _ _ _ _ _ hcall]
        simp only [hrun, Option.map_some', List.nil_append]
      · intro r hr'
        rcases List.mem_cons.1 hr' with e | e
        · rw [e]
        · exact (hRr r e).1
      · intro r hr' t ht
        have ht' : t = pos % 65536 := by simpa using ht
        have hpr : r.dir.__d_position = rp := by
          rcases List.mem_cons.1 hr' with e | e
          · rw [e]
          · exact (hRr r e).2
        rw [telldir_eq, hpr, ht']
        exact h5
      · intro r hr'
        rw [List.nil_append] at hr'
        have hpr : r.dir.__d_position = rp := by
          rcases List.mem_cons.1 hr' with e | e
          · rw [e]
          · exact (hRr r e).2
        rw [hpr]
        exact h6

/-- C18, as amended: exposed positions never alias among the entries. For
every non-root directory whose key the host enumerates with `n` sub-keys and
`m` values, `2 + n + m < 65536` and `m < 30720`, the calls of `readdir` of
one traversal, from a directory at position 0 that holds no key handle, are
calls that list an entry followed by calls that report the end of the
directory. The value of `telldir` (`position & 0xffff`) strictly increases
across every call that lists an entry, the call that crosses from the
sub-keys to the values included: the values of `telldir` before the first
call and after each of these calls are pairwise distinct, in increasing
order, so no two of these cursor states expose the same value. A call that
reports the end of the directory never lowers the value of `telldir`. Every
position reached is below 2^31, the range of a signed `_off_t` of 32 bits, so
that no addition of the source overflows. The names need not encode: a name
that does not is skipped; the bound on the passes through the label `retry`
is large enough for the skipped names. -/
theorem telldir_strictly_increases (env : Env) (wow64 fuel : Nat) (path : List Nat) (h : HKEY)
    (ks vs : List (List Nat)) (dir : DIR) (de0 : dirent) (w0 w1 : World)
    (kv : Enumerates env h ks vs) (hp : at_ path 0 ≠ 0)
    (hd0 : dir.__d_position = 0) (hd1 : dir.__handle = INVALID_HANDLE_VALUE)
    (ho : open_key env (path.drop 1) KEY_READ wow64 false w0 = (h, w1))
    (hh : h ≠ INVALID_HANDLE_VALUE)
    (hf : 2 * (ks.length + vs.length) + 2 ≤ fuel)
    (hn : 2 + ks.length + vs.length < 65536) (hm : vs.length < 30720) (k : Nat) :
    ∃ (L R : List ReaddirResult),
      readdir_n env wow64 fuel path k dir de0 w0 = some (L ++ R) ∧
      (∀ r ∈ L, r.res = 0) ∧ (∀ r ∈ R, r.res = ENMFILE) ∧
      List.Pairwise (fun a b => a < b) (telldir dir :: L.map (fun r => telldir r.dir)) ∧
      (∀ r ∈ R, ∀ t ∈ telldir dir :: L.map (fun r => telldir r.dir), t ≤ telldir r.dir) ∧
      (∀ r ∈ L ++ R, r.dir.__d_position < 2147483648) := by
  obtain ⟨p, dh, H0, f0⟩ := dir
  simp only at hd0 hd1
  subst hd0 hd1
  let r1 : ReaddirResult :=
    { res := 0,
      dir := { __d_position := 1, __handle := h, __d_internal := __DIR_hash.new,
               __flags := f0 ||| 3 },
      de := { de0 with d_name := cstr "." }, w := w1 }
  let r2 : ReaddirResult :=
    { res := 0,
      dir := { __d_position := 2, __handle := h, __d_internal := __DIR_hash.new,
               __flags := f0 ||| 3 },
      de := { d_name := cstr "..", d_type := de0.d_type }, w := w1 }
  have c1 : readdir env wow64 fuel path
      { __d_position := 0, __handle := INVALID_HANDLE_VALUE, __d_internal := H0,
        __flags := f0 } de0 w0 = some r1 :=
    readdir_first env wow64 fuel path H0 f0 de0 w0 w1 h hp ho hh
  have c2 : readdir env wow64 fuel path r1.dir r1.de r1.w = some r2 :=
    readdir_second env wow64 fuel path __DIR_hash.new f0
      { de0 with d_name := cstr "." } w1 h hp hh
  have t0 : ∀ d : DIR, d.__d_position = 0 → telldir d = 0 := by
    intro d hd
    rw [telldir_eq, hd]
  have e1 : telldir r1.dir = 1 := by
    rw [telldir_eq]
    rfl
  have e2 : telldir r2.dir = 2 := by
    rw [telldir_eq]
    rfl
  match k with
  | 0 => exact ⟨[], [], rfl, by simp, by simp, by simp, by simp, by simp⟩
  | 1 =>
    refine ⟨[r1], [], ?_, ?_, by simp, ?_, by simp, ?_⟩
    · rw [readdir_n_step _ _ _ _ _ _ _ _ _ c1]
      rfl
    · intro r hr
      rw [List.mem_singleton.1 hr]
    · rw [t0 _ rfl, List.map_singleton, e1]
      simp
    · intro r hr
      rw [List.append_nil, List.mem_singleton] at hr
      rw [hr]
      show (1 : Nat) < 2147483648
      omega
  | k + 2 =>
    have hinv : CursorInv ks.length vs.length 2 := by
      unfold CursorInv next_value
      omega
    obtain ⟨L, R, hrun, hL, hR, hP, hE, hB⟩ := readdir_n_advances env wow64 fuel path h ks vs kv
      f0 hp hh hf hn (by omega) k 2 __DIR_hash.new { d_name := cstr "..", d_type := de0.d_type }
      w1 hinv
    have hm2 : (2 : Nat) % 65536 = 2 := rfl
    rw [hm2] at hP hE
    have hP' := List.pairwise_cons.1 hP
    refine ⟨r1 :: r2 :: L, R, ?_, ?_, hR, ?_, ?_, ?_⟩
    · rw [readdir_n_step _ _ _ _ _ _ _ _ _ c1, readdir_n_step _ _ _ _ _ _ _ _ _ c2]
      simp only [r2, hrun, Option.map_some', List.cons_append]
    · intro r hr
      rcases List.mem_cons.1 hr with e | e
      · rw [e]
      · rcases List.mem_cons.1 e with e | e
        · rw [e]
        · exact hL r e
    · rw [t0 _ rfl, List.map_cons, List.map_cons, e1, e2]
      simp only [List.pairwise_cons, List.mem_cons]
      refine ⟨?_, ?_, hP'.1, hP'.2⟩
      · intro x hx
        rcases hx with e | e | e
        · omega
        · omega
        · have := hP'.1 x e
          omega
      · intro x hx
        rcases hx with e | e
        · omega
        · have := hP'.1 x e
          omega
    · intro r hr t ht
      rw [t0 _ rfl, List.map_cons, List.map_cons, e1, e2] at ht
      have h2r := hE r hr 2 (List.mem_cons_self _ _)
      rcases List.mem_cons.1 ht with e | e
      · omega
      · rcases List.mem_cons.1 e with e | e
        · omega
        · rcases List.mem_cons.1 e with e | e
          · omega
          · exact hE r hr t (List.mem_cons_of_mem _ e)
    · intro r hr
      rw [List.cons_append, List.cons_append] at hr
      rcases List.mem_cons.1 hr with e | e
      · rw [e]
        show (1 : Nat) < 2147483648
        omega
      · rcases List.mem_cons.1 e with e | e
        · rw [e]
          show (2 : Nat) < 2147483648
          omega
        · exact hB r e

/-- Witness of the amended C18 on the key `SOFTWARE` of the small store, one
sub-key and three values: after the eight calls `telldir` has been 1, 2, 3,
4, 5, 6 and, at the end of the directory, 6. -/
theorem telldir_strictly_increases_witness :
    (readdir_n demo_env 0 10 (cstr "/HKEY_LOCAL_MACHINE/SOFTWARE") 8 opendir dirent0
        world0).map (fun rs => rs.map (fun r => (r.res, telldir r.dir))) =
      some [(0, 1), (0, 2), (0, 3), (0, 4), (0, 5), (0, 6), (ENMFILE, 6), (ENMFILE, 6)] ∧
    ∃ (L R : List ReaddirResult),
      readdir_n demo_env 0 10 (cstr "/HKEY_LOCAL_MACHINE/SOFTWARE") 8 opendir dirent0 world0 =
        some (L ++ R) ∧
      (∀ r ∈ L, r.res = 0) ∧ (∀ r ∈ R, r.res = ENMFILE) ∧
      List.Pairwise (fun a b => a < b) (telldir opendir :: L.map (fun r => telldir r.dir)) ∧
      (∀ r ∈ R, ∀ t ∈ telldir opendir :: L.map (fun r => telldir r.dir), t ≤ telldir r.dir) ∧
      (∀ r ∈ L ++ R, r.dir.__d_position < 2147483648) :=
  ⟨by decide,
    telldir_strictly_increases demo_env 0 10 (cstr "/HKEY_LOCAL_MACHINE/SOFTWARE") 100
      [cstr "Cygwin"] [[], cstr "Cygwin", cstr "Version"] opendir dirent0 world0
      { opened := [100], errno := 0 }
      (enumerates_of_view (store_env_view demo_keys 0 demo_software (by decide))) (by decide)
      (by decide) (by decide) (by decide) (by decide) (by decide) (by decide) (by decide) 8⟩

/-- C18 as stated fails: the key `HKEY_LOCAL_MACHINE` of the small store has
one sub-key and no value, `2 + n + m = 3`. The third call of `readdir` lists
the sub-key and leaves the position 3; the fourth call finds no more
sub-keys, sets the flag bit (lines 480-487), finds no value and reports the
end of the directory. It leaves the position `3 + 0x8000000`: two distinct
cursor states of the traversal expose the same value 3 of `telldir`. -/
theorem telldir_aliases_at_end :
    demo_env.RegEnumKeyEx HKEY_LOCAL_MACHINE 0 = (ERROR_SUCCESS, cstr "SOFTWARE") ∧
    (demo_env.RegEnumKeyEx HKEY_LOCAL_MACHINE 1).1 = ERROR_NO_MORE_ITEMS ∧
    (demo_env.RegEnumValue HKEY_LOCAL_MACHINE 0).1 = ERROR_NO_MORE_ITEMS ∧
    (readdir_n demo_env 0 2 (cstr "/HKEY_LOCAL_MACHINE") 4 opendir dirent0 world0).map
        (fun rs => rs.map (fun r => (r.res, r.dir.__d_position, telldir r.dir))) =
      some [(0, 1, 1), (0, 2, 2), (0, 3, 3), (ENMFILE, 3 + 134217728, 3)] := by
  decide

/-! ## The length of an encoded name -/

/-- The loop of `encode_regname` on a run of percent signs that fits: every
one is written as its escape. -/
theorem encode_loop_percents (N : Nat) (src rest : List Nat) :
    ∀ (e si : Nat) (dst : List Nat), dst.length + 3 * e ≤ N →
      encode_loop N src (List.replicate e 37 ++ rest) si dst =
        encode_loop N src rest (si + e) (dst ++ (List.replicate e [37, 50, 53]).flatten) := by
  intro e
  induction e with
  | zero => intro si dst _; simp
  | succ e ih =>
    intro si dst h
    have hlt : ¬ (dst.length + 3 ≥ N + 1) := by omega
    have hs : small_sprintf_pct02x 37 = [37, 50, 53] := by decide
    have hme : ∀ b : Bool, (must_encode 37 || b) = true := fun _ => rfl
    rw [List.replicate_succ, List.cons_append, encode_loop]
    rw [if_neg (by decide), if_pos (hme _), if_neg hlt, hs,
      ih (si + 1) (dst ++ [37, 50, 53]) (by simp; omega)]
    simp [List.replicate_succ, Nat.add_assoc, Nat.add_comm 1 e]

theorem encode_percents (p : Nat) :
    encode_regname 255 (List.replicate 85 37 ++ List.replicate p 97) false =
      (0, (List.replicate 85 [37, 50, 53]).flatten ++ List.replicate p 97) := by
  have h1 := encode_loop_percents 255 (List.replicate 85 37 ++ List.replicate p 97)
    (List.replicate p 97) 85 0 [] (by decide)
  have h2 := encode_loop_plain 255 (List.replicate 85 37 ++ List.replicate p 97)
    (List.replicate p 97) (0 + 85) ([] ++ (List.replicate 85 [37, 50, 53]).flatten)
    (by
      intro c hc
      rw [List.eq_of_mem_replicate hc]
      decide)
  unfold encode_regname
  rw [h1, h2]
  rfl

set_option maxRecDepth 100000 in
/-- C21 at the failing input. A raw name of 85 percent signs followed by `p`
letters `a` has `85 + p` characters, at most `NAME_MAX` = 255 for `p` up to
170. `encode_regname` returns 0 for it and writes `255 + p` characters: the
85 escapes fill the 255 characters, the test of line 103 guards only the
escapes, and the letters are stored by line 109 without a test. With one
letter the encoded name has 256 characters, and `readdir` lists the value of
that name with a name of 256 characters. -/
theorem encode_regname_exceeds_name_max :
    (∀ p : Nat,
      (List.replicate 85 37 ++ List.replicate p 97).length = 85 + p ∧
      (encode_regname 255 (List.replicate 85 37 ++ List.replicate p 97) false).1 = 0 ∧
      (encode_regname 255 (List.replicate 85 37 ++ List.replicate p 97) false).2.length =
        255 + p) ∧
    percent_name.length = 86 ∧ percent_env.NAME_MAX = 255 ∧
    percent_env.RegEnumValue HKEY_LOCAL_MACHINE 0 = (ERROR_SUCCESS, percent_name) ∧
    (encode_regname 255 percent_name false).1 = 0 ∧
    (encode_regname 255 percent_name false).2.length = 256 ∧
    (readdir_n percent_env 0 3 (cstr "/HKEY_LOCAL_MACHINE") 3 opendir dirent0 world0).map
        (fun rs => rs.map (fun r => (r.res, r.de.d_name.length, r.de.d_type))) =
      some [(0, 1, 0), (0, 2, 0), (0, 256, DT_REG)] := by
  refine ⟨?_, by decide, rfl, by decide, by decide, by decide, by decide⟩
  intro p
  have hj : ((List.replicate 85 [37, 50, 53]).flatten).length = 255 := by decide
  rw [encode_percents]
  simp only [List.length_append, List.length_replicate, hj, and_self]

/-! ## The loop of seekdir on a key that cannot be opened -/

/-- What `rewinddir` leaves: position 0, no key handle, the two dot flags;
the handle the directory held is closed. -/
theorem rewinddir_eq (dir : DIR) (w : World) :
    rewinddir dir w =
      ({ __d_position := 0, __handle := INVALID_HANDLE_VALUE,
         __d_internal := dir.__d_internal,
         __flags := dirent_saw_dot ||| dirent_saw_dot_dot },
       if dir.__handle ≠ INVALID_HANDLE_VALUE then RegCloseKey dir.__handle w else w) := by
  unfold rewinddir
  dsimp only
  by_cases h : dir.__handle ≠ INVALID_HANDLE_VALUE
  · rw [if_pos h, if_pos h]
  · rw [if_neg h, if_neg h]
    have h1 : dir.__handle = INVALID_HANDLE_VALUE := by simpa using h
    rw [h1]

/-- A call on a rewound directory whose key cannot be opened reports the end
of the directory and leaves the directory rewound. -/
theorem readdir_unopened (env : Env) (wow64 fuel : Nat) (path : List Nat) (H : __DIR_hash)
    (F : Nat) (de : dirent) (w : World) (hp : at_ path 0 ≠ 0)
    (ho : (open_key env (path.drop 1) KEY_READ wow64 false w).1 = INVALID_HANDLE_VALUE) :
    readdir env wow64 fuel path
      { __d_position := 0, __handle := INVALID_HANDLE_VALUE, __d_internal := H, __flags := F }
      de w =
    some { res := ENMFILE,
           dir := { __d_position := 0, __handle := INVALID_HANDLE_VALUE, __d_internal := H,
                    __flags := F ||| 3 },
           de := de, w := (open_key env (path.drop 1) KEY_READ wow64 false w).2 } := by
  unfold readdir
  simp only [hp, if_false, ho, if_true, ne_eq, not_true_eq_false, saw_dots]

/-- The loop of `seekdir` on a rewound directory whose key cannot be opened,
with a target beyond 0: whatever the bound on the number of calls of
`readdir`, the loop has not been left when the bound is reached. -/
theorem seekdir_loop_spins (env : Env) (wow64 fuel : Nat) (path : List Nat) (loc : Nat)
    (hp : at_ path 0 ≠ 0)
    (ho : ∀ w, (open_key env (path.drop 1) KEY_READ wow64 false w).1 = INVALID_HANDLE_VALUE) :
    ∀ (n : Nat) (H : __DIR_hash) (F : Nat) (de : dirent) (w : World),
      seekdir_loop env wow64 fuel path (loc + 1) n
        { __d_position := 0, __handle := INVALID_HANDLE_VALUE, __d_internal := H, __flags := F }
        de w = none := by
  intro n
  induction n with
  | zero => intro H F de w; rfl
  | succ n ih =>
    intro H F de w
    have hc : loc + 1 > (0 &&& REG_POSITION_MASK) := by
      rw [Nat.zero_and]
      omega
    rw [seekdir_loop]
    dsimp only
    rw [if_pos hc, readdir_unopened env wow64 fuel path H F de w hp (ho w)]
    dsimp only
    rw [if_neg (by decide)]
    exact ih _ _ _ _

/-- C23 at the failing input: the directory of a key that cannot be opened,
`HKEY_LOCAL_MACHINE/Missing` in the small store, in any state, and any
target beyond 0. After the rewind `readdir` reports the end of the directory
(it returns `ENMFILE`, not 0) and leaves the position 0 and no key handle, so
the test of the loop holds again and the `break` is not taken: for every
bound `n` on the number of calls of `readdir` the loop of `seekdir` has not
returned when the bound is reached. -/
theorem seekdir_spins_without_key (fuel n loc : Nat) (dir : DIR) (de : dirent) (w : World) :
    (open_key demo_env (cstr "HKEY_LOCAL_MACHINE/Missing") KEY_READ 0 false w).1 =
      INVALID_HANDLE_VALUE ∧
    (∃ r, readdir demo_env 0 fuel (cstr "/HKEY_LOCAL_MACHINE/Missing") (rewinddir dir w).1 de
        (rewinddir dir w).2 = some r ∧
      r.res = ENMFILE ∧ r.dir.__d_position = 0 ∧ r.dir.__handle = INVALID_HANDLE_VALUE ∧
      loc + 1 > telldir r.dir) ∧
    seekdir demo_env 0 fuel (cstr "/HKEY_LOCAL_MACHINE/Missing") (loc + 1) n dir de w = none := by
  have hp : at_ (cstr "/HKEY_LOCAL_MACHINE/Missing") 0 ≠ 0 := by decide
  have ho : ∀ w, (open_key demo_env ((cstr "/HKEY_LOCAL_MACHINE/Missing").drop 1) KEY_READ 0
      false w).1 = INVALID_HANDLE_VALUE := by
    intro w
    rw [open_key_handle demo_env _ KEY_READ 0 false w world0]
    decide
  refine ⟨ho w, ?_, ?_⟩
  · rw [rewinddir_eq]
    dsimp only
    rw [readdir_unopened demo_env 0 fuel _ _ _ de _ hp (ho _)]
    refine ⟨_, rfl, rfl, rfl, rfl, ?_⟩
    show loc + 1 > (0 &&& REG_POSITION_MASK)
    rw [Nat.zero_and]
    omega
  · unfold seekdir
    rw [rewinddir_eq]
    exact seekdir_loop_spins demo_env 0 fuel _ loc hp ho n _ _ de _

/-! ## Passes of readdir on names that do not encode -/

end Registry
